import Mathlib

/-!
# Waveshare 2.13" e-paper driver (`epd.go`, package `epaper`)

A shallow embedding of the driver and a verification of its specification.

* Go `int` is modelled by `Int`; the operations whose operands are not bounded by
  construction go through `Go.add`, `Go.sub`, `Go.mul`, which wrap to 64 bits.
* Go `byte` / `[]byte` are `Nat` / `List Nat`; a slice access outside the slice is a
  run-time panic.
* The hardware (three output pins, the busy input pin, the SPI connection) and the
  standard output are a `World`: the trace of events so far and the levels the busy
  line will show at its next reads.
-/

namespace Epaper

/-! ## Go integers -/

/-- Two's-complement wrap of a mathematical integer to the 64-bit Go `int`. -/
def wrapInt (n : Int) : Int :=
  (n + 9223372036854775808) % 18446744073709551616 - 9223372036854775808

namespace Go

/-- Go `a + b` on `int`. -/
def add (a b : Int) : Int := wrapInt (a + b)

/-- Go `a - b` on `int`. -/
def sub (a b : Int) : Int := wrapInt (a - b)

/-- Go `a * b` on `int`. -/
def mul (a b : Int) : Int := wrapInt (a * b)

/-- Go `a / b` on `int`: the quotient truncated toward zero. -/
def div (a b : Int) : Int := Int.tdiv a b

/-- Go `a % b` on `int`: the remainder of the truncated division. -/
def mod (a b : Int) : Int := Int.tmod a b

end Go

/-! ## The world the driver acts on -/

/-- The three output lines of the panel. -/
inductive Pin where
  | rst
  | dc
  | cs
  deriving DecidableEq, Repr

/-- One observable action of the driver. -/
inductive Event where
  /-- `pin.Out(level)` on an output pin (`true` is `gpio.High`). -/
  | out (pin : Pin) (level : Bool)
  /-- `busyPin.Read()` and the level it returned. -/
  | read (level : Bool)
  /-- `spiConn.Tx(w, r)`: the bytes `w` written in one bus transfer. -/
  | tx (w : List Nat)
  /-- `time.Sleep` of so many milliseconds. -/
  | sleep (ms : Nat)
  /-- Text written to the standard output. -/
  | print (s : String)
  deriving DecidableEq, Repr

/-- The state of the environment: what the driver has done so far, and the levels
the busy line shows at the reads still to come. -/
structure World where
  trace : List Event
  busy : List Bool
  deriving DecidableEq, Repr

/-- How a call ends: it returns a value, it dies in a run-time panic, or it is
still polling the busy line when the script of busy levels is used up. -/
inductive Run (α : Type) where
  | done (a : α) (w : World)
  | panic (w : World)
  | waiting (w : World)
  deriving DecidableEq, Repr

/-- A driver computation. -/
def Drv (α : Type) : Type := World → Run α

/-- Return without touching the world. -/
def Drv.pure {α : Type} (a : α) : Drv α := fun w => Run.done a w

/-- Sequencing: a panic or a blocked wait ends the whole computation. -/
def Drv.bind {α β : Type} (m : Drv α) (f : α → Drv β) : Drv β := fun w =>
  match m w with
  | Run.done a w1 => f a w1
  | Run.panic w1 => Run.panic w1
  | Run.waiting w1 => Run.waiting w1

instance : Monad Drv where
  pure := Drv.pure
  bind := Drv.bind

/-- Append one event to the trace. -/
def emit (ev : Event) : Drv Unit := fun w =>
  Run.done () { w with trace := w.trace ++ [ev] }

/-- A Go run-time panic. -/
def runtimePanic {α : Type} : Drv α := fun w => Run.panic w

/-- `pin.Out(level)`. -/
def pinOut (pin : Pin) (level : Bool) : Drv Unit := emit (Event.out pin level)

/-- `spiConn.Tx(c, r)`; the bytes read back are not used by the driver. -/
def spiTx (c : List Nat) : Drv Unit := emit (Event.tx c)

/-- `time.Sleep(ms * time.Millisecond)`. -/
def timeSleep (ms : Nat) : Drv Unit := emit (Event.sleep ms)

/-- `fmt.Println(s)`. -/
def fmtPrintln (s : String) : Drv Unit := emit (Event.print (s ++ "\n"))

/-- `fmt.Printf` with the text already formatted. -/
def fmtPrintf (s : String) : Drv Unit := emit (Event.print s)

/-- `make([]byte, size)`: a zeroed slice; a negative length panics. -/
def makeBytes (size : Int) : Drv (List Nat) :=
  if size < 0 then runtimePanic else pure (List.replicate size.toNat 0)

/-- `s[i]` read: panics outside `0 <= i < len(s)`. -/
def index (s : List Nat) (i : Int) : Drv Nat :=
  if 0 ≤ i ∧ i < s.length then pure (s.getD i.toNat 0) else runtimePanic

/-- `s[i] = v`: panics outside `0 <= i < len(s)`. -/
def setIndex (s : List Nat) (i : Int) (v : Nat) : Drv (List Nat) :=
  if 0 ≤ i ∧ i < s.length then pure (s.set i.toNat v) else runtimePanic

/-- `s[i] &= m`: panics outside `0 <= i < len(s)`. -/
def andIndex (s : List Nat) (i : Int) (m : Nat) : Drv (List Nat) :=
  if 0 ≤ i ∧ i < s.length then pure (s.set i.toNat (s.getD i.toNat 0 &&& m))
  else runtimePanic

/-- The byte `^(0x80 >> k)`: the constant takes the type `byte` of the slice element
it is and-ed into, so the complement is within 8 bits. The shift counts of the
driver are remainders of non-negative numbers. -/
def clearMask (k : Int) : Nat := (0x80 >>> k.toNat) ^^^ 0xFF

/-- The iterations `i, i+1, ...` of a counting loop, `count` of them, threading the
loop's variables `s`. -/
def loopFrom {σ : Type} (body : Int → σ → Drv σ) : Nat → Int → σ → Drv σ
  | 0, _, s, w => Run.done s w
  | count + 1, i, s, w =>
    match body i s w with
    | Run.done s1 w1 => loopFrom body count (i + 1) s1 w1
    | Run.panic w1 => Run.panic w1
    | Run.waiting w1 => Run.waiting w1

/-- The loop `for i := 0; i < n; i++ { body }`, where the body assigns neither `i`
nor `n`. -/
def forLoop {σ : Type} (n : Int) (body : Int → σ → Drv σ) (s : σ) : Drv σ :=
  loopFrom body n.toNat 0 s

/-! ## Images (Go standard library `image` and `image/color`) -/

/-- The type `color.RGBA`: four 8-bit channels. -/
structure Color where
  R : Nat
  G : Nat
  B : Nat
  A : Nat
  deriving DecidableEq, Repr

/-- The method `color.RGBA.RGBA()`: each 8-bit channel `v` widened to the 16-bit
value `v | v << 8`, as a `uint32`. -/
def Color.RGBA (c : Color) : Nat × Nat × Nat × Nat :=
  ((c.R ||| (c.R <<< 8)) % 4294967296, (c.G ||| (c.G <<< 8)) % 4294967296,
   (c.B ||| (c.B <<< 8)) % 4294967296, (c.A ||| (c.A <<< 8)) % 4294967296)

/-- The type `image.Point`. -/
structure Point where
  X : Int
  Y : Int
  deriving DecidableEq, Repr

/-- The type `image.Rectangle`. -/
structure Rectangle where
  Min : Point
  Max : Point
  deriving DecidableEq, Repr

/-- The method `Rectangle.Dx()`. -/
def Rectangle.Dx (r : Rectangle) : Int := Go.sub r.Max.X r.Min.X

/-- The method `Rectangle.Dy()`. -/
def Rectangle.Dy (r : Rectangle) : Int := Go.sub r.Max.Y r.Min.Y

/-- The method `Point.In(r)`. -/
def Point.In (p : Point) (r : Rectangle) : Bool :=
  decide (r.Min.X ≤ p.X ∧ p.X < r.Max.X ∧ r.Min.Y ≤ p.Y ∧ p.Y < r.Max.Y)

/-- The type `image.RGBA`: its bounds `Rect`, and for each point of the bounds the
four bytes its pixel buffer holds for that point (`Pix` at `PixOffset(x, y)`). -/
structure RGBA where
  Rect : Rectangle
  stored : Int → Int → Color

/-- The method `(*image.RGBA).At(x, y)`: the stored colour inside the bounds, the
zero colour (transparent) outside. -/
def RGBA.At (p : RGBA) (x y : Int) : Color :=
  if Point.In ⟨x, y⟩ p.Rect then
    let c := p.stored x y
    ⟨c.R % 256, c.G % 256, c.B % 256, c.A % 256⟩
  else ⟨0, 0, 0, 0⟩

/-! ## The driver -/

/-- The struct `Epd`. Its port, connection and pin fields are handles on the
hardware, which is the `World` here. -/
structure Epd where
  Width : Int
  Height : Int
  deriving DecidableEq, Repr

/-- The constructor `CreateEpd`: the panel geometry. Opening the port and looking up
the pins has no part in what follows. -/
def CreateEpd : Epd := { Width := 122, Height := 250 }

/-- The method `reset`. -/
def reset : Drv Unit := do
  pinOut Pin.rst true
  timeSleep 200
  pinOut Pin.rst false
  timeSleep 5
  pinOut Pin.rst true
  timeSleep 200

/-- The loop of `readBusy` on the levels still to come: a busy (high) level is
followed by a sleep of 100 ms and the next read, an idle level ends the loop, and
with no level left the call is still waiting. -/
def readBusyLoop : List Bool → List Event → Run Unit
  | [], t => Run.waiting ⟨t, []⟩
  | true :: rest, t => readBusyLoop rest (t ++ [Event.read true, Event.sleep 100])
  | false :: rest, t => Run.done () ⟨t ++ [Event.read false], rest⟩

/-- The method `readBusy`. -/
def readBusy : Drv Unit := fun w => readBusyLoop w.busy w.trace

/-- The method `sendCommand`. -/
def sendCommand (command : Nat) : Drv Unit := do
  pinOut Pin.dc false
  pinOut Pin.cs false
  spiTx [command]
  pinOut Pin.cs true
  readBusy

/-- The method `sendData`. -/
def sendData (data : Nat) : Drv Unit := do
  pinOut Pin.dc true
  pinOut Pin.cs false
  spiTx [data]
  pinOut Pin.cs true
  readBusy

/-- The method `executeCommandAndLog`. -/
def executeCommandAndLog (command : Nat) (log : String) (data : List Nat) : Drv Unit := do
  fmtPrintln log
  sendCommand command
  forLoop data.length (fun i _ => do
    let d ← index data i
    sendData d) ()

/-- The method `Sleep`. -/
def Sleep : Drv Unit := do
  executeCommandAndLog 0x10 "DEEP_SLEEP" [0x03]
  timeSleep 100

/-- The value of `lineWidth` that `Display`, `Clear` and `GetBuffer` each compute
first: `e.Width / 8`, incremented when `e.Width % 8 != 0`. -/
def lineWidth (e : Epd) : Int :=
  if Go.mod e.Width 8 ≠ 0 then Go.add (Go.div e.Width 8) 1 else Go.div e.Width 8

/-- The method `TurnDisplayOn`. -/
def TurnDisplayOn : Drv Unit := do
  sendCommand 0x22
  sendData 0xC7
  sendCommand 0x20
  readBusy

/-- The method `Display`. -/
def Display (e : Epd) (image : List Nat) : Drv Unit := do
  let lineWidth := lineWidth e
  sendCommand 0x24
  forLoop e.Height (fun j _ =>
    forLoop lineWidth (fun i _ => do
      let d ← index image (Go.add i (Go.mul j lineWidth))
      sendData d) ()) ()
  TurnDisplayOn

/-- The table `lutFullUpdate`. -/
def lutFullUpdate : List Nat := [
  0x80, 0x60, 0x40, 0x00, 0x00, 0x00, 0x00,
  0x10, 0x60, 0x20, 0x00, 0x00, 0x00, 0x00,
  0x80, 0x60, 0x40, 0x00, 0x00, 0x00, 0x00,
  0x10, 0x60, 0x20, 0x00, 0x00, 0x00, 0x00,
  0x00, 0x00, 0x00, 0x00, 0x00, 0x00, 0x00,

  0x03, 0x03, 0x00, 0x00, 0x02,
  0x09, 0x09, 0x00, 0x00, 0x02,
  0x03, 0x03, 0x00, 0x00, 0x02,
  0x00, 0x00, 0x00, 0x00, 0x00,
  0x00, 0x00, 0x00, 0x00, 0x00,
  0x00, 0x00, 0x00, 0x00, 0x00,
  0x00, 0x00, 0x00, 0x00, 0x00,

  0x15, 0x41, 0xA8, 0x32, 0x30, 0x0A]

/-- The method `Init`. -/
def Init : Drv Unit := do
  reset
  readBusy
  executeCommandAndLog 0x12 "SOFT_RESET" []
  readBusy
  executeCommandAndLog 0x74 "SET_ANALOG_BLOCK_CONTROL" [0x54]
  executeCommandAndLog 0x7E "SET_DIGITAL_BLOCK_CONTROL" [0x3B]
  executeCommandAndLog 0x01 "DRIVER_OUTPUT_CONTROL" [0xF9, 0x0, 0x0]
  executeCommandAndLog 0x11 "DATA_ENTRY_MODE" [0x01]
  executeCommandAndLog 0x44
    "SET_X-RAM_START_END_POSITION - Second data byte 0x0C-->(15+1)*8=128" [0x0, 0x0F]
  executeCommandAndLog 0x45
    "SET_X-RAM_START_END_POSITION - First data byte 0xF9-->(249+1)=250" [0xF9, 0x0, 0x0, 0x0]
  executeCommandAndLog 0x3C "BorderWavefrom" [0x03]
  executeCommandAndLog 0x2C "VCOM_VOLTAGE" [0x55]
  let l70 ← index lutFullUpdate 70
  executeCommandAndLog 0x03 "lut_full_update[70]" [l70]
  let l71 ← index lutFullUpdate 71
  let l72 ← index lutFullUpdate 72
  let l73 ← index lutFullUpdate 73
  executeCommandAndLog 0x04 "lut_full_update[71-72-73]" [l71, l72, l73]
  let l74 ← index lutFullUpdate 74
  executeCommandAndLog 0x3A "DUMMY_LINE" [l74]
  let l75 ← index lutFullUpdate 75
  executeCommandAndLog 0x3B "GATE_TIME" [l75]
  executeCommandAndLog 0x32 "lut_full_update[0:70]" []
  forLoop 70 (fun i _ => do
    let d ← index lutFullUpdate i
    sendData d) ()
  executeCommandAndLog 0x4E "SET_X-RAM_ADDRESS_COUNT_TO_ZERO" [0x0]
  executeCommandAndLog 0x4F "SET_Y-RAM_ADDRESS_COUNT_TO_0x127" [0xF9, 0x0]
  readBusy
  fmtPrintln "INIT DONE"
  timeSleep 100

/-- The method `TurnDisplayOff`. -/
def TurnDisplayOff : Drv Unit := do
  sendCommand 0x22
  sendData 0xC7
  sendCommand 0x20

/-- The method `Clear`. -/
def Clear (e : Epd) : Drv Unit := do
  let lineWidth := lineWidth e
  sendCommand 0x24
  forLoop e.Height (fun _ _ =>
    forLoop lineWidth (fun _ _ => sendData 0xFF) ()) ()
  TurnDisplayOff

/-- The function `getRGBA`. -/
def getRGBA (image : RGBA) (x y : Int) : Int × Int × Int × Int :=
  let (r, g, b, a) := (image.At x y).RGBA
  (((r / 257 : Nat) : Int), ((g / 257 : Nat) : Int), ((b / 257 : Nat) : Int),
   ((a / 257 : Nat) : Int))

/-- The function `isBlack`. -/
def isBlack (image : RGBA) (x y : Int) : Bool :=
  let (r, g, b, a) := getRGBA image x y
  let offset : Int := 10
  decide (r < 255 - offset) && decide (g < 255 - offset) && decide (b < 255 - offset)
    && decide (a > offset)

/-- The text of the diagnostic `GetBuffer` prints for an image of neither size. -/
def cantConvert (lineWidth height imageWidth imageHeight : Int) : String :=
  "Can't convert image expected " ++ toString lineWidth ++ " " ++ toString height
    ++ " but having " ++ toString imageWidth ++ " " ++ toString imageHeight

/-- The method `GetBuffer`. -/
def GetBuffer (e : Epd) (image : RGBA) : Drv (List Nat) := do
  let lineWidth := lineWidth e
  let size := Go.mul lineWidth e.Height
  let data ← makeBytes size
  let data ← forLoop data.length (fun i data => setIndex data i 0xFF) data
  let imageWidth := image.Rect.Dx
  let imageHeight := image.Rect.Dy
  if imageWidth = e.Width ∧ imageHeight = e.Height then
    forLoop imageHeight (fun y data =>
      forLoop imageWidth (fun x data =>
        if isBlack image x y then
          let pos := Go.sub imageWidth x
          andIndex data (Go.add (Go.div pos 8) (Go.mul y lineWidth)) (clearMask (Go.mod pos 8))
        else pure data) data) data
  else if imageWidth = e.Height ∧ imageHeight = e.Width then
    forLoop imageHeight (fun y data =>
      forLoop imageWidth (fun x data =>
        if isBlack image x y then
          let posx := y
          let posy := Go.sub (Go.sub imageWidth (Go.sub (Go.sub e.Height x) 1)) 1
          andIndex data (Go.add (Go.div posx 8) (Go.mul posy lineWidth)) (clearMask (Go.mod y 8))
        else pure data) data) data
  else do
    fmtPrintf (cantConvert lineWidth e.Height imageWidth imageHeight)
    pure data

/-! ## What is observed

### Bits of the buffer -/

/-- Bit `j` of the byte `b`, counted from the most significant bit. -/
def bitFromMSB (b : Nat) (j : Nat) : Bool := b.testBit (7 - j)

/-- Bit `k` of a buffer, counted from the most significant bit of its first byte. -/
def bitOf (data : List Nat) (k : Nat) : Bool := bitFromMSB (data.getD (k / 8) 0) (k % 8)

/-- A buffer of `n` bytes. -/
def IsBuffer (n : Nat) (data : List Nat) : Prop :=
  data.length = n ∧ ∀ i, i < n → data.getD i 0 < 256

/-- The computation `m` on a buffer of `n` bytes returns a buffer of `n` bytes,
leaves the world alone, and clears exactly the bits in `S`. -/
def Clears (n : Nat) (m : List Nat → Drv (List Nat)) (S : Nat → Prop) : Prop :=
  ∀ data w, IsBuffer n data → ∃ data1, m data w = Run.done data1 w ∧ IsBuffer n data1 ∧
    ∀ k, (bitOf data1 k = false ↔ (bitOf data k = false ∨ S k))

/-! ### Concrete images and worlds -/

/-- An opaque black pixel. -/
def blackPixel : Color := ⟨0, 0, 0, 255⟩

/-- An opaque white pixel. -/
def whitePixel : Color := ⟨255, 255, 255, 255⟩

/-- The image with bounds `(0,0)-(dx,dy)` whose pixels all have the colour `c`. -/
def uniformImage (dx dy : Int) (c : Color) : RGBA :=
  ⟨⟨⟨0, 0⟩, ⟨dx, dy⟩⟩, fun _ _ => c⟩

/-- The image with bounds `(0,0)-(dx,dy)` that is white but for a black pixel at
`(0, 0)`. -/
def cornerImage (dx dy : Int) : RGBA :=
  ⟨⟨⟨0, 0⟩, ⟨dx, dy⟩⟩, fun x y => if x = 0 ∧ y = 0 then blackPixel else whitePixel⟩

/-- A world in which nothing has happened yet and the busy line has no reading. -/
def quiet : World := ⟨[], []⟩

/-! ### Transfers on the bus -/

/-- A bus transfer as the panel reads it: the bytes of one `Tx`, taken as a command
when the data/command line is low and as data when it is high. -/
inductive Xfer where
  | command (bytes : List Nat)
  | data (bytes : List Nat)
  deriving DecidableEq, Repr

/-- The bus transfers of a trace, the data/command line being at level `dc` when the
trace starts. -/
def transfers : Bool → List Event → List Xfer
  | _, [] => []
  | dc, Event.out pin level :: rest =>
    transfers (if pin = Pin.dc then level else dc) rest
  | dc, Event.tx bytes :: rest =>
    (if dc then Xfer.data bytes else Xfer.command bytes) :: transfers dc rest
  | dc, Event.read _ :: rest => transfers dc rest
  | dc, Event.sleep _ :: rest => transfers dc rest
  | dc, Event.print _ :: rest => transfers dc rest

/-- The level of the data/command line after a trace. -/
def dcAfter : Bool → List Event → Bool
  | dc, [] => dc
  | dc, Event.out pin level :: rest => dcAfter (if pin = Pin.dc then level else dc) rest
  | dc, Event.tx _ :: rest => dcAfter dc rest
  | dc, Event.read _ :: rest => dcAfter dc rest
  | dc, Event.sleep _ :: rest => dcAfter dc rest
  | dc, Event.print _ :: rest => dcAfter dc rest

/-- The number of idle (low) readings the busy line still has to show. -/
def idles (busy : List Bool) : Nat := busy.count false

/-- The computation `m`, run in a world whose busy line still shows `k` idle readings,
returns, uses up `k` idle readings, and adds to the trace events whose bus transfers
are `xs`. -/
def Sends (m : Drv Unit) (k : Nat) (xs : List Xfer) : Prop :=
  ∀ w, k ≤ idles w.busy → ∃ w1 evs, m w = Run.done () w1 ∧ w1.trace = w.trace ++ evs ∧
    idles w1.busy + k = idles w.busy ∧ ∀ dc, transfers dc evs = xs

/-- The computation `m`, run in a world whose busy line still shows `k` idle readings,
ends in a run-time panic after adding to the trace events whose bus transfers are
`xs`. -/
def Panics (m : Drv Unit) (k : Nat) (xs : List Xfer) : Prop :=
  ∀ w, k ≤ idles w.busy → ∃ w1 evs, m w = Run.panic w1 ∧ w1.trace = w.trace ++ evs ∧
    ∀ dc, transfers dc evs = xs

/-- The lists `f i, f (i+1), ...`, `n` of them, one after the other. -/
def gather {α : Type} (f : Int → List α) : Nat → Int → List α
  | 0, _ => []
  | n + 1, i => f i ++ gather f n (i + 1)

/-- The computation `m`, run in a world whose busy line shows exactly `k` more idle
readings, uses them up and is then left polling the busy line, having added to the
trace events whose bus transfers are `xs`. -/
def Blocks (m : Drv Unit) (k : Nat) (xs : List Xfer) : Prop :=
  ∀ w, idles w.busy = k → ∃ w1 evs, m w = Run.waiting w1 ∧ w1.trace = w.trace ++ evs ∧
    ∀ dc, transfers dc evs = xs

/-- A world in which nothing has happened yet and whose busy line reads idle at each
of its next `n` reads. -/
def idleWorld (n : Nat) : World := ⟨[], List.replicate n false⟩

/-! ### Frames, busy waits and the sequence of `Init` -/

/-- The events of one busy wait: `k` busy readings, each followed by a sleep of
100 ms, then the idle reading. -/
def busyWait : Nat → List Event
  | 0 => [Event.read false]
  | k + 1 => Event.read true :: Event.sleep 100 :: busyWait k

/-- The events of `k` busy readings, each followed by a sleep of 100 ms, with no idle
reading after them. -/
def busyPolls : Nat → List Event
  | 0 => []
  | k + 1 => Event.read true :: Event.sleep 100 :: busyPolls k

/-- The readings of a busy line that shows, for each number `k` of the list in turn,
`k` busy readings and then an idle one. -/
def busyScript : List Nat → List Bool
  | [] => []
  | k :: ks => List.replicate k true ++ false :: busyScript ks

/-- The frame of one byte `v`: the data/command line set to `level`, chip-select low,
the byte transferred alone, chip-select high, and a busy wait of `k` busy readings. -/
def frame (level : Bool) (v : Nat) (k : Nat) : List Event :=
  [Event.out Pin.dc level, Event.out Pin.cs false, Event.tx [v], Event.out Pin.cs true]
    ++ busyWait k

/-- The frames of the bytes `fs`, each with its level of the data/command line, the
busy waits taking the numbers of busy readings `ks`. -/
def frames : List (Bool × Nat) → List Nat → List Event
  | (level, v) :: fs, k :: ks => frame level v k ++ frames fs ks
  | _, _ => []

/-- Whether every bus transfer of a trace happens while chip-select is low, the
chip-select line being at level `cs` when the trace starts. -/
def selectedAtTx : Bool → List Event → Bool
  | _, [] => true
  | cs, Event.out pin level :: rest => selectedAtTx (if pin = Pin.cs then level else cs) rest
  | cs, Event.tx _ :: rest => !cs && selectedAtTx cs rest
  | cs, Event.read _ :: rest => selectedAtTx cs rest
  | cs, Event.sleep _ :: rest => selectedAtTx cs rest
  | cs, Event.print _ :: rest => selectedAtTx cs rest

/-- Whether every bus transfer of a trace is followed by an idle reading of the busy
line before the next transfer and before the end of the trace; `pending` tells
whether a transfer made before the trace still waits for its idle reading. -/
def waitedAfterTx : Bool → List Event → Bool
  | pending, [] => !pending
  | pending, Event.tx _ :: rest => !pending && waitedAfterTx true rest
  | pending, Event.read level :: rest => waitedAfterTx (pending && level) rest
  | pending, Event.out _ _ :: rest => waitedAfterTx pending rest
  | pending, Event.sleep _ :: rest => waitedAfterTx pending rest
  | pending, Event.print _ :: rest => waitedAfterTx pending rest

/-- The computation `m`, run in a world whose busy line shows fewer than `k` more idle
readings, is left polling the busy line, having added to the trace events whose bus
transfers are an initial part of `xs`. -/
def Stalls (m : Drv Unit) (k : Nat) (xs : List Xfer) : Prop :=
  ∀ w, idles w.busy < k → ∃ w1 evs, m w = Run.waiting w1 ∧ w1.trace = w.trace ++ evs ∧
    ∀ dc, transfers dc evs <+: xs

/-- The computation `m` makes the bus transfers `xs` in `k` busy waits: it returns with
all of them made when the busy line shows `k` more idle readings, and is left waiting
with an initial part of them made when it shows fewer. -/
def Steps (m : Drv Unit) (k : Nat) (xs : List Xfer) : Prop :=
  Sends m k xs ∧ Stalls m k xs

/-- The bus transfers of `Init`, in order. -/
def initSequence : List Xfer := [
  Xfer.command [0x12],
  Xfer.command [0x74], Xfer.data [0x54],
  Xfer.command [0x7E], Xfer.data [0x3B],
  Xfer.command [0x01], Xfer.data [0xF9], Xfer.data [0x00], Xfer.data [0x00],
  Xfer.command [0x11], Xfer.data [0x01],
  Xfer.command [0x44], Xfer.data [0x00], Xfer.data [0x0F],
  Xfer.command [0x45], Xfer.data [0xF9], Xfer.data [0x00], Xfer.data [0x00], Xfer.data [0x00],
  Xfer.command [0x3C], Xfer.data [0x03],
  Xfer.command [0x2C], Xfer.data [0x55],
  Xfer.command [0x03], Xfer.data [0x15],
  Xfer.command [0x04], Xfer.data [0x41], Xfer.data [0xA8], Xfer.data [0x32],
  Xfer.command [0x3A], Xfer.data [0x30],
  Xfer.command [0x3B], Xfer.data [0x0A],
  Xfer.command [0x32]] ++
  (lutFullUpdate.take 70).map (fun v => Xfer.data [v]) ++ [
  Xfer.command [0x4E], Xfer.data [0x00],
  Xfer.command [0x4F], Xfer.data [0xF9], Xfer.data [0x00]]

/-- The events of the hardware reset. -/
def resetEvents : List Event :=
  [Event.out Pin.rst true, Event.sleep 200, Event.out Pin.rst false, Event.sleep 5,
    Event.out Pin.rst true, Event.sleep 200]

/-- The bytes of a bus transfer. -/
def Xfer.bytes : Xfer → List Nat
  | Xfer.command bs => bs
  | Xfer.data bs => bs

/-- The bytes of the data transfers at the head of a list of transfers, up to the next
command. -/
def dataRun : List Xfer → List Nat
  | Xfer.data bs :: rest => bs ++ dataRun rest
  | Xfer.command _ :: _ => []
  | [] => []

/-- The payload of the first command `c` in a list of transfers: the bytes of the data
transfers that follow it, up to the next command. -/
def payloadOf (c : Nat) : List Xfer → List Nat
  | [] => []
  | Xfer.command bs :: rest => if bs = [c] then dataRun rest else payloadOf c rest
  | Xfer.data _ :: rest => payloadOf c rest

/-- The image with bounds `(0,0)-(dx,dy)` that is white but for a black pixel at
`(px, py)`. -/
def dotImage (dx dy px py : Int) : RGBA :=
  ⟨⟨⟨0, 0⟩, ⟨dx, dy⟩⟩, fun x y => if x = px ∧ y = py then blackPixel else whitePixel⟩

/-- The image with bounds `(x0,y0)-(x0+dx,y0+dy)` whose pixels all have the colour
`c`. -/
def offsetImage (x0 y0 dx dy : Int) (c : Color) : RGBA :=
  ⟨⟨⟨x0, y0⟩, ⟨x0 + dx, y0 + dy⟩⟩, fun _ _ => c⟩

/-! ## Bits of a byte -/

theorem clearMask_testBit : ∀ k < 8, ∀ j < 8,
    (clearMask (k : Nat)).testBit j = decide (j ≠ 7 - k) := by
  decide

theorem byte_eq_of_bits (a b : Nat) (ha : a < 256) (hb : b < 256)
    (h : ∀ j, j < 8 → a.testBit j = b.testBit j) : a = b := by
  apply Nat.eq_of_testBit_eq
  intro i
  by_cases hi : i < 8
  · exact h i hi
  · have h8 : (256 : Nat) ≤ 2 ^ i := by
      calc (256 : Nat) = 2 ^ 8 := by norm_num
        _ ≤ 2 ^ i := Nat.pow_le_pow_right (by norm_num) (by omega)
    rw [Nat.testBit_lt_two_pow (by omega), Nat.testBit_lt_two_pow (by omega)]

/-! ## Running the monad -/

theorem bind_run {α β : Type} (m : Drv α) (f : α → Drv β) (w : World) :
    (m >>= f) w = Drv.bind m f w := rfl

theorem pure_run {α : Type} (a : α) (w : World) : (pure a : Drv α) w = Run.done a w := rfl

theorem bind_done {α β : Type} {m : Drv α} {f : α → Drv β} {w w1 : World} {a : α}
    (h : m w = Run.done a w1) : (m >>= f) w = f a w1 := by
  simp [bind_run, Drv.bind, h]

theorem bind_panic {α β : Type} {m : Drv α} {f : α → Drv β} {w w1 : World}
    (h : m w = Run.panic w1) : (m >>= f) w = Run.panic w1 := by
  simp [bind_run, Drv.bind, h]

theorem bind_waiting {α β : Type} {m : Drv α} {f : α → Drv β} {w w1 : World}
    (h : m w = Run.waiting w1) : (m >>= f) w = Run.waiting w1 := by
  simp [bind_run, Drv.bind, h]

/-- The rule of a counting loop whose body leaves the world alone: an invariant that
holds at the start and that every iteration keeps, holds at the end. -/
theorem loopFrom_invariant {σ : Type} (body : Int → σ → Drv σ) (Inv : Int → σ → Prop)
    (w : World) (count : Nat) :
    ∀ (i0 : Int) (s : σ), Inv i0 s →
      (∀ i s1, i0 ≤ i → i < i0 + count → Inv i s1 →
        ∃ s2, body i s1 w = Run.done s2 w ∧ Inv (i + 1) s2) →
      ∃ s2, loopFrom body count i0 s w = Run.done s2 w ∧ Inv (i0 + count) s2 := by
  induction count with
  | zero =>
    intro i0 s h0 _
    exact ⟨s, rfl, by simpa using h0⟩
  | succ n ih =>
    intro i0 s h0 hstep
    obtain ⟨s1, hb, h1⟩ := hstep i0 s (le_refl _) (by push_cast; omega) h0
    obtain ⟨s2, hl, h2⟩ := ih (i0 + 1) s1 h1 (fun i s3 hi1 hi2 hinv =>
      hstep i s3 (by omega) (by push_cast; omega) hinv)
    refine ⟨s2, ?_, ?_⟩
    · simp only [loopFrom, hb]
      exact hl
    · have e : i0 + ((n + 1 : Nat) : Int) = i0 + 1 + (n : Int) := by push_cast; ring
      rw [e]
      exact h2

/-! ## Integer arithmetic of the fixed geometry -/

theorem wrapInt_eq (n : Int) (h1 : -9223372036854775808 ≤ n) (h2 : n < 9223372036854775808) :
    wrapInt n = n := by
  unfold wrapInt
  omega

theorem lineWidth_CreateEpd : lineWidth CreateEpd = 16 := by decide

/-! ## Slices -/

theorem getD_set (l : List Nat) (i k v : Nat) (hi : i < l.length) :
    (l.set i v).getD k 0 = if k = i then v else l.getD k 0 := by
  simp only [List.getD_eq_getElem?_getD, List.getElem?_set]
  by_cases h : i = k
  · subst h
    simp [hi]
  · have h2 : ¬ k = i := fun e => h e.symm
    simp [h, h2]

theorem andIndex_clear (n : Nat) (data : List Nat) (idx j : Int) (w : World)
    (hd : IsBuffer n data) (h0 : 0 ≤ idx) (h1 : idx < n) (hj0 : 0 ≤ j) (hj1 : j < 8) :
    ∃ data1, andIndex data idx (clearMask j) w = Run.done data1 w ∧ IsBuffer n data1 ∧
      ∀ k, bitOf data1 k = (bitOf data k && decide (k ≠ 8 * idx.toNat + j.toNat)) := by
  obtain ⟨hlen, hbytes⟩ := hd
  have hi : idx.toNat < data.length := by omega
  refine ⟨data.set idx.toNat (data.getD idx.toNat 0 &&& clearMask j), ?_, ⟨?_, ?_⟩, ?_⟩
  · unfold andIndex
    rw [if_pos ⟨h0, by omega⟩]
    rfl
  · simp [hlen]
  · intro i hin
    rw [getD_set _ _ _ _ hi]
    split
    · exact lt_of_le_of_lt Nat.and_le_left (hbytes _ (by omega))
    · exact hbytes i hin
  · intro k
    unfold bitOf bitFromMSB
    rw [getD_set _ _ _ _ hi]
    have hjn : j.toNat < 8 := by omega
    have hje : j = (j.toNat : Int) := by omega
    by_cases hk : k / 8 = idx.toNat
    · rw [if_pos hk, Nat.testBit_and, hk, hje, clearMask_testBit _ hjn _ (by omega)]
      congr 1
      simp only [Int.toNat_ofNat]
      have : (7 - k % 8 ≠ 7 - j.toNat) ↔ (k ≠ 8 * idx.toNat + j.toNat) := by omega
      simp only [this]
    · rw [if_neg hk]
      have : k ≠ 8 * idx.toNat + j.toNat := by omega
      simp [this]

/-! ## Loops that clear bits -/

theorem clears_loop (n : Nat) (body : Int → List Nat → Drv (List Nat))
    (S : Int → Nat → Prop) (count : Nat) (i0 : Int)
    (h : ∀ i, i0 ≤ i → i < i0 + count → Clears n (body i) (S i)) :
    Clears n (loopFrom body count i0) (fun k => ∃ i, i0 ≤ i ∧ i < i0 + count ∧ S i k) := by
  intro data w hd
  obtain ⟨data1, hrun, hbuf, hbits⟩ := loopFrom_invariant body
    (fun i d => IsBuffer n d ∧
      ∀ k, (bitOf d k = false ↔ (bitOf data k = false ∨ ∃ i1, i0 ≤ i1 ∧ i1 < i ∧ S i1 k)))
    w count i0 data
    ⟨hd, fun k => ⟨fun hk => Or.inl hk, fun hk => hk.elim id (fun ⟨i1, h1, h2, _⟩ => by omega)⟩⟩
    (by
      intro i d hi0 hi1 ⟨hbuf, hbits⟩
      obtain ⟨d1, hrun, hbuf1, hbits1⟩ := h i hi0 hi1 d w hbuf
      refine ⟨d1, hrun, hbuf1, fun k => ?_⟩
      rw [hbits1 k, hbits k]
      constructor
      · rintro ((hk | ⟨i1, h1, h2, h3⟩) | hk)
        · exact Or.inl hk
        · exact Or.inr ⟨i1, h1, by omega, h3⟩
        · exact Or.inr ⟨i, hi0, by omega, hk⟩
      · rintro (hk | ⟨i1, h1, h2, h3⟩)
        · exact Or.inl (Or.inl hk)
        · by_cases e : i1 = i
          · subst e
            exact Or.inr h3
          · exact Or.inl (Or.inr ⟨i1, h1, by omega, h3⟩))
  exact ⟨data1, hrun, hbuf, hbits⟩

theorem clears_forLoop (n : Nat) (body : Int → List Nat → Drv (List Nat))
    (S : Int → Nat → Prop) (m : Int) (hm : 0 ≤ m)
    (h : ∀ i, 0 ≤ i → i < m → Clears n (body i) (S i)) :
    Clears n (forLoop m body) (fun k => ∃ i, 0 ≤ i ∧ i < m ∧ S i k) := by
  have h1 := clears_loop n body S m.toNat 0 (fun i hi0 hi1 => h i hi0 (by omega))
  intro data w hd
  obtain ⟨d1, hrun, hbuf, hbits⟩ := h1 data w hd
  refine ⟨d1, hrun, hbuf, fun k => ?_⟩
  rw [hbits k]
  constructor
  · rintro (hk | ⟨i, h1, h2, h3⟩)
    · exact Or.inl hk
    · exact Or.inr ⟨i, h1, by omega, h3⟩
  · rintro (hk | ⟨i, h1, h2, h3⟩)
    · exact Or.inl hk
    · exact Or.inr ⟨i, h1, by omega, h3⟩

/-- One pixel of a clearing loop: a black pixel clears the bit `j` (from the most
significant) of the byte `idx`, any other pixel clears nothing. -/
theorem clears_pixel (n : Nat) (black : Bool) (idx j : Int)
    (h0 : 0 ≤ idx) (h1 : idx < n) (hj0 : 0 ≤ j) (hj1 : j < 8) :
    Clears n (fun data => if black then andIndex data idx (clearMask j) else pure data)
      (fun k => black = true ∧ k = 8 * idx.toNat + j.toNat) := by
  intro data w hd
  cases black with
  | false =>
    refine ⟨data, rfl, hd, fun k => ?_⟩
    simp
  | true =>
    obtain ⟨d1, hrun, hbuf, hbits⟩ := andIndex_clear n data idx j w hd h0 h1 hj0 hj1
    refine ⟨d1, by simpa using hrun, hbuf, fun k => ?_⟩
    rw [hbits k]
    by_cases e : k = 8 * idx.toNat + j.toNat <;> simp [e]

/-! ## The start of `GetBuffer`: the white buffer -/

theorem eq_replicate_of_getD (n v : Nat) (d : List Nat) (hlen : d.length = n)
    (h : ∀ j, j < n → d.getD j 0 = v) : d = List.replicate n v := by
  apply List.ext_getElem
  · simp [hlen]
  · intro i h1 h2
    have := h i (by omega)
    rw [List.getD_eq_getElem _ _ h1] at this
    simp [this]

theorem fill_white (n : Nat) (w : World) :
    forLoop (List.replicate n 0).length (fun i data => setIndex data i 0xFF)
      (List.replicate n 0) w = Run.done (List.replicate n 0xFF) w := by
  obtain ⟨d, hrun, hlen, hall⟩ := loopFrom_invariant
    (fun i data => setIndex data i 0xFF)
    (fun i d => d.length = n ∧ ∀ j : Nat, (j : Int) < i → d.getD j 0 = 0xFF)
    w n 0 (List.replicate n 0) ⟨by simp, fun j hj => by omega⟩
    (by
      intro i d hi0 hi1 ⟨hlen, hall⟩
      have hi : i.toNat < d.length := by omega
      refine ⟨d.set i.toNat 0xFF, ?_, by simp [hlen], ?_⟩
      · show setIndex d i 0xFF w = _
        unfold setIndex
        rw [if_pos ⟨hi0, by omega⟩]
        rfl
      · intro j hj
        rw [getD_set _ _ _ _ hi]
        split
        · rfl
        · exact hall j (by omega))
  have e : d = List.replicate n 0xFF :=
    eq_replicate_of_getD n 0xFF d hlen (fun j hj => hall j (by omega))
  subst e
  simpa [forLoop] using hrun

theorem GetBuffer_start (image : RGBA) (w : World) :
    GetBuffer CreateEpd image w =
      (if image.Rect.Dx = 122 ∧ image.Rect.Dy = 250 then
        forLoop image.Rect.Dy (fun y data =>
          forLoop image.Rect.Dx (fun x data =>
            if isBlack image x y then
              andIndex data (Go.add (Go.div (Go.sub image.Rect.Dx x) 8) (Go.mul y 16))
                (clearMask (Go.mod (Go.sub image.Rect.Dx x) 8))
            else pure data) data) (List.replicate 4000 0xFF)
      else if image.Rect.Dx = 250 ∧ image.Rect.Dy = 122 then
        forLoop image.Rect.Dy (fun y data =>
          forLoop image.Rect.Dx (fun x data =>
            if isBlack image x y then
              andIndex data
                (Go.add (Go.div y 8)
                  (Go.mul (Go.sub (Go.sub image.Rect.Dx (Go.sub (Go.sub 250 x) 1)) 1) 16))
                (clearMask (Go.mod y 8))
            else pure data) data) (List.replicate 4000 0xFF)
      else do
        fmtPrintf (cantConvert 16 250 image.Rect.Dx image.Rect.Dy)
        pure (List.replicate 4000 0xFF)) w := by
  have hsize : Go.mul (lineWidth CreateEpd) CreateEpd.Height = 4000 := by decide
  have hmake : makeBytes (Go.mul (lineWidth CreateEpd) CreateEpd.Height) w
      = Run.done (List.replicate 4000 0) w := by
    rw [hsize]
    rfl
  unfold GetBuffer
  simp only []
  rw [bind_done hmake, bind_done (fill_white 4000 w)]
  rfl

/-! ## The white buffer -/

theorem getD_replicate (n v i : Nat) :
    (List.replicate n v).getD i 0 = if i < n then v else 0 := by
  simp only [List.getD_eq_getElem?_getD, List.getElem?_replicate]
  split <;> rfl

theorem white_isBuffer (n : Nat) : IsBuffer n (List.replicate n 0xFF) := by
  refine ⟨by simp, fun i hi => ?_⟩
  rw [getD_replicate, if_pos hi]
  decide

theorem testBit_white : ∀ j < 8, Nat.testBit 0xFF (7 - j) = true := by decide

theorem white_bitOf (n k : Nat) : bitOf (List.replicate n 0xFF) k = false ↔ 8 * n ≤ k := by
  unfold bitOf bitFromMSB
  rw [getD_replicate]
  split
  · rw [testBit_white _ (Nat.mod_lt _ (by norm_num))]
    constructor
    · intro h
      cases h
    · intro h
      omega
  · simp only [Nat.zero_testBit, true_iff]
    omega

/-! ## Index arithmetic of the two branches -/

theorem native_index (x y : Int) (hx0 : 0 ≤ x) (hx1 : x < 122) (hy0 : 0 ≤ y) (hy1 : y < 250) :
    Go.add (Go.div (Go.sub 122 x) 8) (Go.mul y 16) = (122 - x) / 8 + y * 16 ∧
    Go.mod (Go.sub 122 x) 8 = (122 - x) % 8 := by
  have h1 : Go.sub 122 x = 122 - x := wrapInt_eq _ (by omega) (by omega)
  have h2 : Go.div (122 - x) 8 = (122 - x) / 8 := Int.tdiv_eq_ediv (by omega) (by norm_num)
  have h3 : Go.mul y 16 = y * 16 := wrapInt_eq _ (by omega) (by omega)
  have h4 : Go.mod (122 - x) 8 = (122 - x) % 8 := Int.tmod_eq_emod (by omega) (by norm_num)
  rw [h1, h2, h3, h4]
  exact ⟨wrapInt_eq _ (by omega) (by omega), rfl⟩

theorem rotated_index (x y : Int) (hx0 : 0 ≤ x) (hx1 : x < 250) (hy0 : 0 ≤ y) (hy1 : y < 122) :
    Go.add (Go.div y 8) (Go.mul (Go.sub (Go.sub 250 (Go.sub (Go.sub 250 x) 1)) 1) 16)
      = y / 8 + x * 16 ∧
    Go.mod y 8 = y % 8 := by
  have h1 : Go.sub 250 x = 250 - x := wrapInt_eq _ (by omega) (by omega)
  have h2 : Go.sub (250 - x) 1 = 250 - x - 1 := wrapInt_eq _ (by omega) (by omega)
  have h3 : Go.sub 250 (250 - x - 1) = x + 1 := by
    rw [Go.sub, wrapInt_eq _ (by omega) (by omega)]
    omega
  have h4 : Go.sub (x + 1) 1 = x := by
    rw [Go.sub, wrapInt_eq _ (by omega) (by omega)]
    omega
  have h5 : Go.mul x 16 = x * 16 := wrapInt_eq _ (by omega) (by omega)
  have h6 : Go.div y 8 = y / 8 := Int.tdiv_eq_ediv hy0 (by norm_num)
  have h7 : Go.mod y 8 = y % 8 := Int.tmod_eq_emod hy0 (by norm_num)
  rw [h1, h2, h3, h4, h5, h6, h7]
  exact ⟨wrapInt_eq _ (by omega) (by omega), rfl⟩

/-! ## What the two branches of `GetBuffer` compute -/

/-- Native branch: the call returns a buffer of 4000 bytes and leaves the world alone;
bit `k` of the buffer is cleared exactly when `k = (122 - x) + 128 * y` for a black
pixel `(x, y)` of the image. -/
theorem GetBuffer_native_bits (image : RGBA) (w : World)
    (hdx : image.Rect.Dx = 122) (hdy : image.Rect.Dy = 250) :
    ∃ data, GetBuffer CreateEpd image w = Run.done data w ∧ IsBuffer 4000 data ∧
      ∀ k, (bitOf data k = false ↔ (32000 ≤ k ∨ ∃ y : Int, 0 ≤ y ∧ y < 250 ∧
        ∃ x : Int, 0 ≤ x ∧ x < 122 ∧ isBlack image x y = true ∧
          (k : Int) = (122 - x) + 128 * y)) := by
  have hloop := clears_forLoop 4000
    (fun y data =>
      forLoop 122 (fun x data =>
        if isBlack image x y then
          andIndex data (Go.add (Go.div (Go.sub 122 x) 8) (Go.mul y 16))
            (clearMask (Go.mod (Go.sub 122 x) 8))
        else pure data) data)
    (fun y k => ∃ x : Int, 0 ≤ x ∧ x < 122 ∧ isBlack image x y = true ∧
      (k : Int) = (122 - x) + 128 * y) 250 (by norm_num)
    (by
      intro y hy0 hy1
      have hin := clears_forLoop 4000
        (fun x data =>
          if isBlack image x y then
            andIndex data (Go.add (Go.div (Go.sub 122 x) 8) (Go.mul y 16))
              (clearMask (Go.mod (Go.sub 122 x) 8))
          else pure data)
        (fun x k => isBlack image x y = true ∧ (k : Int) = (122 - x) + 128 * y)
        122 (by norm_num)
        (by
          intro x hx0 hx1
          obtain ⟨e1, e2⟩ := native_index x y hx0 hx1 hy0 hy1
          have hp := clears_pixel 4000 (isBlack image x y) ((122 - x) / 8 + y * 16)
            ((122 - x) % 8) (by omega) (by push_cast; omega) (by omega) (by omega)
          intro data w1 hd
          obtain ⟨d1, hrun, hbuf, hbits⟩ := hp data w1 hd
          refine ⟨d1, ?_, hbuf, fun k => ?_⟩
          · simp only [e1, e2]
            exact hrun
          · rw [hbits k]
            have : (k = 8 * ((122 - x) / 8 + y * 16).toNat + ((122 - x) % 8).toNat) ↔
                ((k : Int) = (122 - x) + 128 * y) := by omega
            simp only [this])
      exact hin)
  obtain ⟨data, hrun, hbuf, hbits⟩ := hloop (List.replicate 4000 0xFF) w (white_isBuffer 4000)
  refine ⟨data, ?_, hbuf, fun k => ?_⟩
  · rw [GetBuffer_start, if_pos ⟨hdx, hdy⟩, hdx, hdy]
    exact hrun
  · rw [hbits k, white_bitOf]

/-- Rotated branch: the call returns a buffer of 4000 bytes and leaves the world
alone; bit `k` of the buffer is cleared exactly when `k = y + 128 * x` for a black
pixel `(x, y)` of the image. -/
theorem GetBuffer_rotated_bits (image : RGBA) (w : World)
    (hdx : image.Rect.Dx = 250) (hdy : image.Rect.Dy = 122) :
    ∃ data, GetBuffer CreateEpd image w = Run.done data w ∧ IsBuffer 4000 data ∧
      ∀ k, (bitOf data k = false ↔ (32000 ≤ k ∨ ∃ y : Int, 0 ≤ y ∧ y < 122 ∧
        ∃ x : Int, 0 ≤ x ∧ x < 250 ∧ isBlack image x y = true ∧
          (k : Int) = y + 128 * x)) := by
  have hloop := clears_forLoop 4000
    (fun y data =>
      forLoop 250 (fun x data =>
        if isBlack image x y then
          andIndex data
            (Go.add (Go.div y 8) (Go.mul (Go.sub (Go.sub 250 (Go.sub (Go.sub 250 x) 1)) 1) 16))
            (clearMask (Go.mod y 8))
        else pure data) data)
    (fun y k => ∃ x : Int, 0 ≤ x ∧ x < 250 ∧ isBlack image x y = true ∧
      (k : Int) = y + 128 * x) 122 (by norm_num)
    (by
      intro y hy0 hy1
      have hin := clears_forLoop 4000
        (fun x data =>
          if isBlack image x y then
            andIndex data
              (Go.add (Go.div y 8)
                (Go.mul (Go.sub (Go.sub 250 (Go.sub (Go.sub 250 x) 1)) 1) 16))
              (clearMask (Go.mod y 8))
          else pure data)
        (fun x k => isBlack image x y = true ∧ (k : Int) = y + 128 * x)
        250 (by norm_num)
        (by
          intro x hx0 hx1
          obtain ⟨e1, e2⟩ := rotated_index x y hx0 hx1 hy0 hy1
          have hp := clears_pixel 4000 (isBlack image x y) (y / 8 + x * 16)
            (y % 8) (by omega) (by push_cast; omega) (by omega) (by omega)
          intro data w1 hd
          obtain ⟨d1, hrun, hbuf, hbits⟩ := hp data w1 hd
          refine ⟨d1, ?_, hbuf, fun k => ?_⟩
          · simp only [e1, e2]
            exact hrun
          · rw [hbits k]
            have : (k = 8 * (y / 8 + x * 16).toNat + (y % 8).toNat) ↔
                ((k : Int) = y + 128 * x) := by omega
            simp only [this])
      exact hin)
  obtain ⟨data, hrun, hbuf, hbits⟩ := hloop (List.replicate 4000 0xFF) w (white_isBuffer 4000)
  have hne : ¬ (image.Rect.Dx = 122 ∧ image.Rect.Dy = 250) := by
    rw [hdx]
    rintro ⟨h, _⟩
    omega
  refine ⟨data, ?_, hbuf, fun k => ?_⟩
  · rw [GetBuffer_start, if_neg hne, if_pos ⟨hdx, hdy⟩, hdx, hdy]
    exact hrun
  · rw [hbits k, white_bitOf]

/-- An image of neither size: the call prints its diagnostic and returns the white
buffer. -/
theorem GetBuffer_mismatch (image : RGBA) (w : World)
    (h1 : ¬ (image.Rect.Dx = 122 ∧ image.Rect.Dy = 250))
    (h2 : ¬ (image.Rect.Dx = 250 ∧ image.Rect.Dy = 122)) :
    GetBuffer CreateEpd image w = Run.done (List.replicate 4000 0xFF)
      ⟨w.trace ++ [Event.print (cantConvert 16 250 image.Rect.Dx image.Rect.Dy)], w.busy⟩ := by
  rw [GetBuffer_start, if_neg h1, if_neg h2]
  rfl

/-! ## Pixel classification -/

set_option maxRecDepth 100000 in
theorem widen_div : ∀ v < 256, ((v ||| (v <<< 8)) % 4294967296) / 257 = v := by
  decide

theorem isBlack_iff (image : RGBA) (x y : Int) :
    isBlack image x y = true ↔
      (Point.In ⟨x, y⟩ image.Rect = true ∧ (image.stored x y).R % 256 < 245 ∧
        (image.stored x y).G % 256 < 245 ∧ (image.stored x y).B % 256 < 245 ∧
        10 < (image.stored x y).A % 256) := by
  unfold isBlack getRGBA RGBA.At
  by_cases hin : Point.In ⟨x, y⟩ image.Rect = true
  · simp only [hin, if_true, Color.RGBA, true_and]
    rw [widen_div _ (Nat.mod_lt _ (by norm_num)), widen_div _ (Nat.mod_lt _ (by norm_num)),
      widen_div _ (Nat.mod_lt _ (by norm_num)), widen_div _ (Nat.mod_lt _ (by norm_num))]
    simp only [Bool.and_eq_true, decide_eq_true_eq]
    omega
  · simp only [hin, Color.RGBA]
    simp

/-! ## Bytes from bits -/

theorem bool_eq_of_false_iff (a b : Bool) (h : a = false ↔ b = false) : a = b := by
  cases a <;> cases b <;> simp at h ⊢

theorem getD_eq_of_bits (n : Nat) (data : List Nat) (hd : IsBuffer n data) (i : Nat)
    (hi : i < n) (v : Nat) (hv : v < 256)
    (h : ∀ j, j < 8 → (bitOf data (8 * i + j) = false ↔ bitFromMSB v j = false)) :
    data.getD i 0 = v := by
  apply byte_eq_of_bits _ _ (hd.2 i hi) hv
  intro j hj
  have hb := bool_eq_of_false_iff _ _ (h (7 - j) (by omega))
  unfold bitOf bitFromMSB at hb
  have e1 : (8 * i + (7 - j)) / 8 = i := by omega
  have e2 : (8 * i + (7 - j)) % 8 = 7 - j := by omega
  have e3 : 7 - (7 - j) = j := by omega
  rw [e1, e2, e3] at hb
  exact hb

theorem bitFromMSB_DF : ∀ j < 8, (bitFromMSB 0xDF j = false ↔ j = 2) := by decide

theorem bitFromMSB_7F : ∀ j < 8, (bitFromMSB 0x7F j = false ↔ j = 0) := by decide

theorem bitFromMSB_FF : ∀ j < 8, ¬ (bitFromMSB 0xFF j = false) := by decide

theorem bitFromMSB_80 : ∀ j < 8, (bitFromMSB 0x80 j = false ↔ 1 ≤ j) := by decide

theorem bitFromMSB_1F : ∀ j < 8, (bitFromMSB 0x1F j = false ↔ j ≤ 2) := by decide

theorem bitFromMSB_00 : ∀ j < 8, bitFromMSB 0x00 j = false := by decide

/-! ## The concrete images -/

theorem uniformImage_isBlack (dx dy : Int) (c : Color) (x y : Int) :
    isBlack (uniformImage dx dy c) x y = true ↔
      (0 ≤ x ∧ x < dx ∧ 0 ≤ y ∧ y < dy ∧ c.R % 256 < 245 ∧ c.G % 256 < 245 ∧
        c.B % 256 < 245 ∧ 10 < c.A % 256) := by
  rw [isBlack_iff]
  simp only [uniformImage, Point.In, decide_eq_true_eq]
  tauto

theorem cornerImage_isBlack (dx dy : Int) (x y : Int) :
    isBlack (cornerImage dx dy) x y = true ↔ (x = 0 ∧ y = 0 ∧ 0 < dx ∧ 0 < dy) := by
  rw [isBlack_iff]
  simp only [cornerImage, Point.In, decide_eq_true_eq]
  by_cases h : x = 0 ∧ y = 0
  · obtain ⟨hx, hy⟩ := h
    subst hx
    subst hy
    simp [blackPixel]
  · rw [if_neg h]
    simp only [whitePixel]
    constructor
    · rintro ⟨_, h1, _⟩
      norm_num at h1
    · rintro ⟨h1, h2, _⟩
      exact absurd ⟨h1, h2⟩ h

/-! ## The encoder `GetBuffer` -/

/-- C1. Native packing rule: for an image of exactly 122x250 pixels `GetBuffer` returns
a buffer of 4000 bytes in which, for every row `y < 250` and bit column `c < 128`, bit
`c mod 8` (from the most significant) of byte `c/8 + y*16` is 0 exactly when
`1 <= c <= 122` and the pixel `(122 - c, y)` is black, every other bit being 1; when the
only black pixel is `(0, 0)`, byte 15 is `0xDF` and every other byte is `0xFF`. -/
theorem GetBuffer_native_packing (image : RGBA) (w : World)
    (hdx : image.Rect.Dx = 122) (hdy : image.Rect.Dy = 250) :
    ∃ data, GetBuffer CreateEpd image w = Run.done data w ∧ IsBuffer 4000 data ∧
      (∀ y c : Nat, y < 250 → c < 128 →
        (bitFromMSB (data.getD (c / 8 + y * 16) 0) (c % 8) = false ↔
          (1 ≤ c ∧ c ≤ 122 ∧ isBlack image (122 - (c : Int)) (y : Int) = true))) ∧
      ((∀ x y : Int, 0 ≤ x → x < 122 → 0 ≤ y → y < 250 →
          (isBlack image x y = true ↔ (x = 0 ∧ y = 0))) →
        ∀ i, i < 4000 → data.getD i 0 = if i = 15 then 0xDF else 0xFF) := by
  obtain ⟨data, hrun, hbuf, hbits⟩ := GetBuffer_native_bits image w hdx hdy
  refine ⟨data, hrun, hbuf, ?_, ?_⟩
  · intro y c hy hc
    have e1 : (c + 128 * y) / 8 = c / 8 + y * 16 := by omega
    have e2 : (c + 128 * y) % 8 = c % 8 := by omega
    have hk := hbits (c + 128 * y)
    unfold bitOf at hk
    rw [e1, e2] at hk
    rw [hk]
    constructor
    · rintro (h | ⟨y1, hy0, hy1, x, hx0, hx1, hb, he⟩)
      · omega
      · have ey : y1 = (y : Int) := by omega
        have ex : x = 122 - (c : Int) := by omega
        subst ey
        subst ex
        exact ⟨by omega, by omega, hb⟩
    · rintro ⟨h1, h2, hb⟩
      exact Or.inr ⟨y, by omega, by omega, 122 - (c : Int), by omega, by omega, hb,
        by push_cast; omega⟩
  · intro honly i hi
    apply getD_eq_of_bits 4000 data hbuf i hi
    · split <;> norm_num
    · intro j hj
      rw [hbits]
      constructor
      · rintro (h | ⟨y1, hy0, hy1, x, hx0, hx1, hb, he⟩)
        · omega
        · obtain ⟨ex, ey⟩ := (honly x y1 hx0 hx1 hy0 hy1).1 hb
          subst ex
          subst ey
          have ei : i = 15 := by omega
          have ej : j = 2 := by omega
          subst ei
          subst ej
          decide
      · intro hv
        by_cases ei : i = 15
        · rw [if_pos ei] at hv
          have ej := (bitFromMSB_DF j hj).1 hv
          refine Or.inr ⟨0, by norm_num, by norm_num, 0, by norm_num, by norm_num,
            (honly 0 0 (by norm_num) (by norm_num) (by norm_num) (by norm_num)).2 ⟨rfl, rfl⟩, ?_⟩
          subst ei
          subst ej
          norm_num
        · rw [if_neg ei] at hv
          exact absurd hv (bitFromMSB_FF j hj)

/-- The rule of C1 at the image whose only black pixel is `(0, 0)`: byte 15 is `0xDF`,
every other byte is `0xFF`. -/
theorem GetBuffer_native_packing_witness :
    (cornerImage 122 250).Rect.Dx = 122 ∧ (cornerImage 122 250).Rect.Dy = 250 ∧
    ∃ data, GetBuffer CreateEpd (cornerImage 122 250) quiet = Run.done data quiet ∧
      data.length = 4000 ∧
      ∀ i, i < 4000 → data.getD i 0 = if i = 15 then 0xDF else 0xFF := by
  refine ⟨by decide, by decide, ?_⟩
  obtain ⟨data, hrun, hbuf, _, hbytes⟩ :=
    GetBuffer_native_packing (cornerImage 122 250) quiet (by decide) (by decide)
  refine ⟨data, hrun, hbuf.1, hbytes ?_⟩
  intro x y _ _ _ _
  rw [cornerImage_isBlack]
  constructor
  · rintro ⟨h1, h2, _⟩
    exact ⟨h1, h2⟩
  · rintro ⟨h1, h2⟩
    exact ⟨h1, h2, by norm_num, by norm_num⟩

/-- C2. For the 122x250 panel and every image, whatever its bounds and pixels,
`GetBuffer` does not panic on a slice index and returns a slice of exactly 4000
bytes. -/
theorem GetBuffer_length (image : RGBA) (w : World) :
    ∃ data w1, GetBuffer CreateEpd image w = Run.done data w1 ∧ data.length = 4000 := by
  by_cases h1 : image.Rect.Dx = 122 ∧ image.Rect.Dy = 250
  · obtain ⟨data, hrun, hbuf, _⟩ := GetBuffer_native_bits image w h1.1 h1.2
    exact ⟨data, w, hrun, hbuf.1⟩
  · by_cases h2 : image.Rect.Dx = 250 ∧ image.Rect.Dy = 122
    · obtain ⟨data, hrun, hbuf, _⟩ := GetBuffer_rotated_bits image w h2.1 h2.2
      exact ⟨data, w, hrun, hbuf.1⟩
    · exact ⟨_, _, GetBuffer_mismatch image w h1 h2, List.length_replicate _ _⟩

/-- The encoding of an all-black image of exactly 122x250 pixels, byte by byte. -/
theorem native_all_black_bytes (image : RGBA) (w : World)
    (hdx : image.Rect.Dx = 122) (hdy : image.Rect.Dy = 250)
    (hblack : ∀ x y : Int, 0 ≤ x → x < 122 → 0 ≤ y → y < 250 → isBlack image x y = true) :
    ∃ data, GetBuffer CreateEpd image w = Run.done data w ∧ data.length = 4000 ∧
      ∀ i, i < 4000 → data.getD i 0 =
        if i % 16 = 0 then 0x80 else if i % 16 = 15 then 0x1F else 0x00 := by
  obtain ⟨data, hrun, hbuf, hbits⟩ := GetBuffer_native_bits image w hdx hdy
  refine ⟨data, hrun, hbuf.1, fun i hi => ?_⟩
  apply getD_eq_of_bits 4000 data hbuf i hi
  · split
    · norm_num
    · split <;> norm_num
  · intro j hj
    rw [hbits]
    have hcol : (32000 ≤ 8 * i + j ∨ ∃ y : Int, 0 ≤ y ∧ y < 250 ∧ ∃ x : Int, 0 ≤ x ∧ x < 122 ∧
        isBlack image x y = true ∧ ((8 * i + j : Nat) : Int) = (122 - x) + 128 * y) ↔
        (1 ≤ 8 * (i % 16) + j ∧ 8 * (i % 16) + j ≤ 122) := by
      constructor
      · rintro (h | ⟨y, hy0, hy1, x, hx0, hx1, _, he⟩)
        · omega
        · omega
      · rintro ⟨h1, h2⟩
        refine Or.inr ⟨((i / 16 : Nat) : Int), by omega, by omega,
          122 - ((8 * (i % 16) + j : Nat) : Int), by omega, by omega, ?_, by omega⟩
        exact hblack _ _ (by omega) (by omega) (by omega) (by omega)
    rw [hcol]
    by_cases h0 : i % 16 = 0
    · rw [if_pos h0, bitFromMSB_80 j hj, h0]
      omega
    · rw [if_neg h0]
      by_cases h15 : i % 16 = 15
      · rw [if_pos h15, bitFromMSB_1F j hj, h15]
        omega
      · rw [if_neg h15]
        have := bitFromMSB_00 j hj
        simp only [this, iff_true]
        omega

/-- C3, as the code has it. An all-black image with the bounds `(0,0)-(122,250)`,
that is of exactly 122x250 pixels with its origin at `(0, 0)`, is encoded as 250 rows of
16 bytes, each row being `0x80`, fourteen times `0x00`, `0x1F`: bit column 0 and the
padding bit columns 123..127 of a row are never cleared. -/
theorem GetBuffer_all_black (image : RGBA) (w : World)
    (hrect : image.Rect = ⟨⟨0, 0⟩, ⟨122, 250⟩⟩)
    (hblack : ∀ x y : Int, Point.In ⟨x, y⟩ image.Rect = true → isBlack image x y = true) :
    ∃ data, GetBuffer CreateEpd image w = Run.done data w ∧ data.length = 4000 ∧
      ∀ i, i < 4000 → data.getD i 0 =
        if i % 16 = 0 then 0x80 else if i % 16 = 15 then 0x1F else 0x00 :=
  native_all_black_bytes image w (by rw [hrect]; decide) (by rw [hrect]; decide)
    (fun x y hx0 hx1 hy0 hy1 => hblack x y (by
      rw [hrect]
      simp only [Point.In, decide_eq_true_eq]
      exact ⟨hx0, hx1, hy0, hy1⟩))

/-- The amended C3 at the uniformly black image with the bounds `(0,0)-(122,250)`. -/
theorem GetBuffer_all_black_witness :
    (uniformImage 122 250 blackPixel).Rect = ⟨⟨0, 0⟩, ⟨122, 250⟩⟩ ∧
    ∃ data, GetBuffer CreateEpd (uniformImage 122 250 blackPixel) quiet = Run.done data quiet ∧
      data.length = 4000 ∧
      ∀ i, i < 4000 → data.getD i 0 =
        if i % 16 = 0 then 0x80 else if i % 16 = 15 then 0x1F else 0x00 :=
  ⟨rfl,
    GetBuffer_all_black (uniformImage 122 250 blackPixel) quiet rfl
      (fun x y h => (uniformImage_isBlack 122 250 blackPixel x y).2 (by
        simp only [uniformImage, Point.In, decide_eq_true_eq] at h
        exact ⟨h.1, h.2.1, h.2.2.1, h.2.2.2, by decide, by decide, by decide, by decide⟩))⟩

/-- C3 fails as stated: the encoding of the uniformly black 122x250 image starts with
the byte `0x80`, not `0x00`, and byte 15 is `0x1F`. -/
theorem GetBuffer_all_black_not_zero :
    ∃ data, GetBuffer CreateEpd (uniformImage 122 250 blackPixel) quiet = Run.done data quiet ∧
      data.getD 0 0 = 0x80 ∧ data.getD 15 0 = 0x1F ∧
      ¬ (∀ i, i < 4000 → data.getD i 0 = 0x00) := by
  obtain ⟨data, hrun, _, hbytes⟩ :=
    native_all_black_bytes (uniformImage 122 250 blackPixel) quiet (by decide) (by decide)
      (fun x y hx0 hx1 hy0 hy1 => (uniformImage_isBlack 122 250 blackPixel x y).2
        ⟨hx0, hx1, hy0, hy1, by decide, by decide, by decide, by decide⟩)
  have h0 : data.getD 0 0 = 0x80 := (hbytes 0 (by norm_num)).trans (by decide)
  have h15 : data.getD 15 0 = 0x1F := (hbytes 15 (by norm_num)).trans (by decide)
  refine ⟨data, hrun, h0, h15, fun hall => ?_⟩
  have h := hall 0 (by norm_num)
  rw [h0] at h
  exact absurd h (by decide)

/-- A buffer of 4000 bytes none of whose bits is cleared is the white buffer. -/
theorem white_of_no_clear (data : List Nat) (hbuf : IsBuffer 4000 data)
    (h : ∀ k, k < 32000 → ¬ (bitOf data k = false)) : data = List.replicate 4000 0xFF := by
  apply eq_replicate_of_getD 4000 0xFF data hbuf.1
  intro i hi
  apply getD_eq_of_bits 4000 data hbuf i hi 0xFF (by norm_num)
  intro j hj
  constructor
  · intro hk
    exact absurd hk (h _ (by omega))
  · intro hk
    exact absurd hk (bitFromMSB_FF j hj)

/-- An image of panel size without a black pixel is encoded as the white buffer. -/
theorem GetBuffer_white_of_no_black (image : RGBA) (w : World)
    (hsize : (image.Rect.Dx = 122 ∧ image.Rect.Dy = 250) ∨
      (image.Rect.Dx = 250 ∧ image.Rect.Dy = 122))
    (hwhite : ∀ x y : Int, 0 ≤ x → x < image.Rect.Dx → 0 ≤ y → y < image.Rect.Dy →
      isBlack image x y = false) :
    GetBuffer CreateEpd image w = Run.done (List.replicate 4000 0xFF) w := by
  rcases hsize with ⟨hdx, hdy⟩ | ⟨hdx, hdy⟩
  · obtain ⟨data, hrun, hbuf, hbits⟩ := GetBuffer_native_bits image w hdx hdy
    have e : data = List.replicate 4000 0xFF := by
      apply white_of_no_clear data hbuf
      intro k hk
      rw [hbits]
      rintro (h | ⟨y, hy0, hy1, x, hx0, hx1, hb, _⟩)
      · omega
      · rw [hwhite x y hx0 (by omega) hy0 (by omega)] at hb
        cases hb
    rw [← e]
    exact hrun
  · obtain ⟨data, hrun, hbuf, hbits⟩ := GetBuffer_rotated_bits image w hdx hdy
    have e : data = List.replicate 4000 0xFF := by
      apply white_of_no_clear data hbuf
      intro k hk
      rw [hbits]
      rintro (h | ⟨y, hy0, hy1, x, hx0, hx1, hb, _⟩)
      · omega
      · rw [hwhite x y hx0 (by omega) hy0 (by omega)] at hb
        cases hb
    rw [← e]
    exact hrun

/-- C4. An image of panel size (122x250 or 250x122) in which no pixel is classified
black is encoded as 4000 bytes `0xFF`. -/
theorem GetBuffer_all_white (image : RGBA) (w : World)
    (hsize : (image.Rect.Dx = 122 ∧ image.Rect.Dy = 250) ∨
      (image.Rect.Dx = 250 ∧ image.Rect.Dy = 122))
    (hwhite : ∀ x y : Int, 0 ≤ x → x < image.Rect.Dx → 0 ≤ y → y < image.Rect.Dy →
      isBlack image x y = false) :
    GetBuffer CreateEpd image w = Run.done (List.replicate 4000 0xFF) w :=
  GetBuffer_white_of_no_black image w hsize hwhite

theorem uniformImage_white (dx dy x y : Int) :
    isBlack (uniformImage dx dy whitePixel) x y = false := by
  rw [← Bool.not_eq_true, uniformImage_isBlack]
  rintro ⟨_, _, _, _, h, _⟩
  exact absurd h (by decide)

/-- C4 at the uniformly white image of 250x122 pixels. -/
theorem GetBuffer_all_white_witness :
    (((uniformImage 250 122 whitePixel).Rect.Dx = 122 ∧
        (uniformImage 250 122 whitePixel).Rect.Dy = 250) ∨
      ((uniformImage 250 122 whitePixel).Rect.Dx = 250 ∧
        (uniformImage 250 122 whitePixel).Rect.Dy = 122)) ∧
    GetBuffer CreateEpd (uniformImage 250 122 whitePixel) quiet
      = Run.done (List.replicate 4000 0xFF) quiet :=
  ⟨Or.inr ⟨by decide, by decide⟩,
    GetBuffer_all_white (uniformImage 250 122 whitePixel) quiet (Or.inr ⟨by decide, by decide⟩)
      (fun x y _ _ _ _ => uniformImage_white 250 122 x y)⟩

/-- The encoding of an image of 250x122 pixels whose only black pixel is `(0, 0)`. -/
theorem rotated_corner_bytes (image : RGBA) (w : World)
    (hdx : image.Rect.Dx = 250) (hdy : image.Rect.Dy = 122)
    (honly : ∀ x y : Int, 0 ≤ x → x < 250 → 0 ≤ y → y < 122 →
      (isBlack image x y = true ↔ (x = 0 ∧ y = 0))) :
    ∃ data, GetBuffer CreateEpd image w = Run.done data w ∧ data.length = 4000 ∧
      ∀ i, i < 4000 → data.getD i 0 = if i = 0 then 0x7F else 0xFF := by
  obtain ⟨data, hrun, hbuf, hbits⟩ := GetBuffer_rotated_bits image w hdx hdy
  refine ⟨data, hrun, hbuf.1, fun i hi => ?_⟩
  apply getD_eq_of_bits 4000 data hbuf i hi
  · split <;> norm_num
  · intro j hj
    rw [hbits]
    constructor
    · rintro (h | ⟨y, hy0, hy1, x, hx0, hx1, hb, he⟩)
      · omega
      · obtain ⟨ex, ey⟩ := (honly x y hx0 hx1 hy0 hy1).1 hb
        subst ex
        subst ey
        have ei : i = 0 := by omega
        have ej : j = 0 := by omega
        subst ei
        subst ej
        decide
    · intro hv
      by_cases ei : i = 0
      · rw [if_pos ei] at hv
        have ej := (bitFromMSB_7F j hj).1 hv
        refine Or.inr ⟨0, by norm_num, by norm_num, 0, by norm_num, by norm_num,
          (honly 0 0 (by norm_num) (by norm_num) (by norm_num) (by norm_num)).2 ⟨rfl, rfl⟩, ?_⟩
        subst ei
        subst ej
        norm_num
      · rw [if_neg ei] at hv
        exact absurd hv (bitFromMSB_FF j hj)

theorem cornerImage_rotated_only (x y : Int) :
    isBlack (cornerImage 250 122) x y = true ↔ (x = 0 ∧ y = 0) := by
  rw [cornerImage_isBlack]
  constructor
  · rintro ⟨h1, h2, _⟩
    exact ⟨h1, h2⟩
  · rintro ⟨h1, h2⟩
    exact ⟨h1, h2, by norm_num, by norm_num⟩

/-- C5, as the code has it. For an image of 250x122 pixels whose only black pixel is
`(0, 0)` the row index `posy` is 0: the most significant bit of byte 0 is cleared
(byte 0 is `0x7F`) and every other byte is `0xFF`. -/
theorem GetBuffer_rotated_corner (image : RGBA) (w : World)
    (hdx : image.Rect.Dx = 250) (hdy : image.Rect.Dy = 122)
    (honly : ∀ x y : Int, 0 ≤ x → x < 250 → 0 ≤ y → y < 122 →
      (isBlack image x y = true ↔ (x = 0 ∧ y = 0))) :
    ∃ data, GetBuffer CreateEpd image w = Run.done data w ∧ data.length = 4000 ∧
      ∀ i, i < 4000 → data.getD i 0 = if i = 0 then 0x7F else 0xFF :=
  rotated_corner_bytes image w hdx hdy honly

/-- The amended C5 at the white image of 250x122 pixels with a black pixel at
`(0, 0)`. -/
theorem GetBuffer_rotated_corner_witness :
    (cornerImage 250 122).Rect.Dx = 250 ∧ (cornerImage 250 122).Rect.Dy = 122 ∧
    ∃ data, GetBuffer CreateEpd (cornerImage 250 122) quiet = Run.done data quiet ∧
      data.length = 4000 ∧ ∀ i, i < 4000 → data.getD i 0 = if i = 0 then 0x7F else 0xFF :=
  ⟨by decide, by decide,
    GetBuffer_rotated_corner (cornerImage 250 122) quiet (by decide) (by decide)
      (fun x y _ _ _ _ => cornerImage_rotated_only x y)⟩

/-- C5 fails as stated: for the white image of 250x122 pixels with a black pixel at
`(0, 0)`, byte 121 of the encoding is `0xFF`, not `0x7F`; the cleared bit is in
byte 0. -/
theorem GetBuffer_rotated_corner_not_121 :
    ∃ data, GetBuffer CreateEpd (cornerImage 250 122) quiet = Run.done data quiet ∧
      data.getD 121 0 = 0xFF ∧ data.getD 0 0 = 0x7F := by
  obtain ⟨data, hrun, _, hbytes⟩ :=
    rotated_corner_bytes (cornerImage 250 122) quiet (by decide) (by decide)
      (fun x y _ _ _ _ => cornerImage_rotated_only x y)
  exact ⟨data, hrun, (hbytes 121 (by norm_num)).trans (by decide),
    (hbytes 0 (by norm_num)).trans (by decide)⟩

/-- C6, as the code has it. For an image of neither size `GetBuffer` returns the
ordinary white buffer of 4000 bytes, the very value it returns for the white image of
122x250 pixels; the failure shows only as a line printed on the standard output. -/
theorem GetBuffer_mismatch_not_signalled (image : RGBA) (w : World)
    (h1 : ¬ (image.Rect.Dx = 122 ∧ image.Rect.Dy = 250))
    (h2 : ¬ (image.Rect.Dx = 250 ∧ image.Rect.Dy = 122)) :
    GetBuffer CreateEpd image w = Run.done (List.replicate 4000 0xFF)
      ⟨w.trace ++ [Event.print (cantConvert 16 250 image.Rect.Dx image.Rect.Dy)], w.busy⟩ ∧
    GetBuffer CreateEpd (uniformImage 122 250 whitePixel) w
      = Run.done (List.replicate 4000 0xFF) w :=
  ⟨GetBuffer_mismatch image w h1 h2,
    GetBuffer_white_of_no_black (uniformImage 122 250 whitePixel) w
      (Or.inl ⟨by decide, by decide⟩) (fun x y _ _ _ _ => uniformImage_white 122 250 x y)⟩

/-- The amended C6 at the black image of 10x10 pixels. -/
theorem GetBuffer_mismatch_not_signalled_witness :
    ¬ ((uniformImage 10 10 blackPixel).Rect.Dx = 122 ∧
      (uniformImage 10 10 blackPixel).Rect.Dy = 250) ∧
    ¬ ((uniformImage 10 10 blackPixel).Rect.Dx = 250 ∧
      (uniformImage 10 10 blackPixel).Rect.Dy = 122) ∧
    GetBuffer CreateEpd (uniformImage 10 10 blackPixel) quiet
      = Run.done (List.replicate 4000 0xFF)
        ⟨[Event.print "Can't convert image expected 16 250 but having 10 10"], []⟩ ∧
    GetBuffer CreateEpd (uniformImage 122 250 whitePixel) quiet
      = Run.done (List.replicate 4000 0xFF) quiet :=
  ⟨by decide, by decide,
    GetBuffer_mismatch_not_signalled (uniformImage 10 10 blackPixel) quiet (by decide)
      (by decide)⟩

/-- C6 fails as stated: the black image of 10x10 pixels has neither size, and what
`GetBuffer` returns for it is the buffer it returns for the white image of 122x250
pixels, a successful encoding. -/
theorem GetBuffer_mismatch_same_as_white :
    ¬ ((uniformImage 10 10 blackPixel).Rect.Dx = 122 ∧
      (uniformImage 10 10 blackPixel).Rect.Dy = 250) ∧
    ¬ ((uniformImage 10 10 blackPixel).Rect.Dx = 250 ∧
      (uniformImage 10 10 blackPixel).Rect.Dy = 122) ∧
    (uniformImage 122 250 whitePixel).Rect.Dx = 122 ∧
    (uniformImage 122 250 whitePixel).Rect.Dy = 250 ∧
    ∃ data w1, GetBuffer CreateEpd (uniformImage 10 10 blackPixel) quiet = Run.done data w1 ∧
      GetBuffer CreateEpd (uniformImage 122 250 whitePixel) quiet = Run.done data quiet :=
  ⟨by decide, by decide, by decide, by decide, _, _,
    GetBuffer_mismatch (uniformImage 10 10 blackPixel) quiet (by decide) (by decide),
    GetBuffer_white_of_no_black (uniformImage 122 250 whitePixel) quiet
      (Or.inl ⟨by decide, by decide⟩) (fun x y _ _ _ _ => uniformImage_white 122 250 x y)⟩

/-- C7. For an image of neither size, whatever its pixels, the buffer `GetBuffer`
produces is the untouched white buffer: 4000 bytes `0xFF`. -/
theorem GetBuffer_mismatch_white (image : RGBA) (w : World)
    (h1 : ¬ (image.Rect.Dx = 122 ∧ image.Rect.Dy = 250))
    (h2 : ¬ (image.Rect.Dx = 250 ∧ image.Rect.Dy = 122)) :
    ∃ data w1, GetBuffer CreateEpd image w = Run.done data w1 ∧ data.length = 4000 ∧
      ∀ i, i < 4000 → data.getD i 0 = 0xFF := by
  refine ⟨_, _, GetBuffer_mismatch image w h1 h2, List.length_replicate _ _, fun i hi => ?_⟩
  rw [getD_replicate, if_pos hi]

/-- C7 at the black image of 10x10 pixels. -/
theorem GetBuffer_mismatch_white_witness :
    ¬ ((uniformImage 10 10 blackPixel).Rect.Dx = 122 ∧
      (uniformImage 10 10 blackPixel).Rect.Dy = 250) ∧
    ¬ ((uniformImage 10 10 blackPixel).Rect.Dx = 250 ∧
      (uniformImage 10 10 blackPixel).Rect.Dy = 122) ∧
    ∃ data w1, GetBuffer CreateEpd (uniformImage 10 10 blackPixel) quiet = Run.done data w1 ∧
      data.length = 4000 ∧ ∀ i, i < 4000 → data.getD i 0 = 0xFF :=
  ⟨by decide, by decide,
    GetBuffer_mismatch_white (uniformImage 10 10 blackPixel) quiet (by decide) (by decide)⟩

/-! ## What the panel sees on the bus -/

theorem transfers_append (a b : List Event) :
    ∀ dc, transfers dc (a ++ b) = transfers dc a ++ transfers (dcAfter dc a) b := by
  induction a with
  | nil => intro dc; rfl
  | cons ev rest ih =>
    intro dc
    cases ev <;> simp [transfers, dcAfter, ih]

theorem gather_succ_right {α : Type} (f : Int → List α) (n : Nat) :
    ∀ i, gather f (n + 1) i = gather f n i ++ f (i + n) := by
  induction n with
  | zero => intro i; simp [gather]
  | succ m ih =>
    intro i
    rw [gather, ih (i + 1), gather, List.append_assoc]
    congr 2
    push_cast
    ring_nf

theorem readBusyLoop_done (busy : List Bool) :
    ∀ t, 1 ≤ idles busy → ∃ evs rest, readBusyLoop busy t = Run.done () ⟨t ++ evs, rest⟩ ∧
      idles rest + 1 = idles busy ∧ ∀ dc, transfers dc evs = [] := by
  induction busy with
  | nil =>
    intro t h
    simp [idles] at h
  | cons l rest ih =>
    intro t h
    cases l with
    | false =>
      exact ⟨[Event.read false], rest, rfl, by simp [idles], fun dc => rfl⟩
    | true =>
      have h1 : 1 ≤ idles rest := by simpa [idles] using h
      obtain ⟨evs, rest1, hrun, hid, htr⟩ := ih (t ++ [Event.read true, Event.sleep 100]) h1
      refine ⟨[Event.read true, Event.sleep 100] ++ evs, rest1, ?_, ?_, fun dc => ?_⟩
      · rw [readBusyLoop, hrun, List.append_assoc]
      · rw [hid]
        simp [idles]
      · simp [transfers, htr]

theorem sends_readBusy : Sends readBusy 1 [] := by
  intro w h
  obtain ⟨evs, rest, hrun, hid, htr⟩ := readBusyLoop_done w.busy w.trace h
  exact ⟨⟨w.trace ++ evs, rest⟩, evs, hrun, rfl, hid, htr⟩

theorem sends_sendCommand (c : Nat) : Sends (sendCommand c) 1 [Xfer.command [c]] := by
  intro w h
  obtain ⟨evs, rest, hrun, hid, htr⟩ := readBusyLoop_done w.busy
    (w.trace ++ [Event.out Pin.dc false] ++ [Event.out Pin.cs false] ++ [Event.tx [c]]
      ++ [Event.out Pin.cs true]) h
  refine ⟨_, [Event.out Pin.dc false, Event.out Pin.cs false, Event.tx [c],
    Event.out Pin.cs true] ++ evs, hrun, ?_, hid, fun dc => ?_⟩
  · simp
  · simp [transfers, htr]

theorem sends_sendData (d : Nat) : Sends (sendData d) 1 [Xfer.data [d]] := by
  intro w h
  obtain ⟨evs, rest, hrun, hid, htr⟩ := readBusyLoop_done w.busy
    (w.trace ++ [Event.out Pin.dc true] ++ [Event.out Pin.cs false] ++ [Event.tx [d]]
      ++ [Event.out Pin.cs true]) h
  refine ⟨_, [Event.out Pin.dc true, Event.out Pin.cs false, Event.tx [d],
    Event.out Pin.cs true] ++ evs, hrun, ?_, hid, fun dc => ?_⟩
  · simp
  · simp [transfers, htr]

theorem sends_bind {m1 m2 : Drv Unit} {k1 k2 : Nat} {xs1 xs2 : List Xfer}
    (h1 : Sends m1 k1 xs1) (h2 : Sends m2 k2 xs2) :
    Sends (m1 >>= fun _ => m2) (k1 + k2) (xs1 ++ xs2) := by
  intro w h
  obtain ⟨w1, evs1, hrun1, htr1, hid1, hx1⟩ := h1 w (by omega)
  obtain ⟨w2, evs2, hrun2, htr2, hid2, hx2⟩ := h2 w1 (by omega)
  refine ⟨w2, evs1 ++ evs2, ?_, ?_, by omega, fun dc => ?_⟩
  · rw [bind_done hrun1]
    exact hrun2
  · rw [htr2, htr1, List.append_assoc]
  · rw [transfers_append, hx1, hx2]

theorem panics_bind_left {m : Drv Unit} {f : Unit → Drv Unit} {k : Nat} {xs : List Xfer}
    (h1 : Panics m k xs) : Panics (m >>= f) k xs := by
  intro w h
  obtain ⟨w1, evs1, hrun1, htr1, hx1⟩ := h1 w h
  exact ⟨w1, evs1, bind_panic hrun1, htr1, hx1⟩

theorem panics_bind_right {m1 m2 : Drv Unit} {k1 k2 : Nat}
    {xs1 xs2 : List Xfer} (h1 : Sends m1 k1 xs1) (h2 : Panics m2 k2 xs2) :
    Panics (m1 >>= fun _ => m2) (k1 + k2) (xs1 ++ xs2) := by
  intro w h
  obtain ⟨w1, evs1, hrun1, htr1, hid1, hx1⟩ := h1 w (by omega)
  obtain ⟨w2, evs2, hrun2, htr2, hx2⟩ := h2 w1 (by omega)
  refine ⟨w2, evs1 ++ evs2, ?_, ?_, fun dc => ?_⟩
  · rw [bind_done hrun1]
    exact hrun2
  · rw [htr2, htr1, List.append_assoc]
  · rw [transfers_append, hx1, hx2]

theorem sends_loop (body : Int → Unit → Drv Unit) (k : Nat) (xs : Int → List Xfer)
    (count : Nat) :
    ∀ i0 : Int, (∀ i, i0 ≤ i → i < i0 + count → Sends (body i ()) k (xs i)) →
      Sends (loopFrom body count i0 ()) (count * k) (gather xs count i0) := by
  induction count with
  | zero =>
    intro i0 _ w _
    exact ⟨w, [], rfl, by simp, by simp, fun dc => rfl⟩
  | succ n ih =>
    intro i0 hbody w h
    have hk : (n + 1) * k = k + n * k := by ring
    obtain ⟨w1, evs1, hrun1, htr1, hid1, hx1⟩ :=
      hbody i0 (le_refl _) (by push_cast; omega) w (by omega)
    obtain ⟨w2, evs2, hrun2, htr2, hid2, hx2⟩ :=
      ih (i0 + 1) (fun i hi0 hi1 => hbody i (by omega) (by push_cast; omega)) w1 (by omega)
    refine ⟨w2, evs1 ++ evs2, ?_, ?_, by omega, fun dc => ?_⟩
    · simp only [loopFrom, hrun1]
      exact hrun2
    · rw [htr2, htr1, List.append_assoc]
    · rw [transfers_append, hx1, hx2, gather]

theorem panics_loop (body : Int → Unit → Drv Unit) (k kp : Nat) (xs : Int → List Xfer)
    (xp : List Xfer) (a : Nat) :
    ∀ (count : Nat) (i0 : Int), a < count →
      (∀ i, i0 ≤ i → i < i0 + a → Sends (body i ()) k (xs i)) →
      Panics (body (i0 + a) ()) kp xp →
      Panics (loopFrom body count i0 ()) (a * k + kp) (gather xs a i0 ++ xp) := by
  induction a with
  | zero =>
    intro count i0 hc _ hp w h
    obtain ⟨n, rfl⟩ : ∃ n, count = n + 1 := ⟨count - 1, by omega⟩
    obtain ⟨w1, evs1, hrun1, htr1, hx1⟩ := hp w (by omega)
    simp only [Nat.cast_zero, add_zero] at hrun1
    refine ⟨w1, evs1, ?_, htr1, fun dc => ?_⟩
    · simp only [loopFrom, hrun1]
    · rw [hx1]
      rfl
  | succ b ih =>
    intro count i0 hc hbody hp w h
    obtain ⟨n, rfl⟩ : ∃ n, count = n + 1 := ⟨count - 1, by omega⟩
    have hk : (b + 1) * k = k + b * k := by ring
    obtain ⟨w1, evs1, hrun1, htr1, hid1, hx1⟩ :=
      hbody i0 (le_refl _) (by push_cast; omega) w (by omega)
    have hp1 : Panics (body (i0 + 1 + b) ()) kp xp := by
      have e : i0 + ((b + 1 : Nat) : Int) = i0 + 1 + b := by push_cast; ring
      rw [← e]
      exact hp
    obtain ⟨w2, evs2, hrun2, htr2, hx2⟩ :=
      ih n (i0 + 1) (by omega) (fun i hi0 hi1 => hbody i (by omega) (by push_cast; omega))
        hp1 w1 (by omega)
    refine ⟨w2, evs1 ++ evs2, ?_, ?_, fun dc => ?_⟩
    · simp only [loopFrom, hrun1]
      exact hrun2
    · rw [htr2, htr1, List.append_assoc]
    · rw [transfers_append, hx1, hx2, gather, List.append_assoc]

/-! ## `Display` and `Clear` on the 122x250 panel -/

theorem take_succ_getD (l : List Nat) (n : Nat) (h : n < l.length) :
    l.take (n + 1) = l.take n ++ [l.getD n 0] := by
  rw [List.take_succ, List.getD_eq_getElem _ _ h, List.getElem?_eq_getElem h]
  rfl

theorem gather_single {α : Type} (a : α) (n : Nat) :
    ∀ i, gather (fun _ => [a]) n i = List.replicate n a := by
  induction n with
  | zero => intro i; rfl
  | succ m ih =>
    intro i
    rw [gather, ih, List.replicate_succ]
    rfl

theorem gather_replicate {α : Type} (a : α) (k n : Nat) :
    ∀ i, gather (fun _ => List.replicate k a) n i = List.replicate (n * k) a := by
  induction n with
  | zero => intro i; simp [gather]
  | succ m ih =>
    intro i
    rw [gather, ih, ← List.replicate_add]
    congr 1
    ring

theorem Display_unfold (b : List Nat) :
    Display CreateEpd b = (sendCommand 0x24 >>= fun _ =>
      forLoop 250 (fun j _ =>
        forLoop 16 (fun i _ =>
          index b (Go.add i (Go.mul j 16)) >>= fun d => sendData d) ()) () >>= fun _ =>
      TurnDisplayOn) := rfl

theorem Clear_unfold :
    Clear CreateEpd = (sendCommand 0x24 >>= fun _ =>
      forLoop 250 (fun _ _ => forLoop 16 (fun _ _ => sendData 0xFF) ()) () >>= fun _ =>
      TurnDisplayOff) := rfl

theorem sends_TurnDisplayOff :
    Sends TurnDisplayOff 3 [Xfer.command [0x22], Xfer.data [0xC7], Xfer.command [0x20]] := by
  have e : TurnDisplayOff = (sendCommand 0x22 >>= fun _ => sendData 0xC7 >>= fun _ =>
    sendCommand 0x20) := rfl
  rw [e]
  exact sends_bind (sends_sendCommand 0x22) (sends_bind (sends_sendData 0xC7)
    (sends_sendCommand 0x20))

theorem sends_TurnDisplayOn :
    Sends TurnDisplayOn 4 [Xfer.command [0x22], Xfer.data [0xC7], Xfer.command [0x20]] := by
  have e : TurnDisplayOn = (sendCommand 0x22 >>= fun _ => sendData 0xC7 >>= fun _ =>
    sendCommand 0x20 >>= fun _ => readBusy) := rfl
  rw [e]
  exact sends_bind (sends_sendCommand 0x22) (sends_bind (sends_sendData 0xC7)
    (sends_bind (sends_sendCommand 0x20) sends_readBusy))

/-- The data transfer of the byte at position `i` of row `j`. -/
theorem Display_index (i j : Int) (hi0 : 0 ≤ i) (hi1 : i < 16) (hj0 : 0 ≤ j) (hj1 : j < 250) :
    Go.add i (Go.mul j 16) = i + j * 16 := by
  have h1 : Go.mul j 16 = j * 16 := wrapInt_eq _ (by omega) (by omega)
  rw [h1]
  exact wrapInt_eq _ (by omega) (by omega)

theorem sends_displayByte (b : List Nat) (i j : Int) (hi0 : 0 ≤ i) (hi1 : i < 16)
    (hj0 : 0 ≤ j) (hj1 : j < 250) (hb : i + j * 16 < b.length) :
    Sends (index b (Go.add i (Go.mul j 16)) >>= fun d => sendData d) 1
      [Xfer.data [b.getD (i + j * 16).toNat 0]] := by
  rw [Display_index i j hi0 hi1 hj0 hj1]
  have e : index b (i + j * 16) = pure (b.getD (i + j * 16).toNat 0) := by
    unfold index
    rw [if_pos ⟨by omega, hb⟩]
  rw [e]
  exact sends_sendData _

theorem panics_displayByte (b : List Nat) (i j : Int) (hi0 : 0 ≤ i) (hi1 : i < 16)
    (hj0 : 0 ≤ j) (hj1 : j < 250) (hb : (b.length : Int) ≤ i + j * 16) :
    Panics (index b (Go.add i (Go.mul j 16)) >>= fun d => sendData d) 0 [] := by
  rw [Display_index i j hi0 hi1 hj0 hj1]
  have e : index b (i + j * 16) = runtimePanic := by
    unfold index
    rw [if_neg (by omega)]
  rw [e]
  intro w _
  exact ⟨w, [], rfl, by simp, fun dc => rfl⟩

/-- The bytes of row `j` sent so far, after those of the rows before. -/
theorem gather_row (b : List Nat) (j : Nat) (n : Nat) (h : 16 * j + n ≤ b.length) :
    (b.take (16 * j)).map (fun v => Xfer.data [v]) ++
      gather (fun i : Int => [Xfer.data [b.getD (i + (j : Int) * 16).toNat 0]]) n 0
      = (b.take (16 * j + n)).map (fun v => Xfer.data [v]) := by
  induction n with
  | zero => simp [gather]
  | succ m ih =>
    rw [gather_succ_right, ← List.append_assoc, ih (by omega)]
    have e : ((0 : Int) + (m : Int) + (j : Int) * 16).toNat = 16 * j + m := by omega
    rw [e, ← Nat.add_assoc, take_succ_getD b (16 * j + m) (by omega), List.map_append]
    rfl

theorem gather_rows (b : List Nat) (m : Nat) (h : 16 * m ≤ b.length) :
    gather (fun j : Int =>
        gather (fun i : Int => [Xfer.data [b.getD (i + j * 16).toNat 0]]) 16 0) m 0
      = (b.take (16 * m)).map (fun v => Xfer.data [v]) := by
  induction m with
  | zero => simp [gather]
  | succ k ih =>
    rw [gather_succ_right, ih (by omega)]
    have e : (0 : Int) + (k : Int) = (k : Int) := by ring
    rw [e, gather_row b k 16 (by omega)]
    congr 2

/-- A slice of at least 4000 bytes: `Display` returns after command `0x24`, the first
4000 bytes as data in index order, and the turn-on sequence. -/
theorem sends_Display (b : List Nat) (hlen : 4000 ≤ b.length) :
    Sends (Display CreateEpd b) 4005
      (Xfer.command [0x24] :: (b.take 4000).map (fun v => Xfer.data [v]) ++
        [Xfer.command [0x22], Xfer.data [0xC7], Xfer.command [0x20]]) := by
  have hrows : Sends (forLoop 250 (fun j _ =>
      forLoop 16 (fun i _ =>
        index b (Go.add i (Go.mul j 16)) >>= fun d => sendData d) ()) ()) (250 * (16 * 1))
      (gather (fun j : Int =>
        gather (fun i : Int => [Xfer.data [b.getD (i + j * 16).toNat 0]]) 16 0) 250 0) := by
    apply sends_loop
    intro j hj0 hj1
    apply sends_loop
    intro i hi0 hi1
    exact sends_displayByte b i j (by omega) (by omega) (by omega) (by omega) (by omega)
  rw [gather_rows b 250 (by omega)] at hrows
  rw [Display_unfold]
  exact sends_bind (sends_sendCommand 0x24) (sends_bind hrows sends_TurnDisplayOn)

/-- A slice of fewer than 4000 bytes: `Display` sends command `0x24` and all the bytes
of the slice as data, and then panics on the index past the end. -/
theorem panics_Display (b : List Nat) (hlen : b.length < 4000) :
    Panics (Display CreateEpd b) (1 + b.length)
      (Xfer.command [0x24] :: b.map (fun v => Xfer.data [v])) := by
  have hrow : Panics (forLoop 16 (fun i _ =>
        index b (Go.add i (Go.mul ((b.length / 16 : Nat) : Int) 16)) >>= fun d => sendData d) ())
      (b.length % 16 * 1 + 0)
      (gather (fun i : Int =>
        [Xfer.data [b.getD (i + ((b.length / 16 : Nat) : Int) * 16).toNat 0]])
        (b.length % 16) 0 ++ []) := by
    apply panics_loop _ 1 0 _ [] (b.length % 16) 16 0 (by omega)
    · intro i hi0 hi1
      exact sends_displayByte b i ((b.length / 16 : Nat) : Int) (by omega) (by omega) (by omega)
        (by omega) (by omega)
    · exact panics_displayByte b ((0 : Int) + ((b.length % 16 : Nat) : Int))
        ((b.length / 16 : Nat) : Int) (by omega) (by omega) (by omega) (by omega) (by omega)
  have hrows : Panics (forLoop 250 (fun j _ =>
      forLoop 16 (fun i _ =>
        index b (Go.add i (Go.mul j 16)) >>= fun d => sendData d) ()) ())
      (b.length / 16 * (16 * 1) + (b.length % 16 * 1 + 0))
      (gather (fun j : Int =>
        gather (fun i : Int => [Xfer.data [b.getD (i + j * 16).toNat 0]]) 16 0)
        (b.length / 16) 0 ++
       (gather (fun i : Int =>
        [Xfer.data [b.getD (i + ((b.length / 16 : Nat) : Int) * 16).toNat 0]])
        (b.length % 16) 0 ++ [])) := by
    apply panics_loop _ (16 * 1) _ _ _ (b.length / 16) 250 0 (by omega)
    · intro j hj0 hj1
      apply sends_loop
      intro i hi0 hi1
      exact sends_displayByte b i j (by omega) (by omega) (by omega) (by omega) (by omega)
    · have e : (0 : Int) + ((b.length / 16 : Nat) : Int) = ((b.length / 16 : Nat) : Int) := by
        ring
      rw [e]
      exact hrow
  rw [gather_rows b (b.length / 16) (by omega), List.append_nil,
    gather_row b (b.length / 16) (b.length % 16) (by omega)] at hrows
  have e1 : 16 * (b.length / 16) + b.length % 16 = b.length := by omega
  have e2 : b.length / 16 * (16 * 1) + (b.length % 16 * 1 + 0) = b.length := by omega
  rw [e1, e2, List.take_length] at hrows
  rw [Display_unfold]
  exact panics_bind_right (sends_sendCommand 0x24) (panics_bind_left hrows)

theorem sends_Clear :
    Sends (Clear CreateEpd) 4004
      (Xfer.command [0x24] :: List.replicate 4000 (Xfer.data [0xFF]) ++
        [Xfer.command [0x22], Xfer.data [0xC7], Xfer.command [0x20]]) := by
  have hrows : Sends (forLoop 250 (fun _ _ => forLoop 16 (fun _ _ => sendData 0xFF) ()) ())
      (250 * (16 * 1))
      (gather (fun _ : Int => gather (fun _ : Int => [Xfer.data [0xFF]]) 16 0) 250 0) := by
    apply sends_loop
    intro j _ _
    apply sends_loop
    intro i _ _
    exact sends_sendData 0xFF
  have e : gather (fun _ : Int => gather (fun _ : Int => [Xfer.data [0xFF]]) 16 0) 250 0
      = List.replicate 4000 (Xfer.data [0xFF]) := by
    have e1 : (fun _ : Int => gather (fun _ : Int => [Xfer.data [0xFF]]) 16 0)
        = fun _ : Int => List.replicate 16 (Xfer.data [0xFF]) := by
      funext _
      exact gather_single _ 16 0
    rw [e1, gather_replicate]
  rw [e] at hrows
  rw [Clear_unfold]
  exact sends_bind (sends_sendCommand 0x24) (sends_bind hrows sends_TurnDisplayOff)

/-! ## A busy line that stops reading idle -/

theorem readBusyLoop_waiting (busy : List Bool) :
    ∀ t, idles busy = 0 → ∃ evs, readBusyLoop busy t = Run.waiting ⟨t ++ evs, []⟩ ∧
      ∀ dc, transfers dc evs = [] := by
  induction busy with
  | nil =>
    intro t _
    exact ⟨[], by simp [readBusyLoop], fun dc => rfl⟩
  | cons l rest ih =>
    intro t h
    cases l with
    | false => simp [idles] at h
    | true =>
      have h1 : idles rest = 0 := by simpa [idles] using h
      obtain ⟨evs, hrun, htr⟩ := ih (t ++ [Event.read true, Event.sleep 100]) h1
      refine ⟨[Event.read true, Event.sleep 100] ++ evs, ?_, fun dc => ?_⟩
      · rw [readBusyLoop, hrun, List.append_assoc]
      · simp [transfers, htr]

theorem blocks_readBusy : Blocks readBusy 0 [] := by
  intro w h
  obtain ⟨evs, hrun, htr⟩ := readBusyLoop_waiting w.busy w.trace h
  exact ⟨⟨w.trace ++ evs, []⟩, evs, hrun, rfl, htr⟩

theorem blocks_sendCommand (c : Nat) : Blocks (sendCommand c) 0 [Xfer.command [c]] := by
  intro w h
  obtain ⟨evs, hrun, htr⟩ := readBusyLoop_waiting w.busy
    (w.trace ++ [Event.out Pin.dc false] ++ [Event.out Pin.cs false] ++ [Event.tx [c]]
      ++ [Event.out Pin.cs true]) h
  refine ⟨_, [Event.out Pin.dc false, Event.out Pin.cs false, Event.tx [c],
    Event.out Pin.cs true] ++ evs, hrun, ?_, fun dc => ?_⟩
  · simp
  · simp [transfers, htr]

theorem blocks_sendData (d : Nat) : Blocks (sendData d) 0 [Xfer.data [d]] := by
  intro w h
  obtain ⟨evs, hrun, htr⟩ := readBusyLoop_waiting w.busy
    (w.trace ++ [Event.out Pin.dc true] ++ [Event.out Pin.cs false] ++ [Event.tx [d]]
      ++ [Event.out Pin.cs true]) h
  refine ⟨_, [Event.out Pin.dc true, Event.out Pin.cs false, Event.tx [d],
    Event.out Pin.cs true] ++ evs, hrun, ?_, fun dc => ?_⟩
  · simp
  · simp [transfers, htr]

theorem blocks_bind_left {m : Drv Unit} {f : Unit → Drv Unit} {k : Nat} {xs : List Xfer}
    (h1 : Blocks m k xs) : Blocks (m >>= f) k xs := by
  intro w h
  obtain ⟨w1, evs1, hrun1, htr1, hx1⟩ := h1 w h
  exact ⟨w1, evs1, bind_waiting hrun1, htr1, hx1⟩

theorem blocks_bind_right {m1 m2 : Drv Unit} {k1 k2 : Nat}
    {xs1 xs2 : List Xfer} (h1 : Sends m1 k1 xs1) (h2 : Blocks m2 k2 xs2) :
    Blocks (m1 >>= fun _ => m2) (k1 + k2) (xs1 ++ xs2) := by
  intro w h
  obtain ⟨w1, evs1, hrun1, htr1, hid1, hx1⟩ := h1 w (by omega)
  obtain ⟨w2, evs2, hrun2, htr2, hx2⟩ := h2 w1 (by omega)
  refine ⟨w2, evs1 ++ evs2, ?_, ?_, fun dc => ?_⟩
  · rw [bind_done hrun1]
    exact hrun2
  · rw [htr2, htr1, List.append_assoc]
  · rw [transfers_append, hx1, hx2]

theorem blocks_loop (body : Int → Unit → Drv Unit) (k kp : Nat) (xs : Int → List Xfer)
    (xp : List Xfer) (a : Nat) :
    ∀ (count : Nat) (i0 : Int), a < count →
      (∀ i, i0 ≤ i → i < i0 + a → Sends (body i ()) k (xs i)) →
      Blocks (body (i0 + a) ()) kp xp →
      Blocks (loopFrom body count i0 ()) (a * k + kp) (gather xs a i0 ++ xp) := by
  induction a with
  | zero =>
    intro count i0 hc _ hp w h
    obtain ⟨n, rfl⟩ : ∃ n, count = n + 1 := ⟨count - 1, by omega⟩
    obtain ⟨w1, evs1, hrun1, htr1, hx1⟩ := hp w (by omega)
    simp only [Nat.cast_zero, add_zero] at hrun1
    refine ⟨w1, evs1, ?_, htr1, fun dc => ?_⟩
    · simp only [loopFrom, hrun1]
    · rw [hx1]
      rfl
  | succ b ih =>
    intro count i0 hc hbody hp w h
    obtain ⟨n, rfl⟩ : ∃ n, count = n + 1 := ⟨count - 1, by omega⟩
    have hk : (b + 1) * k = k + b * k := by ring
    obtain ⟨w1, evs1, hrun1, htr1, hid1, hx1⟩ :=
      hbody i0 (le_refl _) (by push_cast; omega) w (by omega)
    have hp1 : Blocks (body (i0 + 1 + b) ()) kp xp := by
      have e : i0 + ((b + 1 : Nat) : Int) = i0 + 1 + b := by push_cast; ring
      rw [← e]
      exact hp
    obtain ⟨w2, evs2, hrun2, htr2, hx2⟩ :=
      ih n (i0 + 1) (by omega) (fun i hi0 hi1 => hbody i (by omega) (by push_cast; omega))
        hp1 w1 (by omega)
    refine ⟨w2, evs1 ++ evs2, ?_, ?_, fun dc => ?_⟩
    · simp only [loopFrom, hrun1]
      exact hrun2
    · rw [htr2, htr1, List.append_assoc]
    · rw [transfers_append, hx1, hx2, gather, List.append_assoc]

theorem blocks_of_eq {m : Drv Unit} {k k1 : Nat} {xs xs1 : List Xfer} (h : Blocks m k xs)
    (hk : k = k1) (hx : xs = xs1) : Blocks m k1 xs1 := by
  subst hk
  subst hx
  exact h

theorem take_frame (c : Xfer) (l tail : List Xfer) (n : Nat) :
    (c :: l ++ tail).take (n + 1) = c :: (l.take n ++ tail.take (n - l.length)) := by
  simp [List.take_append_eq_append_take]

/-- The turn-on sequence with only `s < 4` idle readings left. -/
theorem blocks_TurnDisplayOn (s : Nat) (hs : s < 4) :
    Blocks TurnDisplayOn s
      ([Xfer.command [0x22], Xfer.data [0xC7], Xfer.command [0x20]].take (s + 1)) := by
  have e : TurnDisplayOn = (sendCommand 0x22 >>= fun _ => sendData 0xC7 >>= fun _ =>
    sendCommand 0x20 >>= fun _ => readBusy) := rfl
  rw [e]
  interval_cases s
  · exact blocks_bind_left (blocks_sendCommand 0x22)
  · exact blocks_bind_right (sends_sendCommand 0x22) (blocks_bind_left (blocks_sendData 0xC7))
  · exact blocks_bind_right (sends_sendCommand 0x22) (blocks_bind_right (sends_sendData 0xC7)
      (blocks_bind_left (blocks_sendCommand 0x20)))
  · exact blocks_bind_right (sends_sendCommand 0x22) (blocks_bind_right (sends_sendData 0xC7)
      (blocks_bind_right (sends_sendCommand 0x20) blocks_readBusy))

/-- The turn-off sequence with only `s < 3` idle readings left. -/
theorem blocks_TurnDisplayOff (s : Nat) (hs : s < 3) :
    Blocks TurnDisplayOff s
      ([Xfer.command [0x22], Xfer.data [0xC7], Xfer.command [0x20]].take (s + 1)) := by
  have e : TurnDisplayOff = (sendCommand 0x22 >>= fun _ => sendData 0xC7 >>= fun _ =>
    sendCommand 0x20) := rfl
  rw [e]
  interval_cases s
  · exact blocks_bind_left (blocks_sendCommand 0x22)
  · exact blocks_bind_right (sends_sendCommand 0x22) (blocks_bind_left (blocks_sendData 0xC7))
  · exact blocks_bind_right (sends_sendCommand 0x22) (blocks_bind_right (sends_sendData 0xC7)
      (blocks_sendCommand 0x20))

theorem blocks_displayByte (b : List Nat) (i j : Int) (hi0 : 0 ≤ i) (hi1 : i < 16)
    (hj0 : 0 ≤ j) (hj1 : j < 250) (hb : i + j * 16 < b.length) :
    Blocks (index b (Go.add i (Go.mul j 16)) >>= fun d => sendData d) 0
      [Xfer.data [b.getD (i + j * 16).toNat 0]] := by
  rw [Display_index i j hi0 hi1 hj0 hj1]
  have e : index b (i + j * 16) = pure (b.getD (i + j * 16).toNat 0) := by
    unfold index
    rw [if_pos ⟨by omega, hb⟩]
  rw [e]
  exact blocks_sendData _

/-- The data loops of `Display` with only `q < 4000` idle readings left: the bytes
`b[0]`, ..., `b[q]` are sent and the call is left waiting. -/
theorem blocks_displayRows (b : List Nat) (hlen : b.length = 4000) (q : Nat) (hq : q < 4000) :
    Blocks (forLoop 250 (fun j _ =>
      forLoop 16 (fun i _ =>
        index b (Go.add i (Go.mul j 16)) >>= fun d => sendData d) ()) ()) q
      ((b.take (q + 1)).map (fun v => Xfer.data [v])) := by
  have hrow : Blocks (forLoop 16 (fun i _ =>
        index b (Go.add i (Go.mul ((q / 16 : Nat) : Int) 16)) >>= fun d => sendData d) ())
      (q % 16 * 1 + 0)
      (gather (fun i : Int =>
        [Xfer.data [b.getD (i + ((q / 16 : Nat) : Int) * 16).toNat 0]]) (q % 16) 0 ++
        [Xfer.data [b.getD ((0 : Int) + ((q % 16 : Nat) : Int)
          + ((q / 16 : Nat) : Int) * 16).toNat 0]]) := by
    apply blocks_loop _ 1 0 _ _ (q % 16) 16 0 (by omega)
    · intro i hi0 hi1
      exact sends_displayByte b i ((q / 16 : Nat) : Int) (by omega) (by omega) (by omega)
        (by omega) (by omega)
    · exact blocks_displayByte b ((0 : Int) + ((q % 16 : Nat) : Int))
        ((q / 16 : Nat) : Int) (by omega) (by omega) (by omega) (by omega) (by omega)
  have hrows := blocks_loop (fun j _ =>
      forLoop 16 (fun i _ =>
        index b (Go.add i (Go.mul j 16)) >>= fun d => sendData d) ()) (16 * 1) _
      (fun j : Int => gather (fun i : Int => [Xfer.data [b.getD (i + j * 16).toNat 0]]) 16 0)
      _ (q / 16) 250 0 (by omega)
      (by
        intro j hj0 hj1
        apply sends_loop
        intro i hi0 hi1
        exact sends_displayByte b i j (by omega) (by omega) (by omega) (by omega) (by omega))
      (by
        have e : (0 : Int) + ((q / 16 : Nat) : Int) = ((q / 16 : Nat) : Int) := by ring
        rw [e]
        exact hrow)
  apply blocks_of_eq hrows (by omega)
  rw [gather_rows b (q / 16) (by omega), ← List.append_assoc,
    gather_row b (q / 16) (q % 16) (by omega)]
  have e1 : ((0 : Int) + ((q % 16 : Nat) : Int) + ((q / 16 : Nat) : Int) * 16).toNat
      = 16 * (q / 16) + q % 16 := by omega
  have e2 : 16 * (q / 16) + q % 16 = q := by omega
  rw [e1, e2, take_succ_getD b q (by omega), List.map_append]
  rfl

/-- `Display` of a buffer of 4000 bytes with only `n < 4005` idle readings left. -/
theorem blocks_Display (b : List Nat) (hlen : b.length = 4000) (n : Nat) (hn : n < 4005) :
    Blocks (Display CreateEpd b) n
      ((Xfer.command [0x24] :: b.map (fun v => Xfer.data [v]) ++
        [Xfer.command [0x22], Xfer.data [0xC7], Xfer.command [0x20]]).take (n + 1)) := by
  rw [Display_unfold]
  have hl : (b.map (fun v => Xfer.data [v])).length = 4000 := by rw [List.length_map, hlen]
  by_cases h0 : n = 0
  · subst h0
    apply blocks_of_eq (blocks_bind_left (blocks_sendCommand 0x24)) rfl
    rw [take_frame, List.take_zero, Nat.zero_sub, List.take_zero]
    rfl
  · by_cases h1 : n ≤ 4000
    · have h := blocks_bind_right (sends_sendCommand 0x24)
        (blocks_bind_left (f := fun _ => TurnDisplayOn)
          (blocks_displayRows b hlen (n - 1) (by omega)))
      apply blocks_of_eq h (by omega)
      have e : n - 1 + 1 = n := by omega
      have e2 : n - (b.map (fun v => Xfer.data [v])).length = 0 := by omega
      rw [take_frame, e, e2, List.map_take, List.take_zero, List.append_nil]
      rfl
    · have hrows : Sends (forLoop 250 (fun j _ =>
          forLoop 16 (fun i _ =>
            index b (Go.add i (Go.mul j 16)) >>= fun d => sendData d) ()) ()) (250 * (16 * 1))
          (gather (fun j : Int =>
            gather (fun i : Int => [Xfer.data [b.getD (i + j * 16).toNat 0]]) 16 0) 250 0) := by
        apply sends_loop
        intro j hj0 hj1
        apply sends_loop
        intro i hi0 hi1
        exact sends_displayByte b i j (by omega) (by omega) (by omega) (by omega) (by omega)
      rw [gather_rows b 250 (by omega)] at hrows
      have h := blocks_bind_right (sends_sendCommand 0x24)
        (blocks_bind_right hrows (blocks_TurnDisplayOn (n - 4001) (by omega)))
      apply blocks_of_eq h (by omega)
      have t1 : (b.map (fun v => Xfer.data [v])).take n = b.map (fun v => Xfer.data [v]) :=
        List.take_of_length_le (by omega)
      have t2 : n - (b.map (fun v => Xfer.data [v])).length = n - 4001 + 1 := by omega
      have t3 : List.take (16 * 250) b = b := List.take_of_length_le (by omega)
      rw [take_frame, t1, t2, t3]
      rfl

/-- `Clear` with only `n < 4004` idle readings left. -/
theorem blocks_Clear (n : Nat) (hn : n < 4004) :
    Blocks (Clear CreateEpd) n
      ((Xfer.command [0x24] :: List.replicate 4000 (Xfer.data [0xFF]) ++
        [Xfer.command [0x22], Xfer.data [0xC7], Xfer.command [0x20]]).take (n + 1)) := by
  rw [Clear_unfold]
  have e1 : (fun _ : Int => gather (fun _ : Int => [Xfer.data [0xFF]]) 16 0)
      = fun _ : Int => List.replicate 16 (Xfer.data [0xFF]) := by
    funext _
    exact gather_single _ 16 0
  by_cases h0 : n = 0
  · subst h0
    apply blocks_of_eq (blocks_bind_left (blocks_sendCommand 0x24)) rfl
    rw [take_frame, List.take_zero, Nat.zero_sub, List.take_zero]
    rfl
  · by_cases h1 : n ≤ 4000
    · have hrow : Blocks (forLoop 16 (fun _ _ => sendData 0xFF) ()) ((n - 1) % 16 * 1 + 0)
          (gather (fun _ : Int => [Xfer.data [0xFF]]) ((n - 1) % 16) 0 ++ [Xfer.data [0xFF]]) :=
        blocks_loop _ 1 0 _ _ ((n - 1) % 16) 16 0 (by omega)
          (fun i _ _ => sends_sendData 0xFF) (blocks_sendData 0xFF)
      have hrows := blocks_loop (fun _ _ => forLoop 16 (fun _ _ => sendData 0xFF) ()) (16 * 1) _
        (fun _ : Int => gather (fun _ : Int => [Xfer.data [0xFF]]) 16 0)
        _ ((n - 1) / 16) 250 0 (by omega)
        (by
          intro j _ _
          apply sends_loop
          intro i _ _
          exact sends_sendData 0xFF)
        hrow
      have h := blocks_bind_right (sends_sendCommand 0x24)
        (blocks_bind_left (f := fun _ => TurnDisplayOff) hrows)
      apply blocks_of_eq h (by omega)
      have e2 : n - (List.replicate 4000 (Xfer.data [0xFF])).length = 0 := by
        rw [List.length_replicate]
        omega
      have e3 : min n 4000 = (n - 1) / 16 * 16 + ((n - 1) % 16 + 1) := by omega
      rw [take_frame, e1, gather_replicate, gather_single, List.take_replicate, e2, e3,
        List.replicate_add, List.replicate_succ', List.take_zero, List.append_nil]
      rfl
    · have hrows : Sends (forLoop 250 (fun _ _ => forLoop 16 (fun _ _ => sendData 0xFF) ()) ())
          (250 * (16 * 1))
          (gather (fun _ : Int => gather (fun _ : Int => [Xfer.data [0xFF]]) 16 0) 250 0) := by
        apply sends_loop
        intro j _ _
        apply sends_loop
        intro i _ _
        exact sends_sendData 0xFF
      rw [e1, gather_replicate] at hrows
      have h := blocks_bind_right (sends_sendCommand 0x24)
        (blocks_bind_right hrows (blocks_TurnDisplayOff (n - 4001) (by omega)))
      apply blocks_of_eq h (by omega)
      have t1 : (List.replicate 4000 (Xfer.data [0xFF])).take n
          = List.replicate (250 * 16) (Xfer.data [0xFF]) := by
        rw [List.take_replicate]
        congr 1
        omega
      have t2 : n - (List.replicate 4000 (Xfer.data [0xFF])).length = n - 4001 + 1 := by
        rw [List.length_replicate]
        omega
      rw [take_frame, t1, t2]
      rfl

/-! ## The display controller: `Display` and `Clear` -/

theorem idles_idleWorld (n : Nat) : idles (idleWorld n).busy = n := by
  simp [idles, idleWorld]

/-- C8, as the code has it. `Display` does not check the length of its argument and
has no error result. With a responsive busy line, a slice of at least 4000 bytes is
written: command `0x24`, its first 4000 bytes as data, the turn-on sequence, the bytes
past the first 4000 being ignored; for a slice of fewer than 4000 bytes the call sends
command `0x24` and every byte of the slice as data and then panics on the index past
the end, before any turn-on sequence. -/
theorem Display_unvalidated (b : List Nat) (w : World) (hbusy : 4005 ≤ idles w.busy) :
    (4000 ≤ b.length → ∃ w1 evs, Display CreateEpd b w = Run.done () w1 ∧
      w1.trace = w.trace ++ evs ∧
      ∀ dc, transfers dc evs =
        Xfer.command [0x24] :: (b.take 4000).map (fun v => Xfer.data [v]) ++
          [Xfer.command [0x22], Xfer.data [0xC7], Xfer.command [0x20]]) ∧
    (b.length < 4000 → ∃ w1 evs, Display CreateEpd b w = Run.panic w1 ∧
      w1.trace = w.trace ++ evs ∧
      ∀ dc, transfers dc evs = Xfer.command [0x24] :: b.map (fun v => Xfer.data [v])) := by
  constructor
  · intro hlen
    obtain ⟨w1, evs, hrun, htr, _, hx⟩ := sends_Display b hlen w hbusy
    exact ⟨w1, evs, hrun, htr, hx⟩
  · intro hlen
    exact panics_Display b hlen w (by omega)

/-- The amended C8 at the slice of one byte. -/
theorem Display_unvalidated_witness :
    4005 ≤ idles (idleWorld 4005).busy ∧
    ∃ w1 evs, Display CreateEpd [0x5A] (idleWorld 4005) = Run.panic w1 ∧
      w1.trace = (idleWorld 4005).trace ++ evs ∧
      ∀ dc, transfers dc evs = [Xfer.command [0x24], Xfer.data [0x5A]] :=
  ⟨le_of_eq (idles_idleWorld 4005).symm,
    (Display_unvalidated [0x5A] (idleWorld 4005) (le_of_eq (idles_idleWorld 4005).symm)).2
      (by decide)⟩

/-- C8 fails as stated: the empty slice is not rejected before the bus is used, the
call panics after command `0x24` has been transferred; and a slice of 4001 bytes is
accepted and its first 4000 bytes are written to the panel. -/
theorem Display_not_validated :
    Display CreateEpd [] (idleWorld 1) = Run.panic
      ⟨[Event.out Pin.dc false, Event.out Pin.cs false, Event.tx [0x24],
        Event.out Pin.cs true, Event.read false], []⟩ ∧
    (List.replicate 4001 0x00).length ≠ 4000 ∧
    ∃ w1, Display CreateEpd (List.replicate 4001 0x00) (idleWorld 4005) = Run.done () w1 ∧
      ∀ dc, transfers dc w1.trace =
        Xfer.command [0x24] :: List.replicate 4000 (Xfer.data [0x00]) ++
          [Xfer.command [0x22], Xfer.data [0xC7], Xfer.command [0x20]] := by
  refine ⟨rfl, by rw [List.length_replicate]; norm_num, ?_⟩
  obtain ⟨w1, evs, hrun, htr, _, hx⟩ := sends_Display (List.replicate 4001 0x00)
    (by rw [List.length_replicate]; norm_num) (idleWorld 4005)
    (le_of_eq (idles_idleWorld 4005).symm)
  refine ⟨w1, hrun, fun dc => ?_⟩
  have e : w1.trace = evs := by rw [htr]; rfl
  rw [e, hx dc, List.take_replicate, List.map_replicate]
  rfl

/-- C9. For a buffer `b` of exactly 4000 bytes the bus transfers of `Display b` are
exactly: command `0x24`; the data bytes `b[0]`, ..., `b[3999]`, each in a transfer of
its own, in index order; command `0x22`, data `0xC7`, command `0x20`. The call returns
with all of them made when the busy line reads idle at each of its 4005 waits; when the
busy line reads idle fewer times, the call is left waiting, with the initial part of
that same sequence transferred. -/
theorem Display_transfers (b : List Nat) (w : World) (hlen : b.length = 4000) :
    (4005 ≤ idles w.busy →
      ∃ w1 evs, Display CreateEpd b w = Run.done () w1 ∧ w1.trace = w.trace ++ evs ∧
        ∀ dc, transfers dc evs =
          Xfer.command [0x24] :: b.map (fun v => Xfer.data [v]) ++
            [Xfer.command [0x22], Xfer.data [0xC7], Xfer.command [0x20]]) ∧
    (idles w.busy < 4005 →
      ∃ w1 evs, Display CreateEpd b w = Run.waiting w1 ∧ w1.trace = w.trace ++ evs ∧
        ∀ dc, transfers dc evs =
          (Xfer.command [0x24] :: b.map (fun v => Xfer.data [v]) ++
            [Xfer.command [0x22], Xfer.data [0xC7], Xfer.command [0x20]]).take
              (idles w.busy + 1)) := by
  constructor
  · intro hbusy
    obtain ⟨w1, evs, hrun, htr, _, hx⟩ := sends_Display b (by omega) w hbusy
    refine ⟨w1, evs, hrun, htr, fun dc => ?_⟩
    rw [hx dc, ← hlen, List.take_length]
  · intro hbusy
    exact blocks_Display b hlen (idles w.busy) hbusy w rfl

/-- C9 at the buffer of 4000 bytes `0x3C`, the busy line reading idle 4005 times. -/
theorem Display_transfers_witness :
    (List.replicate 4000 0x3C).length = 4000 ∧ 4005 ≤ idles (idleWorld 4005).busy ∧
    ∃ w1 evs, Display CreateEpd (List.replicate 4000 0x3C) (idleWorld 4005) = Run.done () w1 ∧
      w1.trace = (idleWorld 4005).trace ++ evs ∧
      ∀ dc, transfers dc evs =
        Xfer.command [0x24] :: (List.replicate 4000 0x3C).map (fun v => Xfer.data [v]) ++
          [Xfer.command [0x22], Xfer.data [0xC7], Xfer.command [0x20]] :=
  ⟨List.length_replicate _ _, le_of_eq (idles_idleWorld 4005).symm,
    (Display_transfers (List.replicate 4000 0x3C) (idleWorld 4005)
      (List.length_replicate _ _)).1 (le_of_eq (idles_idleWorld 4005).symm)⟩

/-- C10. Whatever the driver did before, the bus transfers of `Clear` are exactly:
command `0x24`; 4000 data bytes `0xFF`, each in a transfer of its own; and only then
command `0x22`, data `0xC7`, command `0x20`. The call returns with all of them made
when the busy line reads idle at each of its 4004 waits; when the busy line reads idle
fewer times, the call is left waiting, with the initial part of that same sequence
transferred. -/
theorem Clear_transfers (w : World) :
    (4004 ≤ idles w.busy →
      ∃ w1 evs, Clear CreateEpd w = Run.done () w1 ∧ w1.trace = w.trace ++ evs ∧
        ∀ dc, transfers dc evs =
          Xfer.command [0x24] :: List.replicate 4000 (Xfer.data [0xFF]) ++
            [Xfer.command [0x22], Xfer.data [0xC7], Xfer.command [0x20]]) ∧
    (idles w.busy < 4004 →
      ∃ w1 evs, Clear CreateEpd w = Run.waiting w1 ∧ w1.trace = w.trace ++ evs ∧
        ∀ dc, transfers dc evs =
          (Xfer.command [0x24] :: List.replicate 4000 (Xfer.data [0xFF]) ++
            [Xfer.command [0x22], Xfer.data [0xC7], Xfer.command [0x20]]).take
              (idles w.busy + 1)) := by
  constructor
  · intro hbusy
    obtain ⟨w1, evs, hrun, htr, _, hx⟩ := sends_Clear w hbusy
    exact ⟨w1, evs, hrun, htr, hx⟩
  · intro hbusy
    exact blocks_Clear (idles w.busy) hbusy w rfl

/-- C10 in a world that has seen nothing yet, the busy line reading idle 4004 times. -/
theorem Clear_transfers_witness :
    4004 ≤ idles (idleWorld 4004).busy ∧
    ∃ w1 evs, Clear CreateEpd (idleWorld 4004) = Run.done () w1 ∧
      w1.trace = (idleWorld 4004).trace ++ evs ∧
      ∀ dc, transfers dc evs =
        Xfer.command [0x24] :: List.replicate 4000 (Xfer.data [0xFF]) ++
          [Xfer.command [0x22], Xfer.data [0xC7], Xfer.command [0x20]] :=
  ⟨le_of_eq (idles_idleWorld 4004).symm,
    (Clear_transfers (idleWorld 4004)).1 (le_of_eq (idles_idleWorld 4004).symm)⟩

/-! ## The busy wait `readBusy` -/

theorem readBusyLoop_script (k : Nat) (rest : List Bool) :
    ∀ t, readBusyLoop (List.replicate k true ++ false :: rest) t
      = Run.done () ⟨t ++ busyWait k, rest⟩ := by
  induction k with
  | zero => intro t; rfl
  | succ n ih =>
    intro t
    rw [List.replicate_succ, List.cons_append, readBusyLoop, ih, busyWait]
    simp

theorem readBusyLoop_polls (k : Nat) :
    ∀ t, readBusyLoop (List.replicate k true) t = Run.waiting ⟨t ++ busyPolls k, []⟩ := by
  induction k with
  | zero => intro t; simp [readBusyLoop, busyPolls]
  | succ n ih =>
    intro t
    rw [List.replicate_succ, readBusyLoop, ih, busyPolls]
    simp

theorem busyWait_length (k : Nat) : (busyWait k).length = 2 * k + 1 := by
  induction k with
  | zero => rfl
  | succ n ih => simp [busyWait, ih]; omega

theorem busyWait_count_busy (k : Nat) : (busyWait k).count (Event.read true) = k := by
  induction k with
  | zero => rfl
  | succ n ih => simp [busyWait, ih]

theorem busyWait_count_idle (k : Nat) : (busyWait k).count (Event.read false) = 1 := by
  induction k with
  | zero => rfl
  | succ n ih => simp [busyWait, ih]

theorem busyWait_count_sleep (k : Nat) : (busyWait k).count (Event.sleep 100) = k := by
  induction k with
  | zero => rfl
  | succ n ih => simp [busyWait, ih]

theorem busyWait_eq_polls (k : Nat) : busyWait k = busyPolls k ++ [Event.read false] := by
  induction k with
  | zero => rfl
  | succ n ih => simp [busyWait, busyPolls, ih]

/-- C14. When the busy line shows `k` busy readings and then an idle one, `readBusy`
returns with exactly the events of `k` busy readings, each followed by a sleep of
100 ms, and the idle reading last: `k + 1` reads, `k` sleeps and nothing else, so no bus
transfer and no output on a pin; the readings after the idle one are left unread.
With the `k` busy readings alone the call has not returned. -/
theorem readBusy_polls (k : Nat) (rest : List Bool) (t : List Event) :
    readBusy ⟨t, List.replicate k true ++ false :: rest⟩
      = Run.done () ⟨t ++ busyWait k, rest⟩ ∧
    busyWait k = busyPolls k ++ [Event.read false] ∧
    (busyWait k).length = 2 * k + 1 ∧
    (busyWait k).count (Event.read true) = k ∧
    (busyWait k).count (Event.read false) = 1 ∧
    (busyWait k).count (Event.sleep 100) = k ∧
    readBusy ⟨t, List.replicate k true⟩ = Run.waiting ⟨t ++ busyPolls k, []⟩ :=
  ⟨readBusyLoop_script k rest t, busyWait_eq_polls k, busyWait_length k,
    busyWait_count_busy k, busyWait_count_idle k, busyWait_count_sleep k,
    readBusyLoop_polls k t⟩

/-! ## Command framing -/

theorem sendCommand_script (c k : Nat) (rest : List Bool) (t : List Event) :
    sendCommand c ⟨t, List.replicate k true ++ false :: rest⟩
      = Run.done () ⟨t ++ frame false c k, rest⟩ := by
  have h := readBusyLoop_script k rest (t ++ [Event.out Pin.dc false]
    ++ [Event.out Pin.cs false] ++ [Event.tx [c]] ++ [Event.out Pin.cs true])
  have e : sendCommand c ⟨t, List.replicate k true ++ false :: rest⟩
      = readBusyLoop (List.replicate k true ++ false :: rest) (t ++ [Event.out Pin.dc false]
        ++ [Event.out Pin.cs false] ++ [Event.tx [c]] ++ [Event.out Pin.cs true]) := rfl
  rw [e, h]
  simp [frame]

theorem sendData_script (d k : Nat) (rest : List Bool) (t : List Event) :
    sendData d ⟨t, List.replicate k true ++ false :: rest⟩
      = Run.done () ⟨t ++ frame true d k, rest⟩ := by
  have h := readBusyLoop_script k rest (t ++ [Event.out Pin.dc true]
    ++ [Event.out Pin.cs false] ++ [Event.tx [d]] ++ [Event.out Pin.cs true])
  have e : sendData d ⟨t, List.replicate k true ++ false :: rest⟩
      = readBusyLoop (List.replicate k true ++ false :: rest) (t ++ [Event.out Pin.dc true]
        ++ [Event.out Pin.cs false] ++ [Event.tx [d]] ++ [Event.out Pin.cs true]) := rfl
  rw [e, h]
  simp [frame]

theorem drop_take_succ (l : List Nat) (j n : Nat) (h : j < l.length) :
    (l.drop j).take (n + 1) = l.getD j 0 :: (l.drop (j + 1)).take n := by
  rw [List.drop_eq_getElem_cons h, List.take_succ_cons, List.getD_eq_getElem _ _ h]

/-- The payload loop of `executeCommandAndLog`: one data frame for each byte from
position `j` on. -/
theorem payload_script (data : List Nat) (count : Nat) :
    ∀ (j : Nat) (ks : List Nat) (rest : List Bool) (t : List Event),
      ks.length = count → j + count ≤ data.length →
      loopFrom (fun i _ => index data i >>= fun d => sendData d) count (j : Int) ()
          ⟨t, busyScript ks ++ rest⟩
        = Run.done () ⟨t ++ frames (((data.drop j).take count).map (fun v => (true, v))) ks,
            rest⟩ := by
  induction count with
  | zero =>
    intro j ks rest t hk _
    have e : ks = [] := List.length_eq_zero.1 hk
    subst e
    simp [loopFrom, frames, busyScript]
  | succ n ih =>
    intro j ks rest t hk hj
    obtain ⟨k, ks1, rfl⟩ : ∃ k ks1, ks = k :: ks1 := by
      cases ks with
      | nil => simp at hk
      | cons k ks1 => exact ⟨k, ks1, rfl⟩
    have hk1 : ks1.length = n := by simpa using hk
    have hidx : index data (j : Int) = pure (data.getD j 0) := by
      unfold index
      rw [if_pos ⟨by omega, by omega⟩]
      simp
    have hbody : (index data (j : Int) >>= fun d => sendData d)
        ⟨t, busyScript (k :: ks1) ++ rest⟩
        = Run.done () ⟨t ++ frame true (data.getD j 0) k, busyScript ks1 ++ rest⟩ := by
      rw [hidx]
      have h := sendData_script (data.getD j 0) k (busyScript ks1 ++ rest) t
      simp only [busyScript, List.append_assoc, List.cons_append]
      exact h
    have hnext := ih (j + 1) ks1 rest (t ++ frame true (data.getD j 0) k) hk1 (by omega)
    rw [loopFrom]
    simp only [hbody]
    have e : ((j : Int) + 1) = ((j + 1 : Nat) : Int) := by push_cast; rfl
    rw [e, hnext, drop_take_succ data j n (by omega)]
    simp [frames, List.append_assoc]

theorem selectedAtTx_busyWait (k : Nat) (rest : List Event) :
    ∀ cs, selectedAtTx cs (busyWait k ++ rest) = selectedAtTx cs rest := by
  induction k with
  | zero => intro cs; rfl
  | succ n ih => intro cs; simp [busyWait, selectedAtTx, ih]

theorem waitedAfterTx_busyWait (k : Nat) (rest : List Event) :
    ∀ pending, waitedAfterTx pending (busyWait k ++ rest) = waitedAfterTx false rest := by
  induction k with
  | zero => intro pending; simp [busyWait, waitedAfterTx]
  | succ n ih => intro pending; simp [busyWait, waitedAfterTx, ih]

theorem frames_selected (fs : List (Bool × Nat)) :
    ∀ (ks : List Nat) (cs : Bool), selectedAtTx cs (frames fs ks) = true := by
  induction fs with
  | nil => intro ks cs; simp [frames, selectedAtTx]
  | cons f fs1 ih =>
    intro ks cs
    obtain ⟨level, v⟩ := f
    cases ks with
    | nil => simp [frames, selectedAtTx]
    | cons k ks1 =>
      simp [frames, frame, selectedAtTx, selectedAtTx_busyWait, ih]

theorem frames_waited (fs : List (Bool × Nat)) :
    ∀ (ks : List Nat), waitedAfterTx false (frames fs ks) = true := by
  induction fs with
  | nil => intro ks; simp [frames, waitedAfterTx]
  | cons f fs1 ih =>
    intro ks
    obtain ⟨level, v⟩ := f
    cases ks with
    | nil => simp [frames, waitedAfterTx]
    | cons k ks1 =>
      simp [frames, frame, waitedAfterTx, waitedAfterTx_busyWait, ih]

theorem busyWait_no_tx (k : Nat) (bs : List Nat) : Event.tx bs ∉ busyWait k := by
  induction k with
  | zero => simp [busyWait]
  | succ n ih => simp [busyWait, ih]

theorem frames_one_byte (fs : List (Bool × Nat)) :
    ∀ (ks : List Nat) (bs : List Nat), Event.tx bs ∈ frames fs ks → bs.length = 1 := by
  induction fs with
  | nil => intro ks bs h; simp [frames] at h
  | cons f fs1 ih =>
    intro ks bs h
    obtain ⟨level, v⟩ := f
    cases ks with
    | nil => simp [frames] at h
    | cons k ks1 =>
      simp only [frames, frame, List.mem_append, List.mem_cons, List.mem_singleton] at h
      rcases h with ((h | h | h | h | h) | h) | h
      · cases h
      · cases h
      · cases h
        rfl
      · cases h
      · cases h
      · exact absurd h (busyWait_no_tx k bs)
      · exact ih ks1 bs h

theorem frames_transfers (fs : List (Bool × Nat)) :
    ∀ (ks : List Nat) (dc : Bool), ks.length = fs.length →
      transfers dc (frames fs ks)
        = fs.map (fun f => if f.1 then Xfer.data [f.2] else Xfer.command [f.2]) := by
  induction fs with
  | nil => intro ks dc _; simp [frames, transfers]
  | cons f fs1 ih =>
    intro ks dc hk
    obtain ⟨level, v⟩ := f
    cases ks with
    | nil => simp at hk
    | cons k ks1 =>
      have hk1 : ks1.length = fs1.length := by simpa using hk
      have hw : ∀ (n : Nat) (d : Bool) (rest : List Event),
          transfers d (busyWait n ++ rest) = transfers d rest := by
        intro n
        induction n with
        | zero => intro d rest; rfl
        | succ m ihm => intro d rest; simp [busyWait, transfers, ihm]
      simp [frames, frame, transfers, hw, ih ks1 _ hk1]

theorem executeCommandAndLog_script (opcode : Nat) (log : String) (payload : List Nat)
    (ks : List Nat) (rest : List Bool) (t : List Event) (hks : ks.length = payload.length + 1) :
    executeCommandAndLog opcode log payload ⟨t, busyScript ks ++ rest⟩
      = Run.done () ⟨t ++ Event.print (log ++ "\n") ::
          frames ((false, opcode) :: payload.map (fun v => (true, v))) ks, rest⟩ := by
  obtain ⟨k, ks1, rfl⟩ : ∃ k ks1, ks = k :: ks1 := by
    cases ks with
    | nil => simp at hks
    | cons k ks1 => exact ⟨k, ks1, rfl⟩
  have hk1 : ks1.length = payload.length := by simpa using hks
  have e : executeCommandAndLog opcode log payload = (fmtPrintln log >>= fun _ =>
    sendCommand opcode >>= fun _ =>
    forLoop payload.length (fun i _ => index payload i >>= fun d => sendData d) ()) := rfl
  have h1 : fmtPrintln log ⟨t, busyScript (k :: ks1) ++ rest⟩
      = Run.done () ⟨t ++ [Event.print (log ++ "\n")], busyScript (k :: ks1) ++ rest⟩ := rfl
  have h2 := sendCommand_script opcode k (busyScript ks1 ++ rest)
    (t ++ [Event.print (log ++ "\n")])
  have h3 := payload_script payload payload.length 0 ks1 rest
    (t ++ [Event.print (log ++ "\n")] ++ frame false opcode k) hk1 (by omega)
  have e2 : busyScript (k :: ks1) ++ rest
      = List.replicate k true ++ false :: (busyScript ks1 ++ rest) := by
    simp [busyScript]
  rw [e, bind_done h1, e2, bind_done h2]
  have e3 : forLoop (payload.length : Int) (fun i _ => index payload i >>= fun d => sendData d) ()
      = loopFrom (fun i _ => index payload i >>= fun d => sendData d) payload.length
          ((0 : Nat) : Int) () := by
    simp [forLoop]
  rw [e3, h3]
  simp [frames, List.take_length]

theorem first_idle (busy : List Bool) (h : 1 ≤ idles busy) :
    ∃ k rest, busy = List.replicate k true ++ false :: rest ∧ idles rest + 1 = idles busy := by
  induction busy with
  | nil => simp [idles] at h
  | cons l t ih =>
    cases l with
    | false => exact ⟨0, t, rfl, by simp [idles]⟩
    | true =>
      have h1 : 1 ≤ idles t := by simpa [idles] using h
      obtain ⟨k, rest, e, hid⟩ := ih h1
      refine ⟨k + 1, rest, ?_, ?_⟩
      · rw [e, List.replicate_succ, List.cons_append]
      · rw [hid]
        simp [idles]

/-- A busy line with `n` idle readings to come shows `n` busy waits that end. -/
theorem script_of_idles (n : Nat) :
    ∀ busy : List Bool, n ≤ idles busy →
      ∃ ks rest, ks.length = n ∧ busy = busyScript ks ++ rest := by
  induction n with
  | zero =>
    intro busy _
    exact ⟨[], busy, rfl, rfl⟩
  | succ m ih =>
    intro busy h
    obtain ⟨k, rest1, e, hid⟩ := first_idle busy (by omega)
    obtain ⟨ks, rest, hlen, e2⟩ := ih rest1 (by omega)
    refine ⟨k :: ks, rest, by simp [hlen], ?_⟩
    rw [e, e2]
    simp [busyScript]

/-- C13. For every opcode and payload, in a world whose busy line reads idle at each
of the waits of the call, the `i`-th wait after `ks[i]` busy readings:
`executeCommandAndLog` adds to the trace, after the log line, exactly one command frame
for the opcode and then one data frame for each payload byte in payload order, a frame
being: data/command line to its level (low for the command, high for data),
chip-select low, the byte transferred alone, chip-select high, the busy wait. So every
transfer has one byte, is made while chip-select is low, and is followed by an idle
reading of the busy line before the next transfer. -/
theorem executeCommandAndLog_frames (opcode : Nat) (log : String) (payload : List Nat)
    (w : World) (hbusy : payload.length + 1 ≤ idles w.busy) :
    ∃ ks rest, ks.length = payload.length + 1 ∧ w.busy = busyScript ks ++ rest ∧
      executeCommandAndLog opcode log payload w
        = Run.done () ⟨w.trace ++ Event.print (log ++ "\n") ::
            frames ((false, opcode) :: payload.map (fun v => (true, v))) ks, rest⟩ ∧
      (∀ bs, Event.tx bs ∈ frames ((false, opcode) :: payload.map (fun v => (true, v))) ks →
        bs.length = 1) ∧
      (∀ cs, selectedAtTx cs
        (frames ((false, opcode) :: payload.map (fun v => (true, v))) ks) = true) ∧
      waitedAfterTx false
        (frames ((false, opcode) :: payload.map (fun v => (true, v))) ks) = true ∧
      (∀ dc, transfers dc (frames ((false, opcode) :: payload.map (fun v => (true, v))) ks)
        = Xfer.command [opcode] :: payload.map (fun v => Xfer.data [v])) := by
  obtain ⟨ks, rest, hks, e⟩ := script_of_idles (payload.length + 1) w.busy hbusy
  have hw : w = ⟨w.trace, busyScript ks ++ rest⟩ := by
    rw [← e]
  refine ⟨ks, rest, hks, e, ?_, frames_one_byte _ ks, frames_selected _ ks,
    frames_waited _ ks, fun dc => ?_⟩
  · rw [hw]
    exact executeCommandAndLog_script opcode log payload ks rest w.trace hks
  · rw [frames_transfers _ ks dc (by simp [hks])]
    simp [List.map_map, Function.comp]

/-- C13 at opcode `0x01` with the payload `0xF9, 0x00, 0x00`, the busy line busy twice
before the first idle reading and once before the third. -/
theorem executeCommandAndLog_frames_witness :
    [0xF9, 0x00, 0x00].length + 1
      ≤ idles (World.mk [] (busyScript [2, 0, 1, 0] ++ [true])).busy ∧
    ∃ ks rest, ks.length = [0xF9, 0x00, 0x00].length + 1 ∧
      (World.mk [] (busyScript [2, 0, 1, 0] ++ [true])).busy = busyScript ks ++ rest ∧
      executeCommandAndLog 0x01 "DRIVER_OUTPUT_CONTROL" [0xF9, 0x00, 0x00]
          (World.mk [] (busyScript [2, 0, 1, 0] ++ [true]))
        = Run.done () ⟨[] ++ Event.print ("DRIVER_OUTPUT_CONTROL" ++ "\n") ::
            frames ((false, 0x01) :: [0xF9, 0x00, 0x00].map (fun v => (true, v))) ks, rest⟩ := by
  have h := executeCommandAndLog_frames 0x01 "DRIVER_OUTPUT_CONTROL" [0xF9, 0x00, 0x00]
    (World.mk [] (busyScript [2, 0, 1, 0] ++ [true])) (by decide)
  obtain ⟨ks, rest, h1, h2, h3, _⟩ := h
  exact ⟨by decide, ks, rest, h1, h2, h3⟩

/-- The frames of opcode `0x01` with the payload `0xF9, 0x00, 0x00`, event by event,
the busy line busy twice before the first idle reading and once before the third. -/
theorem executeCommandAndLog_example :
    executeCommandAndLog 0x01 "DRIVER_OUTPUT_CONTROL" [0xF9, 0x00, 0x00]
        ⟨[], busyScript [2, 0, 1, 0] ++ [true]⟩
      = Run.done () ⟨[Event.print "DRIVER_OUTPUT_CONTROL\n",
          Event.out Pin.dc false, Event.out Pin.cs false, Event.tx [0x01],
          Event.out Pin.cs true, Event.read true, Event.sleep 100, Event.read true,
          Event.sleep 100, Event.read false,
          Event.out Pin.dc true, Event.out Pin.cs false, Event.tx [0xF9],
          Event.out Pin.cs true, Event.read false,
          Event.out Pin.dc true, Event.out Pin.cs false, Event.tx [0x00],
          Event.out Pin.cs true, Event.read true, Event.sleep 100, Event.read false,
          Event.out Pin.dc true, Event.out Pin.cs false, Event.tx [0x00],
          Event.out Pin.cs true, Event.read false], [true]⟩ :=
  executeCommandAndLog_script 0x01 "DRIVER_OUTPUT_CONTROL" [0xF9, 0x00, 0x00]
    [2, 0, 1, 0] [true] [] rfl

/-! ## Transfers in every world: returned or left waiting -/

theorem steps_of_eq {m : Drv Unit} {k k1 : Nat} {xs xs1 : List Xfer} (h : Steps m k xs)
    (hk : k = k1) (hx : xs = xs1) : Steps m k1 xs1 := by
  subst hk
  subst hx
  exact h

theorem steps_bind {m1 m2 : Drv Unit} {k1 k2 : Nat} {xs1 xs2 : List Xfer}
    (h1 : Steps m1 k1 xs1) (h2 : Steps m2 k2 xs2) :
    Steps (m1 >>= fun _ => m2) (k1 + k2) (xs1 ++ xs2) := by
  refine ⟨sends_bind h1.1 h2.1, ?_⟩
  intro w h
  by_cases hk : idles w.busy < k1
  · obtain ⟨w1, evs1, hrun1, htr1, hx1⟩ := h1.2 w hk
    exact ⟨w1, evs1, bind_waiting hrun1, htr1,
      fun dc => (hx1 dc).trans (List.prefix_append _ _)⟩
  · obtain ⟨w1, evs1, hrun1, htr1, hid1, hx1⟩ := h1.1 w (by omega)
    obtain ⟨w2, evs2, hrun2, htr2, hx2⟩ := h2.2 w1 (by omega)
    refine ⟨w2, evs1 ++ evs2, ?_, ?_, fun dc => ?_⟩
    · rw [bind_done hrun1]
      exact hrun2
    · rw [htr2, htr1, List.append_assoc]
    · rw [transfers_append, hx1]
      exact (List.prefix_append_right_inj _).2 (hx2 _)

theorem steps_loop (body : Int → Unit → Drv Unit) (k : Nat) (xs : Int → List Xfer)
    (count : Nat) :
    ∀ i0 : Int, (∀ i, i0 ≤ i → i < i0 + count → Steps (body i ()) k (xs i)) →
      Steps (loopFrom body count i0 ()) (count * k) (gather xs count i0) := by
  induction count with
  | zero =>
    intro i0 _
    refine ⟨sends_loop body k xs 0 i0 (fun i h1 h2 => by omega), ?_⟩
    intro w h
    omega
  | succ n ih =>
    intro i0 hbody
    refine ⟨sends_loop body k xs (n + 1) i0 (fun i h1 h2 => (hbody i h1 h2).1), ?_⟩
    have h0 := hbody i0 (le_refl _) (by push_cast; omega)
    have hrest := ih (i0 + 1) (fun i hi0 hi1 => hbody i (by omega) (by push_cast; omega))
    intro w h
    have hk : (n + 1) * k = k + n * k := by ring
    by_cases hlt : idles w.busy < k
    · obtain ⟨w1, evs1, hrun1, htr1, hx1⟩ := h0.2 w hlt
      refine ⟨w1, evs1, ?_, htr1, fun dc => ?_⟩
      · simp only [loopFrom, hrun1]
      · rw [gather]
        exact (hx1 dc).trans (List.prefix_append _ _)
    · obtain ⟨w1, evs1, hrun1, htr1, hid1, hx1⟩ := h0.1 w (by omega)
      obtain ⟨w2, evs2, hrun2, htr2, hx2⟩ := hrest.2 w1 (by omega)
      refine ⟨w2, evs1 ++ evs2, ?_, ?_, fun dc => ?_⟩
      · simp only [loopFrom, hrun1]
        exact hrun2
      · rw [htr2, htr1, List.append_assoc]
      · rw [transfers_append, hx1, gather]
        exact (List.prefix_append_right_inj _).2 (hx2 _)

theorem steps_readBusy : Steps readBusy 1 [] := by
  refine ⟨sends_readBusy, ?_⟩
  intro w h
  obtain ⟨w1, evs, hrun, htr, hx⟩ := blocks_readBusy w (by omega)
  exact ⟨w1, evs, hrun, htr, fun dc => by rw [hx dc]⟩

theorem steps_sendCommand (c : Nat) : Steps (sendCommand c) 1 [Xfer.command [c]] := by
  refine ⟨sends_sendCommand c, ?_⟩
  intro w h
  obtain ⟨w1, evs, hrun, htr, hx⟩ := blocks_sendCommand c w (by omega)
  exact ⟨w1, evs, hrun, htr, fun dc => by rw [hx dc]⟩

theorem steps_sendData (d : Nat) : Steps (sendData d) 1 [Xfer.data [d]] := by
  refine ⟨sends_sendData d, ?_⟩
  intro w h
  obtain ⟨w1, evs, hrun, htr, hx⟩ := blocks_sendData d w (by omega)
  exact ⟨w1, evs, hrun, htr, fun dc => by rw [hx dc]⟩

/-- A computation that only adds events that are no bus transfer. -/
theorem steps_silent (m : Drv Unit) (evs : List Event)
    (hrun : ∀ w, m w = Run.done () ⟨w.trace ++ evs, w.busy⟩)
    (hx : ∀ dc, transfers dc evs = []) : Steps m 0 [] := by
  refine ⟨?_, ?_⟩
  · intro w _
    exact ⟨_, evs, hrun w, rfl, by simp, hx⟩
  · intro w h
    omega

theorem steps_reset : Steps reset 0 [] :=
  steps_silent reset [Event.out Pin.rst true, Event.sleep 200, Event.out Pin.rst false,
    Event.sleep 5, Event.out Pin.rst true, Event.sleep 200]
    (fun w => by
      show Run.done () _ = _
      simp)
    (fun dc => by simp [transfers])

theorem steps_fmtPrintln (s : String) : Steps (fmtPrintln s) 0 [] :=
  steps_silent (fmtPrintln s) [Event.print (s ++ "\n")] (fun _ => rfl) (fun _ => rfl)

theorem steps_timeSleep (ms : Nat) : Steps (timeSleep ms) 0 [] :=
  steps_silent (timeSleep ms) [Event.sleep ms] (fun _ => rfl) (fun _ => rfl)

/-- A read of a slice inside its bounds hands the byte on. -/
theorem steps_index (s : List Nat) (i : Int) (f : Nat → Drv Unit) (k : Nat) (xs : List Xfer)
    (h0 : 0 ≤ i) (h1 : i < s.length) (h : Steps (f (s.getD i.toNat 0)) k xs) :
    Steps (index s i >>= f) k xs := by
  have e : index s i = pure (s.getD i.toNat 0) := by
    unfold index
    rw [if_pos ⟨h0, h1⟩]
  rw [e]
  exact h

theorem gather_getD (s : List Nat) (n : Nat) (h : n ≤ s.length) :
    gather (fun i : Int => [Xfer.data [s.getD i.toNat 0]]) n 0
      = (s.take n).map (fun v => Xfer.data [v]) := by
  induction n with
  | zero => simp [gather]
  | succ m ih =>
    rw [gather_succ_right, ih (by omega), take_succ_getD s m (by omega), List.map_append]
    simp

/-- The loop that sends the first `n` bytes of a slice as data. -/
theorem steps_sendBytes (s : List Nat) (n : Nat) (h : n ≤ s.length) :
    Steps (forLoop (n : Int) (fun i _ => index s i >>= fun d => sendData d) ()) n
      ((s.take n).map (fun v => Xfer.data [v])) := by
  have hl := steps_loop (fun i _ => index s i >>= fun d => sendData d) 1
    (fun i : Int => [Xfer.data [s.getD i.toNat 0]]) n 0
    (fun i hi0 hi1 => steps_index s i _ 1 _ (by omega) (by omega) (steps_sendData _))
  rw [gather_getD s n h] at hl
  have e : forLoop (n : Int) (fun i _ => index s i >>= fun d => sendData d) ()
      = loopFrom (fun i _ => index s i >>= fun d => sendData d) n 0 () := by
    simp [forLoop]
  rw [e]
  exact steps_of_eq hl (by omega) rfl

theorem steps_executeCommandAndLog (c : Nat) (log : String) (data : List Nat) :
    Steps (executeCommandAndLog c log data) (1 + data.length)
      (Xfer.command [c] :: data.map (fun v => Xfer.data [v])) := by
  have e : executeCommandAndLog c log data = (fmtPrintln log >>= fun _ =>
    sendCommand c >>= fun _ =>
    forLoop data.length (fun i _ => index data i >>= fun d => sendData d) ()) := rfl
  rw [e]
  have h := steps_bind (steps_fmtPrintln log)
    (steps_bind (steps_sendCommand c) (steps_sendBytes data data.length (le_refl _)))
  rw [List.take_length] at h
  exact steps_of_eq h (by omega) rfl

/-! ## The initialisation sequence `Init` -/

/-- What follows the hardware reset in `Init` makes the transfers of `initSequence` in
112 busy waits. -/
theorem Init_after_reset :
    ∃ rest : Drv Unit, Init = (reset >>= fun _ => rest) ∧ Steps rest 112 initSequence := by
  have h : ∃ (rest : Drv Unit) (k : Nat) (xs : List Xfer),
      Init = (reset >>= fun _ => rest) ∧ Steps rest k xs ∧ k = 112 ∧ xs = initSequence := by
    apply Exists.intro
    apply Exists.intro
    apply Exists.intro
    refine ⟨?he, ?h, ?hk, ?hx⟩
    case he => rfl
    case h =>
      apply steps_bind steps_readBusy
      apply steps_bind (steps_executeCommandAndLog _ _ _)
      apply steps_bind steps_readBusy
      apply steps_bind (steps_executeCommandAndLog _ _ _)
      apply steps_bind (steps_executeCommandAndLog _ _ _)
      apply steps_bind (steps_executeCommandAndLog _ _ _)
      apply steps_bind (steps_executeCommandAndLog _ _ _)
      apply steps_bind (steps_executeCommandAndLog _ _ _)
      apply steps_bind (steps_executeCommandAndLog _ _ _)
      apply steps_bind (steps_executeCommandAndLog _ _ _)
      apply steps_bind (steps_executeCommandAndLog _ _ _)
      apply steps_index _ _ _ _ _ (by decide) (by decide)
      apply steps_bind (steps_executeCommandAndLog _ _ _)
      apply steps_index _ _ _ _ _ (by decide) (by decide)
      apply steps_index _ _ _ _ _ (by decide) (by decide)
      apply steps_index _ _ _ _ _ (by decide) (by decide)
      apply steps_bind (steps_executeCommandAndLog _ _ _)
      apply steps_index _ _ _ _ _ (by decide) (by decide)
      apply steps_bind (steps_executeCommandAndLog _ _ _)
      apply steps_index _ _ _ _ _ (by decide) (by decide)
      apply steps_bind (steps_executeCommandAndLog _ _ _)
      apply steps_bind (steps_executeCommandAndLog _ _ _)
      apply steps_bind (steps_sendBytes lutFullUpdate 70 (by decide))
      apply steps_bind (steps_executeCommandAndLog _ _ _)
      apply steps_bind (steps_executeCommandAndLog _ _ _)
      apply steps_bind steps_readBusy
      apply steps_bind (steps_fmtPrintln _)
      exact steps_timeSleep _
    case hk => rfl
    case hx => rfl
  obtain ⟨rest, k, xs, he, hs, hk, hx⟩ := h
  exact ⟨rest, he, steps_of_eq hs hk hx⟩

theorem reset_run (w : World) : reset w = Run.done () ⟨w.trace ++ resetEvents, w.busy⟩ := by
  show Run.done () _ = _
  simp [resetEvents]

/-- `Init` with a busy line that reads idle at each of its 112 busy waits. -/
theorem Init_done (w : World) (h : 112 ≤ idles w.busy) :
    ∃ w1 evs, Init w = Run.done () w1 ∧ w1.trace = w.trace ++ resetEvents ++ evs ∧
      ∀ dc, transfers dc evs = initSequence := by
  obtain ⟨rest, he, hs⟩ := Init_after_reset
  obtain ⟨w1, evs, hrun, htr, _, hx⟩ := hs.1 ⟨w.trace ++ resetEvents, w.busy⟩ h
  refine ⟨w1, evs, ?_, htr, hx⟩
  rw [he, bind_done (reset_run w)]
  exact hrun

/-- `Init` with a busy line that reads idle fewer than 112 times. -/
theorem Init_waiting (w : World) (h : idles w.busy < 112) :
    ∃ w1 evs, Init w = Run.waiting w1 ∧ w1.trace = w.trace ++ resetEvents ++ evs ∧
      ∀ dc, transfers dc evs <+: initSequence := by
  obtain ⟨rest, he, hs⟩ := Init_after_reset
  obtain ⟨w1, evs, hrun, htr, hx⟩ := hs.2 ⟨w.trace ++ resetEvents, w.busy⟩ h
  refine ⟨w1, evs, ?_, htr, hx⟩
  rw [he, bind_done (reset_run w)]
  exact hrun

/-- C11. Golden sequence of `Init`: after the events of the hardware reset, the bus
transfers of `Init` are exactly those of `initSequence`, in that order: command
`0x12`; `0x74` with data `0x54`; `0x7E` with `0x3B`; `0x01` with `0xF9, 0, 0`; `0x11`
with `0x01`; `0x44` with `0x00, 0x0F`; `0x45` with `0xF9, 0, 0, 0`; `0x3C` with `0x03`;
`0x2C` with `0x55`; `0x03` with `lut[70] = 0x15`; `0x04` with `lut[71..73] = 0x41,
0xA8, 0x32`; `0x3A` with `lut[74] = 0x30`; `0x3B` with `lut[75] = 0x0A`; `0x32` with the
70 bytes `lut[0..69]`; `0x4E` with `0x00`; `0x4F` with `0xF9, 0x00`; 109 transfers of
one byte each. The table has 76 bytes and no read of it is out of bounds: the call
returns when the busy line reads idle at each of its 112 waits, and is otherwise left
waiting with an initial part of the sequence transferred; it never panics. -/
theorem Init_transfers (w : World) :
    (112 ≤ idles w.busy →
      ∃ w1 evs, Init w = Run.done () w1 ∧ w1.trace = w.trace ++ resetEvents ++ evs ∧
        ∀ dc, transfers dc evs = initSequence) ∧
    (idles w.busy < 112 →
      ∃ w1 evs, Init w = Run.waiting w1 ∧ w1.trace = w.trace ++ resetEvents ++ evs ∧
        ∀ dc, transfers dc evs <+: initSequence) ∧
    (∀ w1, Init w ≠ Run.panic w1) ∧
    initSequence.length = 109 ∧
    (∀ x ∈ initSequence, x.bytes.length = 1) ∧
    lutFullUpdate.length = 76 ∧
    lutFullUpdate.drop 70 = [0x15, 0x41, 0xA8, 0x32, 0x30, 0x0A] ∧
    initSequence.take 34 = [
      Xfer.command [0x12],
      Xfer.command [0x74], Xfer.data [0x54],
      Xfer.command [0x7E], Xfer.data [0x3B],
      Xfer.command [0x01], Xfer.data [0xF9], Xfer.data [0x00], Xfer.data [0x00],
      Xfer.command [0x11], Xfer.data [0x01],
      Xfer.command [0x44], Xfer.data [0x00], Xfer.data [0x0F],
      Xfer.command [0x45], Xfer.data [0xF9], Xfer.data [0x00], Xfer.data [0x00],
      Xfer.data [0x00],
      Xfer.command [0x3C], Xfer.data [0x03],
      Xfer.command [0x2C], Xfer.data [0x55],
      Xfer.command [0x03], Xfer.data [0x15],
      Xfer.command [0x04], Xfer.data [0x41], Xfer.data [0xA8], Xfer.data [0x32],
      Xfer.command [0x3A], Xfer.data [0x30],
      Xfer.command [0x3B], Xfer.data [0x0A],
      Xfer.command [0x32]] ∧
    (initSequence.drop 34).take 70 = (lutFullUpdate.take 70).map (fun v => Xfer.data [v]) ∧
    initSequence.drop 104 = [
      Xfer.command [0x4E], Xfer.data [0x00],
      Xfer.command [0x4F], Xfer.data [0xF9], Xfer.data [0x00]] := by
  refine ⟨Init_done w, Init_waiting w, ?_, by decide, by decide, by decide, by decide,
    by decide, by decide, by decide⟩
  intro w1 hp
  by_cases h : 112 ≤ idles w.busy
  · obtain ⟨w2, _, hrun, _⟩ := Init_done w h
    rw [hrun] at hp
    cases hp
  · obtain ⟨w2, _, hrun, _⟩ := Init_waiting w (by omega)
    rw [hrun] at hp
    cases hp

/-- C11 in a world that has seen nothing yet, the busy line reading idle 112 times. -/
theorem Init_transfers_witness :
    112 ≤ idles (idleWorld 112).busy ∧
    ∃ w1 evs, Init (idleWorld 112) = Run.done () w1 ∧
      w1.trace = (idleWorld 112).trace ++ resetEvents ++ evs ∧
      ∀ dc, transfers dc evs = initSequence :=
  ⟨le_of_eq (idles_idleWorld 112).symm,
    (Init_transfers (idleWorld 112)).1 (le_of_eq (idles_idleWorld 112).symm)⟩

/-! ## The register constants of `Init` and the panel geometry -/

theorem dataRun_map (l : List Nat) (c : List Nat) (rest : List Xfer) :
    dataRun (l.map (fun v => Xfer.data [v]) ++ Xfer.command c :: rest) = l := by
  induction l with
  | nil => rfl
  | cons a t ih => simp [dataRun, ih]

theorem payloadOf_written (l : List Nat) :
    payloadOf 0x24 (Xfer.command [0x24] :: l.map (fun v => Xfer.data [v]) ++
      [Xfer.command [0x22], Xfer.data [0xC7], Xfer.command [0x20]]) = l := by
  rw [List.cons_append, payloadOf, if_pos rfl, dataRun_map]

/-- C18. The register constants that `Init` sends match the geometry of the 122x250
panel: the X window (`0x44`) runs from byte column 0 to `0x0F`, which is the row width
in bytes less one; the Y window (`0x45`) and the driver output control (`0x01`) start
with `0xF9`, which is the height less one; the address counters are set to X = 0
(`0x4E`) and Y = `0xF9` (`0x4F`). The window therefore holds `(0x0F + 1) * (0xF9 + 1)
= 4000` bytes, which is the number of data bytes `Display` and `Clear` each write after
command `0x24`. -/
theorem Init_window (wi wd wc : World) (b : List Nat) (hi : 112 ≤ idles wi.busy)
    (hd : 4005 ≤ idles wd.busy) (hc : 4004 ≤ idles wc.busy) (hlen : b.length = 4000) :
    ∃ w1 e1 w2 e2 w3 e3,
      Init wi = Run.done () w1 ∧ w1.trace = wi.trace ++ resetEvents ++ e1 ∧
      Display CreateEpd b wd = Run.done () w2 ∧ w2.trace = wd.trace ++ e2 ∧
      Clear CreateEpd wc = Run.done () w3 ∧ w3.trace = wc.trace ++ e3 ∧
      ∀ dc,
        payloadOf 0x44 (transfers dc e1) = [0x00, 0x0F] ∧
        payloadOf 0x45 (transfers dc e1) = [0xF9, 0x00, 0x00, 0x00] ∧
        payloadOf 0x01 (transfers dc e1) = [0xF9, 0x00, 0x00] ∧
        payloadOf 0x4E (transfers dc e1) = [0x00] ∧
        payloadOf 0x4F (transfers dc e1) = [0xF9, 0x00] ∧
        (0x0F : Int) = lineWidth CreateEpd - 1 ∧
        (0xF9 : Int) = CreateEpd.Height - 1 ∧
        (0x0F + 1) * (0xF9 + 1) = 4000 ∧
        (payloadOf 0x24 (transfers dc e2)).length = (0x0F + 1) * (0xF9 + 1) ∧
        payloadOf 0x24 (transfers dc e2) = b ∧
        (payloadOf 0x24 (transfers dc e3)).length = (0x0F + 1) * (0xF9 + 1) := by
  obtain ⟨w1, e1, hrun1, htr1, hx1⟩ := Init_done wi hi
  obtain ⟨w2, e2, hrun2, htr2, _, hx2⟩ := sends_Display b (by omega) wd hd
  obtain ⟨w3, e3, hrun3, htr3, _, hx3⟩ := sends_Clear wc hc
  refine ⟨w1, e1, w2, e2, w3, e3, hrun1, htr1, hrun2, htr2, hrun3, htr3, fun dc => ?_⟩
  have hb : List.take 4000 b = b := List.take_of_length_le (by omega)
  have hr : List.replicate 4000 (Xfer.data [0xFF])
      = (List.replicate 4000 0xFF).map (fun v => Xfer.data [v]) := by
    rw [List.map_replicate]
  rw [hx1 dc, hx2 dc, hx3 dc, hb, hr, payloadOf_written, payloadOf_written,
    List.length_replicate, hlen]
  refine ⟨by decide, by decide, by decide, by decide, by decide, by decide, by decide,
    by decide, by decide, rfl, by decide⟩

/-- C18 in worlds that have seen nothing yet, for the buffer of 4000 bytes `0x3C`. -/
theorem Init_window_witness :
    112 ≤ idles (idleWorld 112).busy ∧ 4005 ≤ idles (idleWorld 4005).busy ∧
    4004 ≤ idles (idleWorld 4004).busy ∧ (List.replicate 4000 0x3C).length = 4000 ∧
    ∃ w1 e1 w2 e2 w3 e3,
      Init (idleWorld 112) = Run.done () w1 ∧
      w1.trace = (idleWorld 112).trace ++ resetEvents ++ e1 ∧
      Display CreateEpd (List.replicate 4000 0x3C) (idleWorld 4005) = Run.done () w2 ∧
      w2.trace = (idleWorld 4005).trace ++ e2 ∧
      Clear CreateEpd (idleWorld 4004) = Run.done () w3 ∧
      w3.trace = (idleWorld 4004).trace ++ e3 ∧
      ∀ dc,
        payloadOf 0x44 (transfers dc e1) = [0x00, 0x0F] ∧
        payloadOf 0x45 (transfers dc e1) = [0xF9, 0x00, 0x00, 0x00] ∧
        payloadOf 0x01 (transfers dc e1) = [0xF9, 0x00, 0x00] ∧
        payloadOf 0x4E (transfers dc e1) = [0x00] ∧
        payloadOf 0x4F (transfers dc e1) = [0xF9, 0x00] ∧
        (0x0F : Int) = lineWidth CreateEpd - 1 ∧
        (0xF9 : Int) = CreateEpd.Height - 1 ∧
        (0x0F + 1) * (0xF9 + 1) = 4000 ∧
        (payloadOf 0x24 (transfers dc e2)).length = (0x0F + 1) * (0xF9 + 1) ∧
        payloadOf 0x24 (transfers dc e2) = List.replicate 4000 0x3C ∧
        (payloadOf 0x24 (transfers dc e3)).length = (0x0F + 1) * (0xF9 + 1) :=
  ⟨le_of_eq (idles_idleWorld 112).symm, le_of_eq (idles_idleWorld 4005).symm,
    le_of_eq (idles_idleWorld 4004).symm, List.length_replicate _ _,
    Init_window (idleWorld 112) (idleWorld 4005) (idleWorld 4004) (List.replicate 4000 0x3C)
      (le_of_eq (idles_idleWorld 112).symm) (le_of_eq (idles_idleWorld 4005).symm)
      (le_of_eq (idles_idleWorld 4004).symm) (List.length_replicate _ _)⟩

/-! ## Pixel classification: `getRGBA` and `isBlack` -/

set_option maxRecDepth 100000 in
theorem widen_eq : ∀ v < 256, (v ||| (v <<< 8)) % 4294967296 = v * 257 := by
  decide

/-- C12. For a pixel inside the bounds of an image whose stored channels are 8-bit
values `(R, G, B, A)`: the colour method widens each channel `v` to `v * 257`,
`getRGBA` divides by 257 and returns exactly `(R, G, B, A)`, and `isBlack` holds exactly
when `R < 245`, `G < 245`, `B < 245` and `A > 10`. -/
theorem getRGBA_isBlack (image : RGBA) (x y : Int) (hin : Point.In ⟨x, y⟩ image.Rect = true)
    (hR : (image.stored x y).R < 256) (hG : (image.stored x y).G < 256)
    (hB : (image.stored x y).B < 256) (hA : (image.stored x y).A < 256) :
    (image.At x y).RGBA = ((image.stored x y).R * 257, (image.stored x y).G * 257,
      (image.stored x y).B * 257, (image.stored x y).A * 257) ∧
    getRGBA image x y = (((image.stored x y).R : Int), ((image.stored x y).G : Int),
      ((image.stored x y).B : Int), ((image.stored x y).A : Int)) ∧
    (isBlack image x y = true ↔
      ((image.stored x y).R < 245 ∧ (image.stored x y).G < 245 ∧
        (image.stored x y).B < 245 ∧ 10 < (image.stored x y).A)) ∧
    (∀ v, v < 256 → v * 257 / 257 = v) := by
  have hat : image.At x y = image.stored x y := by
    unfold RGBA.At
    rw [if_pos hin]
    simp only [Nat.mod_eq_of_lt hR, Nat.mod_eq_of_lt hG, Nat.mod_eq_of_lt hB,
      Nat.mod_eq_of_lt hA]
  refine ⟨?_, ?_, ?_, fun v _ => by omega⟩
  · rw [hat]
    unfold Color.RGBA
    rw [widen_eq _ hR, widen_eq _ hG, widen_eq _ hB, widen_eq _ hA]
  · unfold getRGBA
    rw [hat]
    unfold Color.RGBA
    simp only [widen_div _ hR, widen_div _ hG, widen_div _ hB, widen_div _ hA]
  · rw [isBlack_iff]
    rw [Nat.mod_eq_of_lt hR, Nat.mod_eq_of_lt hG, Nat.mod_eq_of_lt hB, Nat.mod_eq_of_lt hA]
    constructor
    · rintro ⟨_, h⟩
      exact h
    · intro h
      exact ⟨hin, h⟩

/-- C12 at the pixel `(5, 7)` of an image of 122x250 pixels of colour
`(12, 200, 244, 11)`, which is black. -/
theorem getRGBA_isBlack_witness :
    Point.In ⟨5, 7⟩ (uniformImage 122 250 ⟨12, 200, 244, 11⟩).Rect = true ∧
    getRGBA (uniformImage 122 250 ⟨12, 200, 244, 11⟩) 5 7 = (12, 200, 244, 11) ∧
    isBlack (uniformImage 122 250 ⟨12, 200, 244, 11⟩) 5 7 = true :=
  ⟨by decide,
    (getRGBA_isBlack (uniformImage 122 250 ⟨12, 200, 244, 11⟩) 5 7 (by decide) (by decide)
      (by decide) (by decide) (by decide)).2.1,
    (getRGBA_isBlack (uniformImage 122 250 ⟨12, 200, 244, 11⟩) 5 7 (by decide) (by decide)
      (by decide) (by decide) (by decide)).2.2.1.2 (by decide)⟩

/-! ## The Rotated branch of `GetBuffer` -/

theorem rotated_posy (x : Int) (hx0 : 0 ≤ x) (hx1 : x < 250) :
    Go.sub (Go.sub 250 (Go.sub (Go.sub 250 x) 1)) 1 = x := by
  have h1 : Go.sub 250 x = 250 - x := wrapInt_eq _ (by omega) (by omega)
  have h2 : Go.sub (250 - x) 1 = 250 - x - 1 := wrapInt_eq _ (by omega) (by omega)
  have h3 : Go.sub 250 (250 - x - 1) = x + 1 := by
    rw [Go.sub, wrapInt_eq _ (by omega) (by omega)]
    omega
  have h4 : Go.sub (x + 1) 1 = x := by
    rw [Go.sub, wrapInt_eq _ (by omega) (by omega)]
    omega
  rw [h1, h2, h3, h4]

/-- C15. For an image of exactly 250x122 pixels the Rotated branch computes the row
index `posy = x`: `GetBuffer` returns a buffer of 4000 bytes in which, for every row
`r < 250` and bit column `c < 128`, bit `c mod 8` (from the most significant) of byte
`c/8 + r*16` is 0 exactly when `c < 122` and the pixel `(x = r, y = c)` is black, every
other bit being 1. The encoding is the transpose of the image, and two different
pixels never share a bit. -/
theorem GetBuffer_rotated_packing (image : RGBA) (w : World)
    (hdx : image.Rect.Dx = 250) (hdy : image.Rect.Dy = 122) :
    ∃ data, GetBuffer CreateEpd image w = Run.done data w ∧ IsBuffer 4000 data ∧
      (∀ r c : Nat, r < 250 → c < 128 →
        (bitFromMSB (data.getD (c / 8 + r * 16) 0) (c % 8) = false ↔
          (c < 122 ∧ isBlack image (r : Int) (c : Int) = true))) ∧
      (∀ x : Int, 0 ≤ x → x < 250 →
        Go.sub (Go.sub image.Rect.Dx (Go.sub (Go.sub CreateEpd.Height x) 1)) 1 = x) ∧
      (∀ x y x2 y2 : Int, 0 ≤ x → x < 250 → 0 ≤ y → y < 122 →
        0 ≤ x2 → x2 < 250 → 0 ≤ y2 → y2 < 122 →
        Go.add (Go.div y 8)
            (Go.mul (Go.sub (Go.sub image.Rect.Dx (Go.sub (Go.sub CreateEpd.Height x) 1)) 1)
              (lineWidth CreateEpd))
          = Go.add (Go.div y2 8)
            (Go.mul (Go.sub (Go.sub image.Rect.Dx (Go.sub (Go.sub CreateEpd.Height x2) 1)) 1)
              (lineWidth CreateEpd)) →
        Go.mod y 8 = Go.mod y2 8 → x = x2 ∧ y = y2) := by
  obtain ⟨data, hrun, hbuf, hbits⟩ := GetBuffer_rotated_bits image w hdx hdy
  have hh : CreateEpd.Height = 250 := rfl
  refine ⟨data, hrun, hbuf, ?_, ?_, ?_⟩
  · intro r c hr hc
    have e1 : (c + 128 * r) / 8 = c / 8 + r * 16 := by omega
    have e2 : (c + 128 * r) % 8 = c % 8 := by omega
    have hk := hbits (c + 128 * r)
    unfold bitOf at hk
    rw [e1, e2] at hk
    rw [hk]
    constructor
    · rintro (h | ⟨y, hy0, hy1, x, hx0, hx1, hb, he⟩)
      · omega
      · have ey : y = (c : Int) := by omega
        have ex : x = (r : Int) := by omega
        subst ey
        subst ex
        exact ⟨by omega, hb⟩
    · rintro ⟨h1, hb⟩
      exact Or.inr ⟨c, by omega, by omega, r, by omega, by omega, hb, by push_cast; omega⟩
  · intro x hx0 hx1
    rw [hdx, hh]
    exact rotated_posy x hx0 hx1
  · intro x y x2 y2 hx0 hx1 hy0 hy1 hx20 hx21 hy20 hy21 hidx hbit
    rw [hdx, hh, lineWidth_CreateEpd, (rotated_index x y hx0 hx1 hy0 hy1).1,
      (rotated_index x2 y2 hx20 hx21 hy20 hy21).1] at hidx
    rw [(rotated_index x y hx0 hx1 hy0 hy1).2,
      (rotated_index x2 y2 hx20 hx21 hy20 hy21).2] at hbit
    constructor <;> omega

/-- C15 at the white image of 250x122 pixels with a black pixel at `(0, 0)`: the bit
of column 0 in row 0 is the only one cleared in the first row. -/
theorem GetBuffer_rotated_packing_witness :
    (cornerImage 250 122).Rect.Dx = 250 ∧ (cornerImage 250 122).Rect.Dy = 122 ∧
    ∃ data, GetBuffer CreateEpd (cornerImage 250 122) quiet = Run.done data quiet ∧
      IsBuffer 4000 data ∧
      ∀ c : Nat, c < 128 →
        (bitFromMSB (data.getD (c / 8 + 0 * 16) 0) (c % 8) = false ↔ c = 0) := by
  refine ⟨by decide, by decide, ?_⟩
  obtain ⟨data, hrun, hbuf, hbits, _⟩ :=
    GetBuffer_rotated_packing (cornerImage 250 122) quiet (by decide) (by decide)
  refine ⟨data, hrun, hbuf, fun c hc => ?_⟩
  rw [hbits 0 c (by norm_num) hc, cornerImage_isBlack]
  constructor
  · rintro ⟨_, _, h, _⟩
    exact_mod_cast h
  · intro h
    subst h
    exact ⟨by norm_num, rfl, rfl, by norm_num, by norm_num⟩

/-! ## The two orientations against each other -/

theorem dotImage_isBlack (dx dy px py : Int) (x y : Int) :
    isBlack (dotImage dx dy px py) x y = true ↔
      (x = px ∧ y = py ∧ 0 ≤ x ∧ x < dx ∧ 0 ≤ y ∧ y < dy) := by
  rw [isBlack_iff]
  simp only [dotImage, Point.In, decide_eq_true_eq]
  by_cases h : x = px ∧ y = py
  · obtain ⟨hx, hy⟩ := h
    subst hx
    subst hy
    simp [blackPixel]
  · rw [if_neg h]
    simp only [whitePixel]
    constructor
    · rintro ⟨_, h1, _⟩
      norm_num at h1
    · rintro ⟨h1, h2, _⟩
      exact absurd ⟨h1, h2⟩ h

theorem bitFromMSB_clearMask : ∀ j < 8, ∀ i < 8,
    (bitFromMSB (clearMask (j : Nat)) i = false ↔ i = j) := by
  decide

theorem clearMask_lt : ∀ j < 8, clearMask (j : Nat) < 256 := by
  decide

/-- A buffer of 4000 bytes in which exactly the bit `k0` is cleared. -/
theorem single_bit_bytes (data : List Nat) (hbuf : IsBuffer 4000 data) (k0 : Nat)
    (h : ∀ k, (bitOf data k = false ↔ (32000 ≤ k ∨ k = k0))) :
    ∀ i, i < 4000 → data.getD i 0 = if i = k0 / 8 then clearMask ((k0 % 8 : Nat) : Int) else 0xFF := by
  intro i hi
  apply getD_eq_of_bits 4000 data hbuf i hi
  · split
    · exact clearMask_lt _ (Nat.mod_lt _ (by norm_num))
    · norm_num
  · intro j hj
    rw [h]
    by_cases e : i = k0 / 8
    · rw [if_pos e, bitFromMSB_clearMask _ (Nat.mod_lt _ (by norm_num)) j hj]
      omega
    · rw [if_neg e]
      constructor
      · intro hk
        omega
      · intro hk
        exact absurd hk (bitFromMSB_FF j hj)

/-- The Native encoding of the white image of 122x250 pixels with a black pixel at
`(0, 0)`: bit column 122 of row 0 is cleared. -/
theorem native_corner_byte :
    ∃ data, GetBuffer CreateEpd (cornerImage 122 250) quiet = Run.done data quiet ∧
      data.length = 4000 ∧ ∀ i, i < 4000 → data.getD i 0 = if i = 15 then 0xDF else 0xFF := by
  obtain ⟨data, hrun, hbuf, hbits⟩ :=
    GetBuffer_native_bits (cornerImage 122 250) quiet (by decide) (by decide)
  refine ⟨data, hrun, hbuf.1, ?_⟩
  have h := single_bit_bytes data hbuf 122 (fun k => by
    rw [hbits]
    constructor
    · rintro (h | ⟨y, hy0, hy1, x, hx0, hx1, hb, he⟩)
      · exact Or.inl h
      · obtain ⟨ex, ey, _⟩ := (cornerImage_isBlack 122 250 x y).1 hb
        subst ex
        subst ey
        exact Or.inr (by omega)
    · rintro (h | h)
      · exact Or.inl h
      · exact Or.inr ⟨0, by norm_num, by norm_num, 0, by norm_num, by norm_num,
          (cornerImage_isBlack 122 250 0 0).2 ⟨rfl, rfl, by norm_num, by norm_num⟩,
          by subst h; norm_num⟩)
  exact h

/-- The Rotated encoding of the white image of 250x122 pixels with a black pixel at
`(0, 121)`: bit column 121 of row 0 is cleared. -/
theorem rotated_dot_byte :
    ∃ data, GetBuffer CreateEpd (dotImage 250 122 0 121) quiet = Run.done data quiet ∧
      data.length = 4000 ∧ ∀ i, i < 4000 → data.getD i 0 = if i = 15 then 0xBF else 0xFF := by
  obtain ⟨data, hrun, hbuf, hbits⟩ :=
    GetBuffer_rotated_bits (dotImage 250 122 0 121) quiet (by decide) (by decide)
  refine ⟨data, hrun, hbuf.1, ?_⟩
  have h := single_bit_bytes data hbuf 121 (fun k => by
    rw [hbits]
    constructor
    · rintro (h | ⟨y, hy0, hy1, x, hx0, hx1, hb, he⟩)
      · exact Or.inl h
      · obtain ⟨ex, ey, _⟩ := (dotImage_isBlack 250 122 0 121 x y).1 hb
        subst ex
        subst ey
        exact Or.inr (by omega)
    · rintro (h | h)
      · exact Or.inl h
      · exact Or.inr ⟨121, by norm_num, by norm_num, 0, by norm_num, by norm_num,
          (dotImage_isBlack 250 122 0 121 0 121).2
            ⟨rfl, rfl, by norm_num, by norm_num, by norm_num, by norm_num⟩,
          by subst h; norm_num⟩)
  exact h

/-- The 90-degree rotation of the white image of 122x250 pixels with a black pixel at
`(0, 0)` is the white image of 250x122 pixels with a black pixel at `(0, 121)`. -/
theorem dotImage_is_rotation (x y : Int) (hx0 : 0 ≤ x) (hx1 : x < 250) (hy0 : 0 ≤ y)
    (hy1 : y < 122) :
    (dotImage 250 122 0 121).At x y = (cornerImage 122 250).At (121 - y) x := by
  unfold RGBA.At
  have h1 : Point.In ⟨x, y⟩ (dotImage 250 122 0 121).Rect = true := by
    simp only [dotImage, Point.In, decide_eq_true_eq]
    omega
  have h2 : Point.In ⟨121 - y, x⟩ (cornerImage 122 250).Rect = true := by
    simp only [cornerImage, Point.In, decide_eq_true_eq]
    omega
  rw [if_pos h1, if_pos h2]
  simp only [dotImage, cornerImage]
  by_cases h : x = 0 ∧ y = 121
  · have h3 : 121 - y = 0 ∧ x = 0 := by omega
    rw [if_pos h, if_pos h3]
  · have h3 : ¬ (121 - y = 0 ∧ x = 0) := by omega
    rw [if_neg h, if_neg h3]

theorem isBlack_of_At (a b : RGBA) (x y x2 y2 : Int) (h : a.At x y = b.At x2 y2) :
    isBlack a x y = isBlack b x2 y2 := by
  unfold isBlack getRGBA
  rw [h]

/-- C16 fails as stated. `I` is the white image of 122x250 pixels with a black pixel
at `(0, 0)` and `R` its rotation by 90 degrees, `R(x, y) = I(121 - y, x)`: the Native
branch encodes `I` with byte 15 equal to `0xDF` (bit column 122 of row 0), the Rotated
branch encodes `R` with byte 15 equal to `0xBF` (bit column 121 of row 0), so the two
buffers differ. -/
theorem GetBuffer_orientations_differ :
    (∀ x y : Int, 0 ≤ x → x < 250 → 0 ≤ y → y < 122 →
      (dotImage 250 122 0 121).At x y = (cornerImage 122 250).At (121 - y) x) ∧
    ∃ dI dR, GetBuffer CreateEpd (cornerImage 122 250) quiet = Run.done dI quiet ∧
      GetBuffer CreateEpd (dotImage 250 122 0 121) quiet = Run.done dR quiet ∧
      dI.getD 15 0 = 0xDF ∧ dR.getD 15 0 = 0xBF ∧ dI ≠ dR := by
  refine ⟨dotImage_is_rotation, ?_⟩
  obtain ⟨dI, hI, _, hbI⟩ := native_corner_byte
  obtain ⟨dR, hR, _, hbR⟩ := rotated_dot_byte
  have h1 : dI.getD 15 0 = 0xDF := (hbI 15 (by norm_num)).trans (by decide)
  have h2 : dR.getD 15 0 = 0xBF := (hbR 15 (by norm_num)).trans (by decide)
  refine ⟨dI, dR, hI, hR, h1, h2, fun e => ?_⟩
  rw [e, h2] at h1
  exact absurd h1 (by decide)

/-- C16, as the code has it. For an image `I` of 122x250 pixels and an image `R` of
250x122 pixels that is `I` rotated by 90 degrees, `R(x, y) = I(121 - y, x)`, both
encodings are buffers of 4000 bytes, and the encoding of `I` is the encoding of `R`
shifted by one bit column: bit column `c` of row `r` of the first equals bit column
`c - 1` of row `r` of the second for `1 <= c <= 122`; bit column 0 and the bit columns
123..127 of the first, and the bit columns 122..127 of the second, are 1. -/
theorem GetBuffer_orientations_shift (I R : RGBA) (w : World)
    (hIx : I.Rect.Dx = 122) (hIy : I.Rect.Dy = 250)
    (hRx : R.Rect.Dx = 250) (hRy : R.Rect.Dy = 122)
    (hrot : ∀ x y : Int, 0 ≤ x → x < 250 → 0 ≤ y → y < 122 →
      R.At x y = I.At (121 - y) x) :
    ∃ dI dR, GetBuffer CreateEpd I w = Run.done dI w ∧
      GetBuffer CreateEpd R w = Run.done dR w ∧
      IsBuffer 4000 dI ∧ IsBuffer 4000 dR ∧
      (∀ r c : Nat, r < 250 → 1 ≤ c → c ≤ 122 →
        bitFromMSB (dI.getD (c / 8 + r * 16) 0) (c % 8) =
          bitFromMSB (dR.getD ((c - 1) / 8 + r * 16) 0) ((c - 1) % 8)) ∧
      (∀ r c : Nat, r < 250 → c < 128 → (c = 0 ∨ 123 ≤ c) →
        bitFromMSB (dI.getD (c / 8 + r * 16) 0) (c % 8) = true) ∧
      (∀ r c : Nat, r < 250 → c < 128 → 122 ≤ c →
        bitFromMSB (dR.getD (c / 8 + r * 16) 0) (c % 8) = true) := by
  obtain ⟨dI, hrunI, hbufI, hbitsI⟩ := GetBuffer_native_bits I w hIx hIy
  obtain ⟨dR, hrunR, hbufR, hbitsR⟩ := GetBuffer_rotated_bits R w hRx hRy
  have hI : ∀ r c : Nat, r < 250 → c < 128 →
      (bitFromMSB (dI.getD (c / 8 + r * 16) 0) (c % 8) = false ↔
        (1 ≤ c ∧ c ≤ 122 ∧ isBlack I (122 - (c : Int)) (r : Int) = true)) := by
    intro r c hr hc
    have e1 : (c + 128 * r) / 8 = c / 8 + r * 16 := by omega
    have e2 : (c + 128 * r) % 8 = c % 8 := by omega
    have hk := hbitsI (c + 128 * r)
    unfold bitOf at hk
    rw [e1, e2] at hk
    rw [hk]
    constructor
    · rintro (h | ⟨y1, hy0, hy1, x, hx0, hx1, hb, he⟩)
      · omega
      · have ey : y1 = (r : Int) := by omega
        have ex : x = 122 - (c : Int) := by omega
        subst ey
        subst ex
        exact ⟨by omega, by omega, hb⟩
    · rintro ⟨h1, h2, hb⟩
      exact Or.inr ⟨r, by omega, by omega, 122 - (c : Int), by omega, by omega, hb,
        by push_cast; omega⟩
  have hR : ∀ r c : Nat, r < 250 → c < 128 →
      (bitFromMSB (dR.getD (c / 8 + r * 16) 0) (c % 8) = false ↔
        (c < 122 ∧ isBlack R (r : Int) (c : Int) = true)) := by
    intro r c hr hc
    have e1 : (c + 128 * r) / 8 = c / 8 + r * 16 := by omega
    have e2 : (c + 128 * r) % 8 = c % 8 := by omega
    have hk := hbitsR (c + 128 * r)
    unfold bitOf at hk
    rw [e1, e2] at hk
    rw [hk]
    constructor
    · rintro (h | ⟨y1, hy0, hy1, x, hx0, hx1, hb, he⟩)
      · omega
      · have ey : y1 = (c : Int) := by omega
        have ex : x = (r : Int) := by omega
        subst ey
        subst ex
        exact ⟨by omega, hb⟩
    · rintro ⟨h1, hb⟩
      exact Or.inr ⟨c, by omega, by omega, r, by omega, by omega, hb,
        by push_cast; omega⟩
  refine ⟨dI, dR, hrunI, hrunR, hbufI, hbufR, ?_, ?_, ?_⟩
  · intro r c hr hc1 hc2
    apply bool_eq_of_false_iff
    rw [hI r c hr (by omega), hR r (c - 1) hr (by omega)]
    have hb : isBlack R (r : Int) ((c - 1 : Nat) : Int) = isBlack I (122 - (c : Int)) (r : Int) := by
      have e := isBlack_of_At R I (r : Int) ((c - 1 : Nat) : Int)
        (121 - ((c - 1 : Nat) : Int)) (r : Int)
        (hrot (r : Int) ((c - 1 : Nat) : Int) (by omega) (by omega) (by omega) (by omega))
      have e3 : 121 - ((c - 1 : Nat) : Int) = 122 - (c : Int) := by omega
      rw [e3] at e
      exact e
    rw [hb]
    constructor
    · rintro ⟨_, _, h⟩
      exact ⟨by omega, h⟩
    · rintro ⟨_, h⟩
      exact ⟨hc1, hc2, h⟩
  · intro r c hr hc hcol
    rw [← Bool.not_eq_false, hI r c hr hc]
    rintro ⟨h1, h2, _⟩
    omega
  · intro r c hr hc hcol
    rw [← Bool.not_eq_false, hR r c hr hc]
    rintro ⟨h1, _⟩
    omega

/-- The amended C16 at the white image of 122x250 pixels with a black pixel at
`(0, 0)` and its rotation, the white image of 250x122 pixels with a black pixel at
`(0, 121)`. -/
theorem GetBuffer_orientations_shift_witness :
    (cornerImage 122 250).Rect.Dx = 122 ∧ (cornerImage 122 250).Rect.Dy = 250 ∧
    (dotImage 250 122 0 121).Rect.Dx = 250 ∧ (dotImage 250 122 0 121).Rect.Dy = 122 ∧
    (∀ x y : Int, 0 ≤ x → x < 250 → 0 ≤ y → y < 122 →
      (dotImage 250 122 0 121).At x y = (cornerImage 122 250).At (121 - y) x) ∧
    ∃ dI dR, GetBuffer CreateEpd (cornerImage 122 250) quiet = Run.done dI quiet ∧
      GetBuffer CreateEpd (dotImage 250 122 0 121) quiet = Run.done dR quiet ∧
      IsBuffer 4000 dI ∧ IsBuffer 4000 dR ∧
      (∀ r c : Nat, r < 250 → 1 ≤ c → c ≤ 122 →
        bitFromMSB (dI.getD (c / 8 + r * 16) 0) (c % 8) =
          bitFromMSB (dR.getD ((c - 1) / 8 + r * 16) 0) ((c - 1) % 8)) ∧
      (∀ r c : Nat, r < 250 → c < 128 → (c = 0 ∨ 123 ≤ c) →
        bitFromMSB (dI.getD (c / 8 + r * 16) 0) (c % 8) = true) ∧
      (∀ r c : Nat, r < 250 → c < 128 → 122 ≤ c →
        bitFromMSB (dR.getD (c / 8 + r * 16) 0) (c % 8) = true) :=
  ⟨by decide, by decide, by decide, by decide, dotImage_is_rotation,
    GetBuffer_orientations_shift (cornerImage 122 250) (dotImage 250 122 0 121) quiet
      (by decide) (by decide) (by decide) (by decide) dotImage_is_rotation⟩

/-! ## Geometries other than the panel's -/

/-- C17 fails as stated. With `Width = 8` and `Height = 1` the buffer has one byte;
for the black image of 8x1 pixels the Native branch computes `pos = 8` for the pixel
`(0, 0)` and indexes byte `8/8 + 0*1 = 1`: a run-time panic. With `Height = 2` the same
pixel of the first row clears the first bit of the second row instead. With
`Width = 16` and `Height = 2^63 - 1` the size `2 * Height` wraps to `-2`, and `make`
panics. -/
theorem GetBuffer_width_8_panics :
    GetBuffer ⟨8, 1⟩ (uniformImage 8 1 blackPixel) quiet = Run.panic quiet ∧
    GetBuffer ⟨8, 2⟩ (cornerImage 8 2) quiet = Run.done [0xFF, 0x7F] quiet ∧
    GetBuffer ⟨16, 9223372036854775807⟩ (uniformImage 1 1 whitePixel) quiet
      = Run.panic quiet :=
  ⟨rfl, rfl, rfl⟩

theorem andIndex_length (n : Nat) (data : List Nat) (idx : Int) (m : Nat) (w : World)
    (hlen : data.length = n) (h0 : 0 ≤ idx) (h1 : idx < n) :
    ∃ d1, andIndex data idx m w = Run.done d1 w ∧ d1.length = n := by
  refine ⟨data.set idx.toNat (data.getD idx.toNat 0 &&& m), ?_, by simp [hlen]⟩
  unfold andIndex
  rw [if_pos ⟨h0, by rw [hlen]; exact h1⟩]
  rfl

theorem forLoop_length (n : Nat) (m : Int) (body : Int → List Nat → Drv (List Nat))
    (w : World)
    (h : ∀ i d, 0 ≤ i → i < m → d.length = n →
      ∃ d1, body i d w = Run.done d1 w ∧ d1.length = n)
    (d : List Nat) (hd : d.length = n) :
    ∃ d1, forLoop m body d w = Run.done d1 w ∧ d1.length = n := by
  obtain ⟨d1, hrun, hlen⟩ := loopFrom_invariant body (fun _ d => d.length = n) w m.toNat 0 d
    hd (fun i s hi0 hi1 hinv => h i s hi0 (by omega) hinv)
  exact ⟨d1, hrun, hlen⟩

theorem pixel_length (n : Nat) (b : Bool) (idx : Int) (m : Nat) (w : World)
    (h0 : 0 ≤ idx) (h1 : idx < n) (d : List Nat) (hd : d.length = n) :
    ∃ d1, (if b then andIndex d idx m else pure d) w = Run.done d1 w ∧ d1.length = n := by
  cases b
  · exact ⟨d, rfl, hd⟩
  · exact andIndex_length n d idx m w hd h0 h1

theorem lineWidth_of_not_multiple (e : Epd) (h0 : 0 < e.Width) (h8 : e.Width % 8 ≠ 0)
    (h1 : e.Width ≤ 2048) : lineWidth e = (e.Width + 7) / 8 := by
  have hm : Go.mod e.Width 8 = e.Width % 8 := Int.tmod_eq_emod (by omega) (by norm_num)
  have hd : Go.div e.Width 8 = e.Width / 8 := Int.tdiv_eq_ediv (by omega) (by norm_num)
  unfold lineWidth
  rw [hm, if_pos h8, hd, Go.add, wrapInt_eq _ (by omega) (by omega)]
  omega

theorem GetBuffer_fill (e : Epd) (image : RGBA) (w : World) (n : Nat)
    (hsize : Go.mul (lineWidth e) e.Height = (n : Int)) :
    GetBuffer e image w =
      (if image.Rect.Dx = e.Width ∧ image.Rect.Dy = e.Height then
        forLoop image.Rect.Dy (fun y data =>
          forLoop image.Rect.Dx (fun x data =>
            if isBlack image x y then
              andIndex data
                (Go.add (Go.div (Go.sub image.Rect.Dx x) 8) (Go.mul y (lineWidth e)))
                (clearMask (Go.mod (Go.sub image.Rect.Dx x) 8))
            else pure data) data) (List.replicate n 0xFF)
      else if image.Rect.Dx = e.Height ∧ image.Rect.Dy = e.Width then
        forLoop image.Rect.Dy (fun y data =>
          forLoop image.Rect.Dx (fun x data =>
            if isBlack image x y then
              andIndex data
                (Go.add (Go.div y 8)
                  (Go.mul (Go.sub (Go.sub image.Rect.Dx (Go.sub (Go.sub e.Height x) 1)) 1)
                    (lineWidth e)))
                (clearMask (Go.mod y 8))
            else pure data) data) (List.replicate n 0xFF)
      else do
        fmtPrintf (cantConvert (lineWidth e) e.Height image.Rect.Dx image.Rect.Dy)
        pure (List.replicate n 0xFF)) w := by
  have hmake : makeBytes (Go.mul (lineWidth e) e.Height) w
      = Run.done (List.replicate n 0) w := by
    rw [hsize]
    unfold makeBytes
    rw [if_neg (by omega), Int.toNat_ofNat]
    rfl
  unfold GetBuffer
  simp only []
  rw [bind_done hmake, bind_done (fill_white n w)]

/-- C17, as the code has it. For a geometry whose `Width` is positive, not a multiple
of 8 and at most 2048 and whose `Height` is positive and at most 65536, and for every
image, `GetBuffer` indexes its buffer within range only: the call returns, and the
slice it returns has `ceil(Width/8) * Height` bytes, `ceil(Width/8)` being
`(Width + 7) / 8`. -/
theorem GetBuffer_bounded_geometry (e : Epd) (image : RGBA) (w : World)
    (hw0 : 0 < e.Width) (hw8 : e.Width % 8 ≠ 0) (hw1 : e.Width ≤ 2048)
    (hh0 : 0 < e.Height) (hh1 : e.Height ≤ 65536) :
    ∃ data w1, GetBuffer e image w = Run.done data w1 ∧
      (data.length : Int) = (e.Width + 7) / 8 * e.Height := by
  have hL := lineWidth_of_not_multiple e hw0 hw8 hw1
  obtain ⟨W, H⟩ := e
  simp only at hw0 hw8 hw1 hh0 hh1 hL ⊢
  generalize hLdef : (W + 7) / 8 = L at hL ⊢
  have hL0 : 1 ≤ L := by omega
  have hL1 : L ≤ 256 := by omega
  have hLW : W + 1 ≤ 8 * L := by omega
  have hp0 : 0 ≤ L * H := by positivity
  have hp1 : L * H ≤ 16777216 := by nlinarith
  have hn : (((L * H).toNat : Nat) : Int) = L * H := Int.toNat_of_nonneg hp0
  have hsize : Go.mul (lineWidth ⟨W, H⟩) (Epd.mk W H).Height = (((L * H).toNat : Nat) : Int) := by
    rw [hL, hn]
    show wrapInt (L * H) = L * H
    exact wrapInt_eq _ (by omega) (by omega)
  rw [GetBuffer_fill ⟨W, H⟩ image w (L * H).toNat hsize]
  simp only [hL]
  have hrow : ∀ y : Int, 0 ≤ y → y < H → 0 ≤ y * L ∧ y * L + L ≤ L * H := by
    intro y hy0 hy1
    constructor
    · positivity
    · nlinarith
  by_cases hnat : image.Rect.Dx = W ∧ image.Rect.Dy = H
  · rw [if_pos hnat, hnat.1, hnat.2]
    obtain ⟨d1, hrun, hlen⟩ := forLoop_length (L * H).toNat H _ w
      (fun y d hy0 hy1 hd => forLoop_length (L * H).toNat W _ w
        (fun x d2 hx0 hx1 hd2 => by
          obtain ⟨hr0, hr1⟩ := hrow y hy0 hy1
          have h1 : Go.sub W x = W - x := wrapInt_eq _ (by omega) (by omega)
          have h2 : Go.div (W - x) 8 = (W - x) / 8 := Int.tdiv_eq_ediv (by omega) (by norm_num)
          have h3 : Go.mul y L = y * L := wrapInt_eq _ (by omega) (by omega)
          have h4 : Go.add ((W - x) / 8) (y * L) = (W - x) / 8 + y * L :=
            wrapInt_eq _ (by omega) (by omega)
          show ∃ d1, (if isBlack image x y then andIndex d2
            (Go.add (Go.div (Go.sub W x) 8) (Go.mul y L)) (clearMask (Go.mod (Go.sub W x) 8))
            else pure d2) w = Run.done d1 w ∧ d1.length = (L * H).toNat
          rw [h1, h2, h3, h4]
          exact pixel_length (L * H).toNat _ _ _ w (by omega) (by omega) d2 hd2) d hd)
      (List.replicate (L * H).toNat 0xFF) (by simp)
    exact ⟨d1, w, hrun, by rw [hlen, hn]⟩
  · rw [if_neg hnat]
    by_cases hrot : image.Rect.Dx = H ∧ image.Rect.Dy = W
    · rw [if_pos hrot, hrot.1, hrot.2]
      obtain ⟨d1, hrun, hlen⟩ := forLoop_length (L * H).toNat W _ w
        (fun y d hy0 hy1 hd => forLoop_length (L * H).toNat H _ w
          (fun x d2 hx0 hx1 hd2 => by
            obtain ⟨hr0, hr1⟩ := hrow x hx0 hx1
            have h1 : Go.sub H x = H - x := wrapInt_eq _ (by omega) (by omega)
            have h2 : Go.sub (H - x) 1 = H - x - 1 := wrapInt_eq _ (by omega) (by omega)
            have h3 : Go.sub H (H - x - 1) = x + 1 := by
              rw [Go.sub, wrapInt_eq _ (by omega) (by omega)]
              omega
            have h4 : Go.sub (x + 1) 1 = x := by
              rw [Go.sub, wrapInt_eq _ (by omega) (by omega)]
              omega
            have h5 : Go.mul x L = x * L := wrapInt_eq _ (by omega) (by omega)
            have h6 : Go.div y 8 = y / 8 := Int.tdiv_eq_ediv hy0 (by norm_num)
            have h7 : Go.add (y / 8) (x * L) = y / 8 + x * L :=
              wrapInt_eq _ (by omega) (by omega)
            show ∃ d1, (if isBlack image x y then andIndex d2
              (Go.add (Go.div y 8) (Go.mul (Go.sub (Go.sub H (Go.sub (Go.sub H x) 1)) 1) L))
              (clearMask (Go.mod y 8))
              else pure d2) w = Run.done d1 w ∧ d1.length = (L * H).toNat
            rw [h1, h2, h3, h4, h5, h6, h7]
            exact pixel_length (L * H).toNat _ _ _ w (by omega) (by omega) d2 hd2) d hd)
        (List.replicate (L * H).toNat 0xFF) (by simp)
      exact ⟨d1, w, hrun, by rw [hlen, hn]⟩
    · rw [if_neg hrot]
      exact ⟨List.replicate (L * H).toNat 0xFF, _, rfl, by simp [hn]⟩

/-- The amended C17 at the geometry 10x3 and the black image of 10x3 pixels. -/
theorem GetBuffer_bounded_geometry_witness :
    (10 : Int) % 8 ≠ 0 ∧
    ∃ data w1, GetBuffer ⟨10, 3⟩ (uniformImage 10 3 blackPixel) quiet = Run.done data w1 ∧
      (data.length : Int) = (10 + 7) / 8 * 3 :=
  ⟨by decide,
    GetBuffer_bounded_geometry ⟨10, 3⟩ (uniformImage 10 3 blackPixel) quiet
      (by decide) (by decide) (by decide) (by decide) (by decide)⟩

/-! ## Absolute coordinates -/

theorem buffer_ext (a b : List Nat) (ha : IsBuffer 4000 a) (hb : IsBuffer 4000 b)
    (h : ∀ k, (bitOf a k = false ↔ bitOf b k = false)) : a = b := by
  apply List.ext_getElem
  · rw [ha.1, hb.1]
  · intro i h1 h2
    have hi : i < 4000 := by rw [← ha.1]; exact h1
    have e := getD_eq_of_bits 4000 a ha i hi (b.getD i 0) (hb.2 i hi) (fun j hj => by
      rw [h]
      unfold bitOf
      have e1 : (8 * i + j) / 8 = i := by omega
      have e2 : (8 * i + j) % 8 = j := by omega
      rw [e1, e2])
    rw [List.getD_eq_getElem _ _ h1, List.getD_eq_getElem _ _ h2] at e
    exact e

theorem outside_not_black (image : RGBA) (x y : Int)
    (h : Point.In ⟨x, y⟩ image.Rect = false) : isBlack image x y = false := by
  rw [← Bool.not_eq_true, isBlack_iff]
  rintro ⟨hin, _⟩
  rw [h] at hin
  cases hin

/-- Two images of panel size with the same bounds and the same black pixels among the
points `(x, y)` with `0 <= x < Dx` and `0 <= y < Dy` have the same encoding. -/
theorem GetBuffer_congr (image image2 : RGBA) (w : World)
    (hsize : (image.Rect.Dx = 122 ∧ image.Rect.Dy = 250) ∨
      (image.Rect.Dx = 250 ∧ image.Rect.Dy = 122))
    (hrect : image2.Rect = image.Rect)
    (hblack : ∀ x y : Int, 0 ≤ x → x < image.Rect.Dx → 0 ≤ y → y < image.Rect.Dy →
      isBlack image2 x y = isBlack image x y) :
    GetBuffer CreateEpd image2 w = GetBuffer CreateEpd image w := by
  rcases hsize with ⟨hdx, hdy⟩ | ⟨hdx, hdy⟩
  · obtain ⟨d1, hrun1, hbuf1, hbits1⟩ := GetBuffer_native_bits image w hdx hdy
    obtain ⟨d2, hrun2, hbuf2, hbits2⟩ :=
      GetBuffer_native_bits image2 w (by rw [hrect]; exact hdx) (by rw [hrect]; exact hdy)
    have e : d2 = d1 := by
      apply buffer_ext d2 d1 hbuf2 hbuf1
      intro k
      rw [hbits1, hbits2]
      constructor
      · rintro (h | ⟨y, hy0, hy1, x, hx0, hx1, hb, he⟩)
        · exact Or.inl h
        · exact Or.inr ⟨y, hy0, hy1, x, hx0, hx1,
            by rw [← hblack x y hx0 (by omega) hy0 (by omega)]; exact hb, he⟩
      · rintro (h | ⟨y, hy0, hy1, x, hx0, hx1, hb, he⟩)
        · exact Or.inl h
        · exact Or.inr ⟨y, hy0, hy1, x, hx0, hx1,
            by rw [hblack x y hx0 (by omega) hy0 (by omega)]; exact hb, he⟩
    rw [hrun1, hrun2, e]
  · obtain ⟨d1, hrun1, hbuf1, hbits1⟩ := GetBuffer_rotated_bits image w hdx hdy
    obtain ⟨d2, hrun2, hbuf2, hbits2⟩ :=
      GetBuffer_rotated_bits image2 w (by rw [hrect]; exact hdx) (by rw [hrect]; exact hdy)
    have e : d2 = d1 := by
      apply buffer_ext d2 d1 hbuf2 hbuf1
      intro k
      rw [hbits1, hbits2]
      constructor
      · rintro (h | ⟨y, hy0, hy1, x, hx0, hx1, hb, he⟩)
        · exact Or.inl h
        · exact Or.inr ⟨y, hy0, hy1, x, hx0, hx1,
            by rw [← hblack x y hx0 (by omega) hy0 (by omega)]; exact hb, he⟩
      · rintro (h | ⟨y, hy0, hy1, x, hx0, hx1, hb, he⟩)
        · exact Or.inl h
        · exact Or.inr ⟨y, hy0, hy1, x, hx0, hx1,
            by rw [hblack x y hx0 (by omega) hy0 (by omega)]; exact hb, he⟩
    rw [hrun1, hrun2, e]

/-- C19. `GetBuffer` reads the pixel of the absolute point `(x, y)` for `0 <= x < Dx` and
`0 <= y < Dy`, whatever the origin of the image's bounds. For an image of panel size:
an image with the same bounds whose stored pixels agree with it at the points of the
bounds that lie in `[0,Dx) x [0,Dy)` has the same encoding, so no other pixel has an
influence; a point outside the bounds reads as the transparent colour and is not
black; and when no point of `[0,Dx) x [0,Dy)` is in the bounds the encoding is 4000
bytes `0xFF`, whatever the pixels. -/
theorem GetBuffer_absolute (image image2 : RGBA) (w : World)
    (hsize : (image.Rect.Dx = 122 ∧ image.Rect.Dy = 250) ∨
      (image.Rect.Dx = 250 ∧ image.Rect.Dy = 122))
    (hrect : image2.Rect = image.Rect)
    (hagree : ∀ x y : Int, 0 ≤ x → x < image.Rect.Dx → 0 ≤ y → y < image.Rect.Dy →
      Point.In ⟨x, y⟩ image.Rect = true → image2.stored x y = image.stored x y) :
    GetBuffer CreateEpd image2 w = GetBuffer CreateEpd image w ∧
    (∀ x y : Int, Point.In ⟨x, y⟩ image.Rect = false →
      image.At x y = ⟨0, 0, 0, 0⟩ ∧ isBlack image x y = false) ∧
    ((∀ x y : Int, 0 ≤ x → x < image.Rect.Dx → 0 ≤ y → y < image.Rect.Dy →
        Point.In ⟨x, y⟩ image.Rect = false) →
      GetBuffer CreateEpd image w = Run.done (List.replicate 4000 0xFF) w) := by
  refine ⟨?_, ?_, ?_⟩
  · apply GetBuffer_congr image image2 w hsize hrect
    intro x y hx0 hx1 hy0 hy1
    by_cases hin : Point.In ⟨x, y⟩ image.Rect = true
    · have e := hagree x y hx0 hx1 hy0 hy1 hin
      rw [Bool.eq_iff_iff, isBlack_iff, isBlack_iff, hrect, e]
    · have hout : Point.In ⟨x, y⟩ image.Rect = false := by simpa using hin
      rw [outside_not_black image x y hout,
        outside_not_black image2 x y (by rw [hrect]; exact hout)]
  · intro x y hout
    refine ⟨?_, outside_not_black image x y hout⟩
    unfold RGBA.At
    rw [hout]
    rfl
  · intro hdisjoint
    exact GetBuffer_white_of_no_black image w hsize (fun x y hx0 hx1 hy0 hy1 =>
      outside_not_black image x y (hdisjoint x y hx0 hx1 hy0 hy1))

theorem offsetImage_outside (c : Color) (x y : Int) (hx1 : x < 122) :
    Point.In ⟨x, y⟩ (offsetImage 122 250 122 250 c).Rect = false := by
  simp only [offsetImage, Point.In, decide_eq_false_iff_not]
  omega

/-- C19 at the black image with bounds `(122,250)-(244,500)`: no point of
`[0,122) x [0,250)` is in its bounds, its encoding is that of the white image with the
same bounds, and it is 4000 bytes `0xFF`. -/
theorem GetBuffer_absolute_witness :
    ((offsetImage 122 250 122 250 blackPixel).Rect.Dx = 122 ∧
      (offsetImage 122 250 122 250 blackPixel).Rect.Dy = 250) ∧
    (∀ x y : Int, isBlack (offsetImage 122 250 122 250 blackPixel) x y = true ↔
      (122 ≤ x ∧ x < 244 ∧ 250 ≤ y ∧ y < 500)) ∧
    GetBuffer CreateEpd (offsetImage 122 250 122 250 whitePixel) quiet
      = GetBuffer CreateEpd (offsetImage 122 250 122 250 blackPixel) quiet ∧
    GetBuffer CreateEpd (offsetImage 122 250 122 250 blackPixel) quiet
      = Run.done (List.replicate 4000 0xFF) quiet := by
  have e : (offsetImage 122 250 122 250 blackPixel).Rect.Dx = 122 := by decide
  have h := GetBuffer_absolute (offsetImage 122 250 122 250 blackPixel)
    (offsetImage 122 250 122 250 whitePixel) quiet (Or.inl ⟨by decide, by decide⟩) rfl
    (fun x y _ hx1 _ _ hin => by
      rw [e] at hx1
      rw [offsetImage_outside blackPixel x y hx1] at hin
      cases hin)
  refine ⟨⟨by decide, by decide⟩, ?_, h.1, h.2.2 ?_⟩
  · intro x y
    rw [isBlack_iff]
    simp only [offsetImage, Point.In, decide_eq_true_eq, blackPixel]
    constructor
    · rintro ⟨⟨h1, h2, h3, h4⟩, _⟩
      exact ⟨h1, by omega, h3, by omega⟩
    · rintro ⟨h1, h2, h3, h4⟩
      exact ⟨⟨h1, by omega, h3, by omega⟩, by norm_num, by norm_num, by norm_num,
        by norm_num⟩
  · intro x y _ hx1 _ _
    rw [e] at hx1
    exact offsetImage_outside blackPixel x y hx1

end Epaper
